import Mathlib

/-!
A* grid search (`astar.cpp`): embedding and verified properties.

The C++ program keeps a `width × height` grid of walkable flags and runs a
best-first search over 8-connected cells, ordered by `fCost = gCost + hCost`
with the Manhattan distance as `hCost`.

Modelling conventions.

* `int` is modelled by `Int`.  Signed overflow is undefined behaviour in C++,
  so the model describes the executions in which none occurs.  With `start`
  and the goal in bounds every coordinate that is computed lies between `-1`
  and the width or height, and every heuristic value below width plus height.
* `Node*` values are modelled by the inductive type `Node`: a node created with
  `parent == nullptr` is `Node.root`, a node created with a parent pointer is
  `Node.child` and carries its parent.  The program never compares node
  pointers and never mutates a node once it has been filled in, so the value
  view loses nothing.
* `std::priority_queue<Node*, …, CompareNode>` is modelled by the list of its
  elements.  `top()/pop()` remove an element of minimal `fCost`; which of
  several minimal elements is removed depends on the heap layout, and is
  modelled by an arbitrary stream `tie : Nat → Nat` consulted once per
  iteration.  Every conceivable tie-breaking is some such stream.
* `std::unordered_map<Point, Node*>` is modelled by `Point → Option Node`
  (`none`: no entry, or a null entry left behind by `operator[]`).
* The `while` loop is modelled with a fuel argument; `none` means that the
  fuel ran out, `some path` that the loop finished and `path` was returned.
* For what successive calls do, the call is modelled a second time, as a
  transformer of the object (`findPathCall`): the object is passed from
  statement to statement together with the local variables, and the library
  queue is a parameter (`PriorityQueue`) whose operations are functions of the
  queue value.  `findPathCall_eq_findPath` shows that a call with a lawful
  queue is the run of the list model under the tie-breaking of that queue.
-/

set_option autoImplicit false

namespace AStarExample

/-! ## Data model -/

/-- A grid position, `class Point`. -/
structure Point where
  x : Int
  y : Int
deriving DecidableEq, Repr

/-- A search node, `struct AStar::Node`.  `root` is a node whose `parent` is
`nullptr`; `child` is a node with a parent. -/
inductive Node where
  | root (coordinates : Point) (gCost hCost : Int)
  | child (coordinates : Point) (parent : Node) (gCost hCost : Int)
deriving DecidableEq, Repr

namespace Node

/-- The field `coordinates`. -/
def coordinates : Node → Point
  | root c _ _ => c
  | child c _ _ _ => c

/-- The field `parent`; `none` for `nullptr`. -/
def parent? : Node → Option Node
  | root _ _ _ => none
  | child _ p _ _ => some p

/-- The field `gCost`, the cost from start to the node. -/
def gCost : Node → Int
  | root _ g _ => g
  | child _ _ g _ => g

/-- The field `hCost`, the heuristic estimate to the goal. -/
def hCost : Node → Int
  | root _ _ h => h
  | child _ _ _ h => h

/-- Total cost, `int fCost() const { return gCost + hCost; }`. -/
def fCost (n : Node) : Int := n.gCost + n.hCost

/-- The inner loop of the goal branch: push the coordinates of the node and of
all its ancestors, following `parent` until `nullptr`. -/
def trace : Node → List Point
  | root c _ _ => [c]
  | child c p _ _ => c :: trace p

end Node

/-- The object state of `class AStar`: `start`, `end`, `grid`, `gridWidth`,
`gridHeight`.  (`end` is a keyword of Lean, hence `end_`, the name of the
constructor argument.) -/
structure AStar where
  start : Point
  end_ : Point
  grid : List (List Bool)
  gridWidth : Int
  gridHeight : Int
deriving DecidableEq, Repr

/-- The diagonal move cost, `int diagonalCost = sqrt(2);`: the conversion of
`1.414…` to `int` truncates to `1`. -/
def diagonalCost : Int := 1

/-- The straight move cost, `int straightCost = 1;`. -/
def straightCost : Int := 1

/-- Manhattan distance, `AStar::heuristic`. -/
def heuristic (a b : Point) : Int := |a.x - b.x| + |a.y - b.y|

namespace AStar

/-- The constructor `AStar(width, height, start_, end_)`.  `grid.resize` with a
negative size throws, modelled by `none`. -/
def construct (width height : Int) (start_ end_ : Point) : Option AStar :=
  if 0 ≤ width ∧ 0 ≤ height then
    some
      { start := start_
        end_ := end_
        grid := List.replicate width.toNat (List.replicate height.toNat true)
        gridWidth := width
        gridHeight := height }
  else none

/-- The read `grid[x][y]`.  The program performs it only after a successful
bounds test; outside the vectors the model answers `false`. -/
def cellAt (a : AStar) (x y : Int) : Bool :=
  (a.grid.getD x.toNat []).getD y.toNat false

/-- The method `AStar::isInBounds`. -/
def isInBounds (a : AStar) (p : Point) : Bool :=
  decide (p.x ≥ 0 ∧ p.x < a.gridWidth ∧ p.y ≥ 0 ∧ p.y < a.gridHeight)

/-- The method `AStar::setWall`. -/
def setWall (a : AStar) (x y : Int) : AStar :=
  if x ≥ 0 ∧ x < a.gridWidth ∧ y ≥ 0 ∧ y < a.gridHeight then
    { a with grid := a.grid.set x.toNat ((a.grid.getD x.toNat []).set y.toNat false) }
  else a

/-- The method `AStar::isWalkable`. -/
def isWalkable (a : AStar) (x y : Int) : Bool :=
  if x ≥ 0 ∧ x < a.gridWidth ∧ y ≥ 0 ∧ y < a.gridHeight then a.cellAt x y
  else false

/-- Shape invariant of the grid: `gridWidth` columns of `gridHeight` flags. -/
def WF (a : AStar) : Prop :=
  0 ≤ a.gridWidth ∧ 0 ≤ a.gridHeight ∧ a.grid.length = a.gridWidth.toNat ∧
    ∀ col ∈ a.grid, col.length = a.gridHeight.toNat

/-- A sequence of `setWall` calls, as in `main`. -/
def setWalls (a : AStar) (walls : List (Int × Int)) : AStar :=
  walls.foldl (fun b p => b.setWall p.1 p.2) a

end AStar

/-! ## The search -/

/-- The local variables `openSet` and `allNodes` of `findPath`. -/
structure SearchState where
  openSet : List Node
  allNodes : Point → Option Node

/-- The eight neighbour offsets `(x, y)`, in the order of the two nested
`for` loops, the zero offset skipped. -/
def offsets : List (Int × Int) :=
  [(-1, -1), (-1, 0), (-1, 1), (0, -1), (0, 1), (1, -1), (1, 0), (1, 1)]

/-- The cell `newCoordinates` reached from `p` by the offset `o`. -/
def neighbour (p : Point) (o : Int × Int) : Point :=
  ⟨p.x + o.1, p.y + o.2⟩

/-- The node `successor` built for the offset `o` of `cur`. -/
def successor (a : AStar) (cur : Node) (o : Int × Int) : Node :=
  Node.child (neighbour cur.coordinates o) cur
    (cur.gCost + (if |o.1| + |o.2| = 1 then straightCost else diagonalCost))
    (heuristic (neighbour cur.coordinates o) a.end_)

/-- The statements `openSet.push(successor); allNodes[...] = successor;`. -/
def pushNode (st : SearchState) (s : Node) : SearchState :=
  { openSet := st.openSet ++ [s]
    allNodes := fun p => if p = s.coordinates then some s else st.allNodes p }

/-- The body of the inner `for` loop for one offset `o`. -/
def relax (a : AStar) (cur : Node) (st : SearchState) (o : Int × Int) : SearchState :=
  let nc := neighbour cur.coordinates o
  if !a.isInBounds nc || !a.cellAt nc.x nc.y then st
  else
    let s := successor a cur o
    match st.allNodes s.coordinates with
    | some existingNode => if existingNode.gCost ≤ s.gCost then st else pushNode st s
    | none => pushNode st s

/-- The two nested `for` loops: all eight neighbours of `cur`. -/
def expand (a : AStar) (cur : Node) (st : SearchState) : SearchState :=
  offsets.foldl (relax a cur) st

/-- The elements of the open set that `top()` may return: those whose `fCost`
is minimal. -/
def candidates (l : List Node) : List Node :=
  l.filter (fun n => l.all (fun m => decide (n.fCost ≤ m.fCost)))

/-- The calls `openSet.top(); openSet.pop();` with tie-break choice `t`; `none`
when the open set is empty. -/
def popOpen (t : Nat) (l : List Node) : Option (Node × List Node) :=
  match (candidates l)[t % (candidates l).length]? with
  | some n => some (n, l.erase n)
  | none => none

/-- The `while (!openSet.empty())` loop followed by `reverse(path)`. -/
def search (a : AStar) : Nat → (Nat → Nat) → SearchState → Option (List Point)
  | 0, _, _ => none
  | fuel + 1, tie, st =>
    match popOpen (tie 0) st.openSet with
    | none => some []
    | some (cur, rest) =>
      if cur.coordinates = a.end_ then some cur.trace.reverse
      else search a fuel (fun i => tie (i + 1)) (expand a cur { st with openSet := rest })

/-- The state before the loop: `startNode` pushed and registered. -/
def initState (a : AStar) : SearchState :=
  pushNode { openSet := [], allNodes := fun _ => none }
    (Node.root a.start 0 (heuristic a.start a.end_))

/-- The method `AStar::findPath`. -/
def findPath (a : AStar) (tie : Nat → Nat) (fuel : Nat) : Option (List Point) :=
  search a fuel tie (initState a)

/-! ## Routes on the grid -/

/-- One 8-directional move from `c` onto the in-bounds walkable cell `d`. -/
def IsMove (a : AStar) (c d : Point) : Prop :=
  ∃ o ∈ offsets, d = neighbour c o ∧ a.isWalkable d.x d.y = true

instance (a : AStar) (c d : Point) : Decidable (IsMove a c d) :=
  inferInstanceAs (Decidable (∃ o ∈ offsets, d = neighbour c o ∧ a.isWalkable d.x d.y = true))

/-- A route from `c` to `d`: the cells `ds` are moved onto one after the other,
each by one move, and the last cell reached is `d` (no move at all when `ds` is
empty and `c = d`).  Its cost is `ds.length`, every move costing `1`. -/
def IsRoute (a : AStar) : Point → List Point → Point → Prop
  | c, [], d => c = d
  | c, e :: ds, d => IsMove a c e ∧ IsRoute a e ds d

instance IsRoute.instDecidable (a : AStar) :
    ∀ (c : Point) (ds : List Point) (d : Point), Decidable (IsRoute a c ds d)
  | c, [], d => inferInstanceAs (Decidable (c = d))
  | _, e :: ds, d => @instDecidableAnd _ _ _ (IsRoute.instDecidable a e ds d)

/-- Adjacency of two cells: `|dx| ≤ 1`, `|dy| ≤ 1`, not both zero. -/
def Adjacent (c d : Point) : Prop :=
  |d.x - c.x| ≤ 1 ∧ |d.y - c.y| ≤ 1 ∧ ¬ (d.x - c.x = 0 ∧ d.y - c.y = 0)

instance (c d : Point) : Decidable (Adjacent c d) :=
  inferInstanceAs (Decidable (|d.x - c.x| ≤ 1 ∧ |d.y - c.y| ≤ 1 ∧
    ¬ (d.x - c.x = 0 ∧ d.y - c.y = 0)))

/-- Chebyshev distance between two cells. -/
def chebyshev (c d : Point) : Int := max |c.x - d.x| |c.y - d.y|

/-! ## Invariants of the search -/

/-- Well-formedness of a node: the chain of parents ends in the start node
(`gCost = 0`), every node of the chain was reached from its parent by one move
onto a walkable cell at cost `1`, and `hCost` is the heuristic of the node's
cell. -/
def Node.Good (a : AStar) : Node → Prop
  | .root c g h => c = a.start ∧ g = 0 ∧ h = heuristic c a.end_
  | .child c p g h =>
      Node.Good a p ∧ IsMove a p.coordinates c ∧ g = p.gCost + 1 ∧ h = heuristic c a.end_

/-- The cell `c`, registered with cost `g`, has been expanded: each walkable
neighbour has a registry entry of cost at most `g + 1`. -/
def Closed (a : AStar) (st : SearchState) (c : Point) (g : Int) : Prop :=
  ∀ o ∈ offsets, a.isWalkable (neighbour c o).x (neighbour c o).y = true →
    ∃ e, st.allNodes (neighbour c o) = some e ∧ e.gCost ≤ g + 1

/-- The loop invariant of `findPath` at the head of the `while` loop. -/
structure Inv (a : AStar) (st : SearchState) : Prop where
  open_good : ∀ n ∈ st.openSet, n.Good a
  reg_coords : ∀ c e, st.allNodes c = some e → e.coordinates = c
  reg_start : ∃ e, st.allNodes a.start = some e ∧ e.gCost ≤ 0
  reg_closed : ∀ c e, st.allNodes c = some e →
    e ∈ st.openSet ∨ (c ≠ a.end_ ∧ Closed a st c e.gCost)

/-- The invariant inside the two `for` loops, while `cur` is being expanded. -/
structure Mid (a : AStar) (cur : Node) (st : SearchState) : Prop where
  open_good : ∀ n ∈ st.openSet, n.Good a
  reg_coords : ∀ c e, st.allNodes c = some e → e.coordinates = c
  reg_start : ∃ e, st.allNodes a.start = some e ∧ e.gCost ≤ 0
  reg_closed : ∀ c e, st.allNodes c = some e →
    e ∈ st.openSet ∨ e = cur ∨ (c ≠ a.end_ ∧ Closed a st c e.gCost)

/-! ## Termination measure -/

/-- All in-bounds cells of the grid. -/
def AStar.cells (a : AStar) : List Point :=
  (List.range a.gridWidth.toNat).flatMap fun (i : Nat) =>
    (List.range a.gridHeight.toNat).map fun (j : Nat) => (⟨Int.ofNat i, Int.ofNat j⟩ : Point)

/-- Number of in-bounds cells without a registry entry. -/
def unregistered (a : AStar) (st : SearchState) : Nat :=
  (a.cells.map fun c => match st.allNodes c with
    | some _ => 0
    | none => 1).sum

/-- Sum of the registered costs of the in-bounds cells, plus the size of the
open set. -/
def weight (a : AStar) (st : SearchState) : Nat :=
  (a.cells.map fun c => match st.allNodes c with
    | some e => e.gCost.toNat
    | none => 0).sum + st.openSet.length

/-- The state `s2` is not above `s` in the lexicographic order on
`(unregistered, weight)`. -/
def Below (a : AStar) (s s2 : SearchState) : Prop :=
  unregistered a s2 < unregistered a s ∨
    (unregistered a s2 = unregistered a s ∧ weight a s2 ≤ weight a s)

/-! ## Concrete grids and tie-free runs -/

/-- The object after the constructor call and a sequence of `setWall` calls, as
in `main`; `none` when the constructor throws. -/
def AStar.build (width height : Int) (start_ end_ : Point) (walls : List (Int × Int)) :
    Option AStar :=
  (AStar.construct width height start_ end_).map fun a => a.setWalls walls

/-- The loop on runs without ties: it proceeds only while the open set has at
most one element of minimal `fCost`, and answers `none` at a tie or when the
fuel runs out. -/
def searchNoTie (a : AStar) : Nat → SearchState → Option (List Point)
  | 0, _ => none
  | fuel + 1, st =>
    match candidates st.openSet with
    | [] => some []
    | [cur] =>
      if cur.coordinates = a.end_ then some cur.trace.reverse
      else searchNoTie a fuel (expand a cur { st with openSet := st.openSet.erase cur })
    | _ :: _ :: _ => none

/-! ## The straight run on an obstacle-free grid -/

/-- The offset that points from `p` towards `g` in each coordinate. -/
def towards (p g : Point) : Int × Int :=
  (Int.sign (g.x - p.x), Int.sign (g.y - p.y))

/-- The node popped in iteration `k` on an obstacle-free grid: the start node,
then each time the successor of the previous node in the direction of the
goal. -/
def lineNode (a : AStar) : Nat → Node
  | 0 => Node.root a.start 0 (heuristic a.start a.end_)
  | k + 1 => successor a (lineNode a k) (towards (lineNode a k).coordinates a.end_)

/-- The cell `p` lies in the bounding box of `s` and `g`. -/
def Between (s g p : Point) : Prop :=
  min s.x g.x ≤ p.x ∧ p.x ≤ max s.x g.x ∧ min s.y g.y ≤ p.y ∧ p.y ≤ max s.y g.y

/-- The loop invariant on an obstacle-free grid at the head of iteration `k`:
`lineNode a k` is the one open node of minimal `fCost`, and no cell closer to
the goal than `chebyshev start end - k` is registered. -/
structure LineInv (a : AStar) (k : Nat) (st : SearchState) : Prop where
  perm : ∃ others, st.openSet.Perm (lineNode a k :: others) ∧
    ∀ n ∈ others, (lineNode a k).fCost < n.fCost
  far : ∀ c e, st.allNodes c = some e →
    chebyshev a.start a.end_ - (k : Int) ≤ chebyshev c a.end_

/-! ## Runs under every tie-breaking -/

/-- The loop followed through every tie-breaking at once: `true` when every
run from `st`, whichever minimal element each `top()` returns, finishes within
`fuel` iterations with a path accepted by `P`. -/
def allRuns (a : AStar) (P : List Point → Bool) : Nat → SearchState → Bool
  | 0, _ => false
  | fuel + 1, st =>
    match candidates st.openSet with
    | [] => P []
    | c :: cs => (c :: cs).all fun cur =>
        if cur.coordinates = a.end_ then P cur.trace.reverse
        else allRuns a P fuel (expand a cur { st with openSet := st.openSet.erase cur })

/-! ## The grid of `main` -/

/-- The nineteen `setWall` calls of `main`, in program order. -/
def mainWalls : List (Int × Int) :=
  [(1, 1), (1, 2), (1, 3), (2, 3), (3, 3), (4, 3), (5, 3), (6, 3), (6, 2),
   (6, 1), (6, 0), (0, 6), (1, 6), (2, 6),
   (5, 9), (5, 8),
   (9, 8), (8, 8), (7, 8)]

/-- A table of numbers indexed like the grid, read at a cell (`0` outside). -/
def tableAt (tab : List (List Int)) (p : Point) : Int :=
  (tab.getD p.x.toNat []).getD p.y.toNat 0

/-- For each cell of the grid of `main`, the number of moves of a shortest
route from the start (5,0); `99` for walls. -/
def mainDistance : List (List Int) :=
  [[5, 5, 6, 7, 8, 9, 99, 13, 13, 13],
   [4, 99, 99, 99, 8, 9, 99, 12, 12, 13],
   [3, 3, 3, 99, 9, 9, 99, 11, 12, 13],
   [2, 2, 2, 99, 10, 10, 10, 11, 12, 13],
   [1, 1, 2, 99, 11, 11, 11, 11, 12, 13],
   [0, 1, 2, 99, 12, 12, 12, 12, 99, 99],
   [99, 99, 99, 99, 13, 13, 13, 13, 13, 14],
   [17, 16, 15, 14, 14, 14, 14, 14, 99, 14],
   [17, 16, 15, 15, 15, 15, 15, 15, 99, 15],
   [17, 16, 16, 16, 16, 16, 16, 16, 99, 16]]

/-! ## The call as a transformer of the object -/

/-- The class `std::priority_queue<Node*, vector<Node*>, CompareNode>`.  The
program takes it from the standard library, so it is a parameter of the model:
a type of queue values with the operations that `findPath` calls.  `create` is
the default constructor, `top` combines `empty()` and `top()` (`none` on an
empty queue), and `toList` lists the elements held, which the program never
asks for.  Every operation is a function of the queue value, as it is for the
library class, whose result depends on nothing but the elements pushed and
popped so far and on what `CompareNode` answers. -/
structure PriorityQueue where
  Queue : Type
  create : Queue
  push : Queue → Node → Queue
  top : Queue → Option Node
  pop : Queue → Queue
  toList : Queue → List Node

/-- What the standard demands of the queue: it holds the elements pushed and
not yet popped, and `top()` is one of them whose `fCost` is minimal. -/
structure PriorityQueue.Lawful (pq : PriorityQueue) : Prop where
  toList_create : pq.toList pq.create = []
  toList_push : ∀ q n, (pq.toList (pq.push q n)).Perm (n :: pq.toList q)
  top_none : ∀ q, pq.top q = none → pq.toList q = []
  top_mem : ∀ q n, pq.top q = some n → n ∈ pq.toList q
  top_le : ∀ q n, pq.top q = some n → ∀ m ∈ pq.toList q, n.fCost ≤ m.fCost
  toList_pop : ∀ q n, pq.top q = some n →
    (pq.toList (pq.pop q)).Perm ((pq.toList q).erase n)

/-- The object on which `findPath` runs together with the local variables
`openSet` and `allNodes` of the call. -/
structure CallState (pq : PriorityQueue) where
  self : AStar
  openSet : pq.Queue
  allNodes : Point → Option Node

/-- The statements `openSet.push(successor); allNodes[...] = successor;`. -/
def pushNodeCall (pq : PriorityQueue) (cs : CallState pq) (s : Node) : CallState pq :=
  { self := cs.self
    openSet := pq.push cs.openSet s
    allNodes := fun p => if p = s.coordinates then some s else cs.allNodes p }

/-- The body of the inner `for` loop for one offset `o`: it reads
`gridWidth`, `gridHeight`, `grid` and `end` of the object. -/
def relaxCall (pq : PriorityQueue) (cur : Node) (cs : CallState pq) (o : Int × Int) :
    CallState pq :=
  let nc := neighbour cur.coordinates o
  if !cs.self.isInBounds nc || !cs.self.cellAt nc.x nc.y then cs
  else
    let s := successor cs.self cur o
    match cs.allNodes s.coordinates with
    | some existingNode => if existingNode.gCost ≤ s.gCost then cs else pushNodeCall pq cs s
    | none => pushNodeCall pq cs s

/-- The two nested `for` loops. -/
def expandCall (pq : PriorityQueue) (cur : Node) (cs : CallState pq) : CallState pq :=
  offsets.foldl (relaxCall pq cur) cs

/-- The `while (!openSet.empty())` loop, `reverse(path)` and `return path`,
with the object as the loop leaves it. -/
def searchCall (pq : PriorityQueue) : Nat → CallState pq → Option (List Point × AStar)
  | 0, _ => none
  | fuel + 1, cs =>
    match pq.top cs.openSet with
    | none => some ([], cs.self)
    | some cur =>
      if cur.coordinates = cs.self.end_ then some (cur.trace.reverse, cs.self)
      else
        searchCall pq fuel
          (expandCall pq cur
            { self := cs.self, openSet := pq.pop cs.openSet, allNodes := cs.allNodes })

/-- The state of a call before the loop: a new queue and a new registry, with
`startNode` pushed and registered. -/
def initCall (pq : PriorityQueue) (a : AStar) : CallState pq :=
  pushNodeCall pq { self := a, openSet := pq.create, allNodes := fun _ => none }
    (Node.root a.start 0 (heuristic a.start a.end_))

/-- A call `a.findPath()` with the library queue `pq`: the returned vector and
the object after the call. -/
def findPathCall (pq : PriorityQueue) (a : AStar) (fuel : Nat) : Option (List Point × AStar) :=
  searchCall pq fuel (initCall pq a)

/-- The tie-breaking choices of the queue `pq`: the position, among the
candidates of the list model, of the node that `pq` pops in iteration `k`
counted from the states `cs` and `st`. -/
def tieOf (pq : PriorityQueue) : Nat → CallState pq → SearchState → Nat
  | 0, cs, st =>
    match pq.top cs.openSet with
    | none => 0
    | some cur => (candidates st.openSet).indexOf cur
  | k + 1, cs, st =>
    match pq.top cs.openSet with
    | none => 0
    | some cur =>
      tieOf pq k
        (expandCall pq cur
          { self := cs.self, openSet := pq.pop cs.openSet, allNodes := cs.allNodes })
        (expand cs.self cur { st with openSet := st.openSet.erase cur })

/-- A queue that keeps its elements in the order of insertion and whose `top()`
is the oldest element of minimal `fCost`. -/
def oldestFirst : PriorityQueue where
  Queue := List Node
  create := []
  push q n := q ++ [n]
  top q := (candidates q).head?
  pop q :=
    match (candidates q).head? with
    | some n => q.erase n
    | none => q
  toList q := q

/-- A queue that keeps its elements in the order of insertion and whose `top()`
is the newest element of minimal `fCost`. -/
def newestFirst : PriorityQueue where
  Queue := List Node
  create := []
  push q n := q ++ [n]
  top q := (candidates q).getLast?
  pop q :=
    match (candidates q).getLast? with
    | some n => q.erase n
    | none => q
  toList q := q

/-- The state `cs` of a call with the queue `pq` and the state `st` of the list
model hold the same open nodes and the same registry. -/
def Matches (pq : PriorityQueue) (cs : CallState pq) (st : SearchState) : Prop :=
  (pq.toList cs.openSet).Perm st.openSet ∧ cs.allNodes = st.allNodes

/-! ## Reachable states and further invariants -/

/-- Number of parent links from a node back to the node without parent. -/
def Node.moves : Node → Nat
  | .root _ _ _ => 0
  | .child _ p _ _ => p.moves + 1

/-- The predecessor chain of a node: the node, its parent, and so on up to the
node without parent. -/
def Node.chain : Node → List Node
  | .root c g h => [.root c g h]
  | .child c p g h => .child c p g h :: p.chain

/-- The state at the head of iteration `n` of the `while` loop (the first
iteration is iteration `0`) under the tie-breaking `tie`; `none` when the loop
has stopped before. -/
def stateAt (a : AStar) (tie : Nat → Nat) : Nat → Option SearchState
  | 0 => some (initState a)
  | n + 1 =>
    match stateAt a tie n with
    | none => none
    | some st =>
      match popOpen (tie n) st.openSet with
      | none => none
      | some (cur, rest) =>
        if cur.coordinates = a.end_ then none
        else some (expand a cur { st with openSet := rest })

/-- The cells of the chain of `n` are pairwise different, and each of them is
registered with a cost no larger than the cost it has in the chain. -/
def Simple (st : SearchState) (n : Node) : Prop :=
  n.trace.Nodup ∧
    ∀ m ∈ n.chain, ∃ e, st.allNodes m.coordinates = some e ∧ e.gCost ≤ m.gCost

/-- Further facts that hold at the head of the `while` loop: registered nodes
are well-formed, every open node is the registry entry of its cell or has been
superseded there by a node of smaller cost, and chains are simple. -/
structure Inv2 (a : AStar) (st : SearchState) : Prop where
  reg_good : ∀ c e, st.allNodes c = some e → e.Good a
  open_reg : ∀ s ∈ st.openSet, ∃ e, st.allNodes s.coordinates = some e ∧
    (e = s ∨ e.gCost < s.gCost)
  open_simple : ∀ s ∈ st.openSet, Simple st s

/-- The same facts inside the two `for` loops, while `cur` is being expanded. -/
structure Mid2 (a : AStar) (cur : Node) (st : SearchState) : Prop where
  reg_good : ∀ c e, st.allNodes c = some e → e.Good a
  open_reg : ∀ s ∈ st.openSet, ∃ e, st.allNodes s.coordinates = some e ∧
    (e = s ∨ e.gCost < s.gCost)
  open_simple : ∀ s ∈ st.openSet, Simple st s
  cur_simple : Simple st cur

/-! ## Checked indexing -/

/-- The element access `v[i]` of a `std::vector` with an `int` index: `none`
when the index is out of range, where the C++ access has undefined behaviour
(a negative index converts to a huge unsigned one). -/
def indexAt {α : Type} (v : List α) (i : Int) : Option α :=
  if i < 0 then none else v[i.toNat]?

/-- The read `grid[x][y]` with both accesses checked. -/
def AStar.cellAtChecked (a : AStar) (x y : Int) : Option Bool :=
  match indexAt a.grid x with
  | none => none
  | some col => indexAt col y

/-- The method `AStar::isWalkable` with checked indexing; `none` when an index
is out of range. -/
def AStar.isWalkableChecked (a : AStar) (x y : Int) : Option Bool :=
  if x ≥ 0 ∧ x < a.gridWidth ∧ y ≥ 0 ∧ y < a.gridHeight then a.cellAtChecked x y
  else some false

/-- The method `AStar::setWall` with checked indexing: the assignment
`grid[x][y] = false` needs both indices in range. -/
def AStar.setWallChecked (a : AStar) (x y : Int) : Option AStar :=
  if x ≥ 0 ∧ x < a.gridWidth ∧ y ≥ 0 ∧ y < a.gridHeight then
    match indexAt a.grid x with
    | none => none
    | some col =>
      match indexAt col y with
      | none => none
      | some _ => some { a with grid := a.grid.set x.toNat (col.set y.toNat false) }
  else some a

/-- The body of the inner `for` loop with checked indexing.  The operator `||`
evaluates `grid[...]` only when `isInBounds` holds. -/
def relaxChecked (a : AStar) (cur : Node) (st : SearchState) (o : Int × Int) :
    Option SearchState :=
  let nc := neighbour cur.coordinates o
  if !a.isInBounds nc then some st
  else
    match a.cellAtChecked nc.x nc.y with
    | none => none
    | some walkable =>
      if !walkable then some st
      else
        let s := successor a cur o
        match st.allNodes s.coordinates with
        | some existingNode =>
          if existingNode.gCost ≤ s.gCost then some st else some (pushNode st s)
        | none => some (pushNode st s)

/-- The two nested `for` loops with checked indexing. -/
def expandChecked (a : AStar) (cur : Node) : List (Int × Int) → SearchState → Option SearchState
  | [], st => some st
  | o :: os, st =>
    match relaxChecked a cur st o with
    | none => none
    | some st2 => expandChecked a cur os st2

/-- The `while` loop with checked indexing.  The outer `none` means that the
fuel ran out, `some none` that an index was out of range, `some (some path)`
that the loop finished and returned `path`. -/
def searchChecked (a : AStar) :
    Nat → (Nat → Nat) → SearchState → Option (Option (List Point))
  | 0, _, _ => none
  | fuel + 1, tie, st =>
    match popOpen (tie 0) st.openSet with
    | none => some (some [])
    | some (cur, rest) =>
      if cur.coordinates = a.end_ then some (some cur.trace.reverse)
      else
        match expandChecked a cur offsets { st with openSet := rest } with
        | none => some none
        | some st2 => searchChecked a fuel (fun i => tie (i + 1)) st2

/-- The method `AStar::findPath` with checked indexing. -/
def findPathChecked (a : AStar) (tie : Nat → Nat) (fuel : Nat) :
    Option (Option (List Point)) :=
  searchChecked a fuel tie (initState a)

/-! ## Conditions for a minimum-cost result -/

/-- Along the route that leads from `c` over the cells `ds` to `g`, the
Manhattan distance to `g` never exceeds the number of moves still to make. -/
def AdmissibleAlong (g : Point) : Point → List Point → Prop
  | c, [] => heuristic c g ≤ 0
  | c, e :: ds => heuristic c g ≤ (ds.length : Int) + 1 ∧ AdmissibleAlong g e ds

instance AdmissibleAlong.instDecidable (g : Point) :
    ∀ (c : Point) (ds : List Point), Decidable (AdmissibleAlong g c ds)
  | c, [] => inferInstanceAs (Decidable (heuristic c g ≤ 0))
  | _, e :: ds => @instDecidableAnd _ _ _ (AdmissibleAlong.instDecidable g e ds)

/-- The straight run from `s` towards `g`: the cell reached after `k` moves that
each step towards `g` in both coordinates (diagonally while both differ, then
along the remaining axis). -/
def straightRun (s g : Point) : Nat → Point
  | 0 => s
  | k + 1 => neighbour (straightRun s g k) (towards (straightRun s g k) g)

/-- The object that `AStar.build` yields for a width and a height given as
natural numbers. -/
def AStar.ofWalls (width height : Nat) (start_ end_ : Point) (walls : List (Int × Int)) : AStar :=
  (AStar.mk start_ end_ (List.replicate width (List.replicate height true))
    (width : Int) (height : Int)).setWalls walls

end AStarExample

/-! ## Theorems -/

namespace AStarExample

/-! ### The grid -/

theorem setWall_gridWidth (a : AStar) (x y : Int) :
    (a.setWall x y).gridWidth = a.gridWidth := by
  unfold AStar.setWall; split <;> rfl

theorem setWall_gridHeight (a : AStar) (x y : Int) :
    (a.setWall x y).gridHeight = a.gridHeight := by
  unfold AStar.setWall; split <;> rfl

theorem getD_set_flag (l : List Bool) (i j : Nat) :
    (l.set i false).getD j false = (l.getD j false && !decide (j = i)) := by
  simp only [List.getD_eq_getElem?_getD, List.getElem?_set]
  by_cases h : i = j
  · subst h
    by_cases hl : i < l.length <;> simp [hl]
  · have h2 : ¬ j = i := fun e => h e.symm
    simp [h, h2]

theorem cellAt_setGrid (a : AStar) (i j i2 j2 : Nat) :
    ((a.grid.set i ((a.grid.getD i []).set j false)).getD i2 []).getD j2 false
      = ((a.grid.getD i2 []).getD j2 false && !decide (i2 = i ∧ j2 = j)) := by
  by_cases h : i = i2
  · subst h
    by_cases hl : i < a.grid.length
    · have : (a.grid.set i ((a.grid.getD i []).set j false)).getD i []
          = (a.grid.getD i []).set j false := by
        simp [List.getD_eq_getElem?_getD, List.getElem?_set, hl]
      rw [this, getD_set_flag]
      simp
    · have hl2 : a.grid.length ≤ i := Nat.le_of_not_lt hl
      have h1 : a.grid.set i ((a.grid.getD i []).set j false) = a.grid :=
        List.set_eq_of_length_le hl2
      have h2 : a.grid.getD i [] = [] := by
        simp [List.getD_eq_getElem?_getD, List.getElem?_eq_none hl2]
      rw [h1, h2]
      simp
  · have h2 : ¬ i2 = i := fun e => h e.symm
    have : (a.grid.set i ((a.grid.getD i []).set j false)).getD i2 []
        = a.grid.getD i2 [] := by
      simp [List.getD_eq_getElem?_getD, List.getElem?_set, h]
    rw [this]
    simp [h2]

theorem isWalkable_setWall (a : AStar) (x y x2 y2 : Int) :
    (a.setWall x y).isWalkable x2 y2
      = (a.isWalkable x2 y2 && !decide (x2 = x ∧ y2 = y)) := by
  by_cases hb : x ≥ 0 ∧ x < a.gridWidth ∧ y ≥ 0 ∧ y < a.gridHeight
  · by_cases hb2 : x2 ≥ 0 ∧ x2 < a.gridWidth ∧ y2 ≥ 0 ∧ y2 < a.gridHeight
    · have e1 : (x2.toNat = x.toNat ∧ y2.toNat = y.toNat) ↔ (x2 = x ∧ y2 = y) := by
        constructor
        · rintro ⟨h1, h2⟩; constructor <;> omega
        · rintro ⟨h1, h2⟩; subst h1; subst h2; exact ⟨rfl, rfl⟩
      simp only [AStar.isWalkable, AStar.setWall, if_pos hb, if_pos hb2, AStar.cellAt,
        cellAt_setGrid, e1]
    · simp [AStar.isWalkable, AStar.setWall, if_pos hb, if_neg hb2]
  · have hs : a.setWall x y = a := by simp only [AStar.setWall, if_neg hb]
    rw [hs]
    by_cases he : x2 = x ∧ y2 = y
    · obtain ⟨h1, h2⟩ := he
      subst h1; subst h2
      simp [AStar.isWalkable, if_neg hb]
    · simp [he]

theorem isWalkable_setWalls (walls : List (Int × Int)) (a : AStar) (x y : Int) :
    (a.setWalls walls).isWalkable x y
      = (a.isWalkable x y && !decide ((x, y) ∈ walls)) := by
  induction walls generalizing a with
  | nil => simp [AStar.setWalls]
  | cons p ps ih =>
    have : a.setWalls (p :: ps) = (a.setWall p.1 p.2).setWalls ps := rfl
    rw [this, ih, isWalkable_setWall]
    by_cases h1 : (x, y) = p
    · subst h1; simp
    · have h2 : ¬ (x = p.1 ∧ y = p.2) := by
        rintro ⟨e1, e2⟩; exact h1 (Prod.ext e1 e2)
      simp [h1, h2]

theorem isWalkable_construct (w h : Int) (s e : Point) (a : AStar)
    (hc : AStar.construct w h s e = some a) (x y : Int) :
    a.isWalkable x y = decide (0 ≤ x ∧ x < w ∧ 0 ≤ y ∧ y < h) := by
  unfold AStar.construct at hc
  split at hc
  · cases hc
    by_cases hb : x ≥ 0 ∧ x < w ∧ y ≥ 0 ∧ y < h
    · have h1 : x.toNat < w.toNat := by omega
      have h2 : y.toNat < h.toNat := by omega
      simp [AStar.isWalkable, AStar.cellAt, hb, List.getD_eq_getElem?_getD,
        List.getElem?_replicate, h1, h2]
    · simp only [AStar.isWalkable, if_neg hb]
      simpa using hb
  · cases hc

theorem toNat_lt_toNat_of (x y : Int) (hx : 0 ≤ x) (h : x < y) : x.toNat < y.toNat := by
  obtain ⟨n, rfl⟩ := Int.eq_ofNat_of_zero_le hx
  obtain ⟨m, rfl⟩ := Int.eq_ofNat_of_zero_le (show 0 ≤ y by omega)
  simp only [Int.toNat_ofNat]
  omega

theorem construct_WF (w h : Int) (s e : Point) (a : AStar)
    (hc : AStar.construct w h s e = some a) : a.WF := by
  unfold AStar.construct at hc
  split at hc
  · rename_i hb
    cases hc
    refine ⟨hb.1, hb.2, by simp, ?_⟩
    intro col hcol
    rw [List.eq_of_mem_replicate hcol]
    simp
  · cases hc

theorem setWall_WF (a : AStar) (x y : Int) (h : a.WF) : (a.setWall x y).WF := by
  unfold AStar.setWall
  split
  · refine ⟨h.1, h.2.1, by simp only [List.length_set]; exact h.2.2.1, ?_⟩
    intro col hcol
    rcases List.mem_or_eq_of_mem_set hcol with h1 | h1
    · exact h.2.2.2 col h1
    · subst h1
      rw [List.length_set]
      by_cases hi : x.toNat < a.grid.length
      · rw [List.getD_eq_getElem _ _ hi]
        exact h.2.2.2 _ (List.getElem_mem _)
      · rename_i hb
        exact absurd (h.2.2.1 ▸ toNat_lt_toNat_of _ _ hb.1 hb.2.1) hi
  · exact h

theorem setWalls_WF (walls : List (Int × Int)) (a : AStar) (h : a.WF) :
    (a.setWalls walls).WF := by
  induction walls generalizing a with
  | nil => exact h
  | cons p ps ih => exact ih _ (setWall_WF a p.1 p.2 h)

/-! ### One relaxation step -/

theorem filter_eq_not_walkable (a : AStar) (p : Point) :
    (!a.isInBounds p || !a.cellAt p.x p.y) = !a.isWalkable p.x p.y := by
  by_cases hb : p.x ≥ 0 ∧ p.x < a.gridWidth ∧ p.y ≥ 0 ∧ p.y < a.gridHeight
  · simp [AStar.isInBounds, AStar.isWalkable, hb]
  · simp [AStar.isInBounds, AStar.isWalkable, hb]

theorem successor_coordinates (a : AStar) (cur : Node) (o : Int × Int) :
    (successor a cur o).coordinates = neighbour cur.coordinates o := rfl

theorem successor_gCost (a : AStar) (cur : Node) (o : Int × Int) :
    (successor a cur o).gCost = cur.gCost + 1 := by
  simp [successor, Node.gCost, straightCost, diagonalCost]

theorem successor_hCost (a : AStar) (cur : Node) (o : Int × Int) :
    (successor a cur o).hCost = heuristic (neighbour cur.coordinates o) a.end_ := rfl

/-- The three ways the body of the inner loop can go: the neighbour is rejected
by the filter, the candidate is discarded because the registry holds a node
that is at least as good, or the candidate is pushed. -/
theorem relax_cases (a : AStar) (cur : Node) (st : SearchState) (o : Int × Int) :
    (a.isWalkable (neighbour cur.coordinates o).x (neighbour cur.coordinates o).y = false
        ∧ relax a cur st o = st) ∨
    (a.isWalkable (neighbour cur.coordinates o).x (neighbour cur.coordinates o).y = true
        ∧ (∃ e, st.allNodes (neighbour cur.coordinates o) = some e ∧ e.gCost ≤ cur.gCost + 1)
        ∧ relax a cur st o = st) ∨
    (a.isWalkable (neighbour cur.coordinates o).x (neighbour cur.coordinates o).y = true
        ∧ (∀ e, st.allNodes (neighbour cur.coordinates o) = some e → cur.gCost + 1 < e.gCost)
        ∧ relax a cur st o = pushNode st (successor a cur o)) := by
  unfold relax
  simp only [filter_eq_not_walkable, successor_coordinates, successor_gCost]
  cases hw : a.isWalkable (neighbour cur.coordinates o).x (neighbour cur.coordinates o).y
  · left; simp
  · right
    cases hr : st.allNodes (neighbour cur.coordinates o) with
    | none => right; simp
    | some e =>
      by_cases hle : e.gCost ≤ cur.gCost + 1
      · left; simp [hle]
      · right
        simp only [Bool.not_true, Bool.false_eq_true, if_false, if_neg hle, true_and, and_true]
        intro e2 he2
        cases he2
        omega

theorem foldl_relax_induction (a : AStar) (cur : Node) (P : SearchState → Prop)
    (hstep : ∀ s o, P s → P (relax a cur s o)) :
    ∀ (l : List (Int × Int)) (st : SearchState), P st → P (l.foldl (relax a cur) st) := by
  intro l
  induction l with
  | nil => intro st h; exact h
  | cons o l ih => intro st h; exact ih _ (hstep st o h)

theorem expand_induction (a : AStar) (cur : Node) (P : SearchState → Prop)
    (hstep : ∀ s o, P s → P (relax a cur s o)) (st : SearchState) (h : P st) :
    P (expand a cur st) :=
  foldl_relax_induction a cur P hstep offsets st h

/-! ### Removing a minimal element from the open set -/

theorem mem_candidates (l : List Node) (n : Node) :
    n ∈ candidates l ↔ n ∈ l ∧ ∀ m ∈ l, n.fCost ≤ m.fCost := by
  simp [candidates, List.mem_filter]

theorem candidates_ne_nil (l : List Node) (h : l ≠ []) : candidates l ≠ [] := by
  obtain ⟨x, hx⟩ := List.exists_mem_of_ne_nil l h
  have hne : l.toFinset.Nonempty := ⟨x, List.mem_toFinset.mpr hx⟩
  obtain ⟨n, hn, hmin⟩ := l.toFinset.exists_min_image Node.fCost hne
  have : n ∈ candidates l :=
    (mem_candidates l n).mpr ⟨List.mem_toFinset.mp hn,
      fun m hm => hmin m (List.mem_toFinset.mpr hm)⟩
  exact List.ne_nil_of_mem this

theorem popOpen_nil (t : Nat) : popOpen t [] = none := rfl

theorem popOpen_singleton (t : Nat) (n : Node) : popOpen t [n] = some (n, []) := by
  have hc : candidates [n] = [n] := by simp [candidates]
  simp [popOpen, hc, Nat.mod_one]

theorem popOpen_eq_none (t : Nat) (l : List Node) (h : popOpen t l = none) : l = [] := by
  by_contra hne
  have hc := candidates_ne_nil l hne
  have hpos : 0 < (candidates l).length := List.length_pos.mpr hc
  have hlt : t % (candidates l).length < (candidates l).length := Nat.mod_lt _ hpos
  unfold popOpen at h
  rw [List.getElem?_eq_getElem hlt] at h
  simp at h

theorem popOpen_eq_some (t : Nat) (l : List Node) (n : Node) (rest : List Node)
    (h : popOpen t l = some (n, rest)) :
    n ∈ l ∧ (∀ m ∈ l, n.fCost ≤ m.fCost) ∧ rest = l.erase n := by
  unfold popOpen at h
  split at h
  · rename_i m hm
    simp only [Option.some.injEq, Prod.mk.injEq] at h
    obtain ⟨h1, h2⟩ := h
    subst h1
    have hmem : m ∈ candidates l := List.getElem?_mem hm
    have := (mem_candidates l m).mp hmem
    exact ⟨this.1, this.2, h2.symm⟩
  · cases h

/-! ### Well-formed nodes -/

theorem Good.hCost_eq (a : AStar) : ∀ n : Node, n.Good a →
    n.hCost = heuristic n.coordinates a.end_
  | .root _ _ _, h => h.2.2
  | .child _ _ _ _, h => h.2.2.2

theorem Good.gCost_nonneg (a : AStar) : ∀ n : Node, n.Good a → 0 ≤ n.gCost
  | .root _ _ _, h => by simp [Node.gCost, h.2.1]
  | .child _ p _ _, h => by
      have := Good.gCost_nonneg a p h.1
      simp only [Node.gCost]
      have h3 := h.2.2.1
      omega

theorem Good.successor (a : AStar) (cur : Node) (o : Int × Int) (ho : o ∈ offsets)
    (hg : cur.Good a)
    (hw : a.isWalkable (neighbour cur.coordinates o).x (neighbour cur.coordinates o).y = true) :
    (successor a cur o).Good a := by
  refine ⟨hg, ⟨o, ho, rfl, hw⟩, ?_, rfl⟩
  exact successor_gCost a cur o

theorem IsRoute.snoc (a : AStar) : ∀ (ds : List Point) (c d e : Point),
    IsRoute a c ds d → IsMove a d e → IsRoute a c (ds ++ [e]) e
  | [], c, d, e, h, hm => by
      have : c = d := h
      subst this
      exact ⟨hm, rfl⟩
  | x :: ds, _, d, e, h, hm => ⟨h.1, IsRoute.snoc a ds x d e h.2 hm⟩

/-- The path read off a well-formed node is `start` followed by a route from
`start` to the node's cell whose number of moves is the node's `gCost`. -/
theorem Good.trace_route (a : AStar) : ∀ n : Node, n.Good a →
    ∃ ds, n.trace.reverse = a.start :: ds ∧ IsRoute a a.start ds n.coordinates
      ∧ (ds.length : Int) = n.gCost
  | .root c g h, hg => by
      refine ⟨[], ?_, ?_, ?_⟩
      · simp [Node.trace, hg.1]
      · exact hg.1.symm
      · simp [Node.gCost, hg.2.1]
  | .child c p g h, hg => by
      obtain ⟨ds, h1, h2, h3⟩ := Good.trace_route a p hg.1
      refine ⟨ds ++ [c], ?_, ?_, ?_⟩
      · simp [Node.trace, h1]
      · exact IsRoute.snoc a ds a.start p.coordinates c h2 hg.2.1
      · simp only [List.length_append, List.length_singleton, Node.gCost, Nat.cast_add,
          Nat.cast_one, h3, hg.2.2.1]

/-! ### The loop invariant -/

theorem inv_initState (a : AStar) : Inv a (initState a) := by
  refine ⟨?_, ?_, ?_, ?_⟩
  · intro n hn
    simp only [initState, pushNode, List.nil_append, List.mem_singleton] at hn
    subst hn
    exact ⟨rfl, rfl, rfl⟩
  · intro c e h
    simp only [initState, pushNode, Node.coordinates] at h
    split at h
    · cases h; rename_i hc; exact hc.symm
    · cases h
  · exact ⟨Node.root a.start 0 (heuristic a.start a.end_),
      by simp [initState, pushNode, Node.coordinates], by simp [Node.gCost]⟩
  · intro c e h
    left
    simp only [initState, pushNode, Node.coordinates] at h
    split at h
    · cases h; simp [initState, pushNode]
    · cases h

theorem closed_pushNode (a : AStar) (st : SearchState) (s : Node) (c : Point) (g : Int)
    (hs : ∀ e, st.allNodes s.coordinates = some e → s.gCost < e.gCost)
    (h : Closed a st c g) : Closed a (pushNode st s) c g := by
  intro o ho hw
  obtain ⟨e, he, hle⟩ := h o ho hw
  by_cases hc : neighbour c o = s.coordinates
  · refine ⟨s, by simp [pushNode, hc], ?_⟩
    have := hs e (hc ▸ he)
    omega
  · exact ⟨e, by simp [pushNode, hc, he], hle⟩

theorem mid_relax (a : AStar) (cur : Node) (hcur : cur.Good a) (s : SearchState)
    (o : Int × Int) (ho : o ∈ offsets) (h : Mid a cur s) : Mid a cur (relax a cur s o) := by
  rcases relax_cases a cur s o with ⟨_, hr⟩ | ⟨_, _, hr⟩ | ⟨hw, hlt, hr⟩
  · rw [hr]; exact h
  · rw [hr]; exact h
  · rw [hr]
    have hsc : (successor a cur o).coordinates = neighbour cur.coordinates o := rfl
    have hsg := successor_gCost a cur o
    refine ⟨?_, ?_, ?_, ?_⟩
    · intro n hn
      simp only [pushNode, List.mem_append, List.mem_singleton] at hn
      rcases hn with hn | hn
      · exact h.open_good n hn
      · subst hn; exact Good.successor a cur o ho hcur hw
    · intro c e he
      simp only [pushNode] at he
      split at he
      · cases he; rename_i hc; exact hc.symm
      · exact h.reg_coords c e he
    · obtain ⟨e, he, hle⟩ := h.reg_start
      by_cases hc : a.start = (successor a cur o).coordinates
      · refine ⟨successor a cur o, by simp [pushNode, hc], ?_⟩
        have := hlt e (by rw [← hsc, ← hc]; exact he)
        omega
      · exact ⟨e, by simp [pushNode, hc, he], hle⟩
    · intro c e he
      simp only [pushNode] at he
      split at he
      · cases he
        left
        simp [pushNode]
      · rcases h.reg_closed c e he with h1 | h1 | ⟨h1, h2⟩
        · left; simp [pushNode, h1]
        · right; left; exact h1
        · right; right
          refine ⟨h1, closed_pushNode a s _ c e.gCost ?_ h2⟩
          intro e2 he2
          have := hlt e2 he2
          omega

theorem foldl_relax_mem_induction (a : AStar) (cur : Node) (P : SearchState → Prop) :
    ∀ (l : List (Int × Int)), (∀ s o, o ∈ l → P s → P (relax a cur s o)) →
      ∀ st : SearchState, P st → P (l.foldl (relax a cur) st) := by
  intro l
  induction l with
  | nil => intro _ st h; exact h
  | cons o l ih =>
    intro hstep st h
    exact ih (fun s o2 ho2 hs => hstep s o2 (List.mem_cons_of_mem _ ho2) hs) _
      (hstep st o (List.mem_cons_self _ _) h)

theorem mid_expand (a : AStar) (cur : Node) (hcur : cur.Good a) (st : SearchState)
    (h : Mid a cur st) : Mid a cur (expand a cur st) :=
  foldl_relax_mem_induction a cur (Mid a cur) offsets
    (fun s o ho hs => mid_relax a cur hcur s o ho hs) st h

/-- Registry costs never increase during the inner loops. -/
theorem relax_registry_mono (a : AStar) (cur : Node) (s : SearchState) (o : Int × Int)
    (c : Point) (g : Int) (h : ∃ e, s.allNodes c = some e ∧ e.gCost ≤ g) :
    ∃ e, (relax a cur s o).allNodes c = some e ∧ e.gCost ≤ g := by
  rcases relax_cases a cur s o with ⟨_, hr⟩ | ⟨_, _, hr⟩ | ⟨_, hlt, hr⟩
  · rw [hr]; exact h
  · rw [hr]; exact h
  · rw [hr]
    obtain ⟨e, he, hle⟩ := h
    by_cases hc : c = (successor a cur o).coordinates
    · refine ⟨successor a cur o, by simp [pushNode, hc], ?_⟩
      have := hlt e (by rw [← successor_coordinates a cur o, ← hc]; exact he)
      have := successor_gCost a cur o
      omega
    · exact ⟨e, by simp [pushNode, hc, he], hle⟩

theorem relax_registers (a : AStar) (cur : Node) (s : SearchState) (o : Int × Int)
    (hw : a.isWalkable (neighbour cur.coordinates o).x (neighbour cur.coordinates o).y = true) :
    ∃ e, (relax a cur s o).allNodes (neighbour cur.coordinates o) = some e
      ∧ e.gCost ≤ cur.gCost + 1 := by
  rcases relax_cases a cur s o with ⟨hf, _⟩ | ⟨_, hex, hr⟩ | ⟨_, _, hr⟩
  · rw [hw] at hf; cases hf
  · rw [hr]; exact hex
  · rw [hr]
    refine ⟨successor a cur o, by simp [pushNode, successor_coordinates], ?_⟩
    rw [successor_gCost]

theorem foldl_relax_closed (a : AStar) (cur : Node) :
    ∀ (l : List (Int × Int)) (st : SearchState), ∀ o ∈ l,
      a.isWalkable (neighbour cur.coordinates o).x (neighbour cur.coordinates o).y = true →
      ∃ e, (l.foldl (relax a cur) st).allNodes (neighbour cur.coordinates o) = some e
        ∧ e.gCost ≤ cur.gCost + 1 := by
  intro l
  induction l with
  | nil => intro st o ho; cases ho
  | cons o1 l ih =>
    intro st o ho hw
    rcases List.mem_cons.mp ho with h1 | h1
    · subst h1
      exact foldl_relax_induction a cur
        (fun s => ∃ e, s.allNodes (neighbour cur.coordinates o) = some e
          ∧ e.gCost ≤ cur.gCost + 1)
        (fun s o2 hs => relax_registry_mono a cur s o2 _ _ hs) l _
        (relax_registers a cur st o hw)
    · exact ih _ o h1 hw

theorem expand_closed (a : AStar) (cur : Node) (st : SearchState) :
    Closed a (expand a cur st) cur.coordinates cur.gCost :=
  fun o ho hw => foldl_relax_closed a cur offsets st o ho hw

/-- One iteration of the `while` loop that does not stop keeps the invariant. -/
theorem inv_step (a : AStar) (st : SearchState) (t : Nat) (cur : Node) (rest : List Node)
    (hinv : Inv a st) (hpop : popOpen t st.openSet = some (cur, rest))
    (hne : cur.coordinates ≠ a.end_) :
    Inv a (expand a cur { st with openSet := rest }) := by
  obtain ⟨hmem, _, hrest⟩ := popOpen_eq_some t st.openSet cur rest hpop
  have hcur : cur.Good a := hinv.open_good cur hmem
  have hmid0 : Mid a cur { st with openSet := rest } := by
    refine ⟨?_, hinv.reg_coords, hinv.reg_start, ?_⟩
    · intro n hn
      exact hinv.open_good n (by rw [hrest] at hn; exact List.mem_of_mem_erase hn)
    · intro c e he
      rcases hinv.reg_closed c e he with h1 | h1
      · by_cases hec : e = cur
        · right; left; exact hec
        · left
          show e ∈ rest
          rw [hrest]
          exact (List.mem_erase_of_ne hec).mpr h1
      · right; right; exact h1
  have hmid := mid_expand a cur hcur _ hmid0
  refine ⟨hmid.open_good, hmid.reg_coords, hmid.reg_start, ?_⟩
  intro c e he
  rcases hmid.reg_closed c e he with h1 | h1 | h1
  · left; exact h1
  · right
    subst h1
    have hc := hmid.reg_coords c e he
    subst hc
    exact ⟨hne, expand_closed a e _⟩
  · right; exact h1

/-! ### The frontier of a route -/

/-- While the invariant holds, every route to the goal that starts at a
registered cell meets the open set: some open node lies on it, with a cost no
larger than the cost of reaching it along the route. -/
theorem frontier (a : AStar) (st : SearchState) (hinv : Inv a st) :
    ∀ (ds : List Point) (c : Point) (k : Int), IsRoute a c ds a.end_ →
      (∃ e, st.allNodes c = some e ∧ e.gCost ≤ k) →
      ∃ w ∈ st.openSet, ∃ rest : List Point, IsRoute a w.coordinates rest a.end_
        ∧ w.gCost + (rest.length : Int) ≤ k + (ds.length : Int) := by
  intro ds
  induction ds with
  | nil =>
    intro c k hr ⟨e, he, hle⟩
    have hce : c = a.end_ := hr
    rcases hinv.reg_closed c e he with h1 | ⟨h1, _⟩
    · refine ⟨e, h1, [], ?_, ?_⟩
      · rw [hinv.reg_coords c e he]; exact hce
      · simpa using hle
    · exact absurd hce h1
  | cons d ds ih =>
    intro c k hr ⟨e, he, hle⟩
    rcases hinv.reg_closed c e he with h1 | ⟨_, h2⟩
    · refine ⟨e, h1, d :: ds, ?_, ?_⟩
      · rw [hinv.reg_coords c e he]; exact hr
      · omega
    · obtain ⟨o, ho, hd, hw⟩ := hr.1
      obtain ⟨e2, he2, hle2⟩ := h2 o ho (hd ▸ hw)
      obtain ⟨w, hw1, rest, hw2, hw3⟩ :=
        ih d (k + 1) hr.2 ⟨e2, hd ▸ he2, by omega⟩
      refine ⟨w, hw1, rest, hw2, ?_⟩
      simp only [List.length_cons, Nat.cast_add, Nat.cast_one]
      omega

/-! ### What the loop returns -/

/-- The two ways the loop can finish: with an empty open set and an empty
path, or by popping a node of minimal `fCost` whose cell is the goal. -/
theorem search_result (a : AStar) : ∀ (fuel : Nat) (tie : Nat → Nat) (st : SearchState)
    (r : List Point), Inv a st → search a fuel tie st = some r →
    (r = [] ∧ ∃ st2, Inv a st2 ∧ st2.openSet = []) ∨
    (∃ st2 cur, Inv a st2 ∧ cur ∈ st2.openSet ∧ (∀ m ∈ st2.openSet, cur.fCost ≤ m.fCost)
      ∧ cur.coordinates = a.end_ ∧ r = cur.trace.reverse) := by
  intro fuel
  induction fuel with
  | zero => intro tie st r _ h; cases h
  | succ fuel ih =>
    intro tie st r hinv h
    unfold search at h
    cases hp : popOpen (tie 0) st.openSet with
    | none =>
      rw [hp] at h
      cases h
      exact Or.inl ⟨rfl, st, hinv, popOpen_eq_none _ _ hp⟩
    | some pr =>
      obtain ⟨cur, rest⟩ := pr
      rw [hp] at h
      simp only at h
      by_cases hc : cur.coordinates = a.end_
      · rw [if_pos hc] at h
        cases h
        obtain ⟨h1, h2, _⟩ := popOpen_eq_some _ _ _ _ hp
        exact Or.inr ⟨st, cur, hinv, h1, h2, hc, rfl⟩
      · rw [if_neg hc] at h
        exact ih _ _ r (inv_step a st _ cur rest hinv hp hc) h

theorem search_fuel_mono (a : AStar) : ∀ (fuel : Nat) (tie : Nat → Nat) (st : SearchState)
    (r : List Point), search a fuel tie st = some r → search a (fuel + 1) tie st = some r := by
  intro fuel
  induction fuel with
  | zero => intro tie st r h; cases h
  | succ fuel ih =>
    intro tie st r h
    unfold search at h ⊢
    cases hp : popOpen (tie 0) st.openSet with
    | none => rw [hp] at h; exact h
    | some pr =>
      obtain ⟨cur, rest⟩ := pr
      rw [hp] at h
      simp only at h ⊢
      by_cases hc : cur.coordinates = a.end_
      · rw [if_pos hc] at h ⊢; exact h
      · rw [if_neg hc] at h ⊢
        exact ih _ _ r h

theorem search_fuel_le (a : AStar) (tie : Nat → Nat) (st : SearchState) (r : List Point)
    (fuel fuel2 : Nat) (hle : fuel ≤ fuel2) (h : search a fuel tie st = some r) :
    search a fuel2 tie st = some r := by
  induction hle with
  | refl => exact h
  | step _ ih => exact search_fuel_mono a _ tie st r ih

/-- A returned path that is not empty is `start` followed by a route from
`start` to the goal. -/
theorem findPath_route (a : AStar) (tie : Nat → Nat) (fuel : Nat) (r : List Point)
    (h : findPath a tie fuel = some r) (hne : r ≠ []) :
    ∃ ds, r = a.start :: ds ∧ IsRoute a a.start ds a.end_ := by
  rcases search_result a fuel tie _ r (inv_initState a) h with ⟨h1, _⟩ | ⟨st2, cur, hi, hm, _, hc, hr⟩
  · exact absurd h1 hne
  · obtain ⟨ds, h1, h2, _⟩ := Good.trace_route a cur (hi.open_good cur hm)
    exact ⟨ds, by rw [hr, h1], hc ▸ h2⟩

/-- If some route leads from `start` to the goal, the returned path is not
empty. -/
theorem findPath_complete (a : AStar) (tie : Nat → Nat) (fuel : Nat) (r : List Point)
    (h : findPath a tie fuel = some r) (ds : List Point) (hr : IsRoute a a.start ds a.end_) :
    r ≠ [] := by
  rcases search_result a fuel tie _ r (inv_initState a) h with ⟨_, st2, hi, ho⟩ | ⟨st2, cur, hi, hm, _, hc, hr2⟩
  · obtain ⟨w, hw, _⟩ := frontier a st2 hi ds a.start 0 hr hi.reg_start
    rw [ho] at hw
    cases hw
  · obtain ⟨ds2, h1, _, _⟩ := Good.trace_route a cur (hi.open_good cur hm)
    rw [hr2, h1]
    exact List.cons_ne_nil _ _

/-! ### Termination -/

theorem mem_cells (a : AStar) (p : Point) (h : a.isWalkable p.x p.y = true) : p ∈ a.cells := by
  have hb : p.x ≥ 0 ∧ p.x < a.gridWidth ∧ p.y ≥ 0 ∧ p.y < a.gridHeight := by
    by_contra hn
    simp [AStar.isWalkable, if_neg hn] at h
  have h1 : (p.x.toNat : Int) = p.x := Int.toNat_of_nonneg hb.1
  have h2 : (p.y.toNat : Int) = p.y := Int.toNat_of_nonneg hb.2.2.1
  exact List.mem_flatMap.mpr ⟨p.x.toNat,
    List.mem_range.mpr (toNat_lt_toNat_of _ _ hb.1 hb.2.1),
    List.mem_map.mpr ⟨p.y.toNat,
      List.mem_range.mpr (toNat_lt_toNat_of _ _ hb.2.2.1 hb.2.2.2),
      by simp only [Int.ofNat_eq_coe, h1, h2]⟩⟩

theorem Below.refl (a : AStar) (s : SearchState) : Below a s s := Or.inr ⟨rfl, le_refl _⟩

theorem Below.trans (a : AStar) (s1 s2 s3 : SearchState) (h12 : Below a s1 s2)
    (h23 : Below a s2 s3) : Below a s1 s3 := by
  unfold Below at *
  omega

theorem below_pushNode (a : AStar) (s : SearchState) (n : Node)
    (hn : 0 ≤ n.gCost) (hmem : n.coordinates ∈ a.cells)
    (hlt : ∀ e, s.allNodes n.coordinates = some e → n.gCost < e.gCost) :
    Below a s (pushNode s n) := by
  cases hreg : s.allNodes n.coordinates with
  | none =>
    left
    unfold unregistered
    apply List.sum_lt_sum
    · intro c _
      by_cases hc : c = n.coordinates
      · simp [pushNode, hc]
      · simp [pushNode, hc]
    · exact ⟨n.coordinates, hmem, by simp [pushNode, hreg]⟩
  | some e =>
    right
    constructor
    · unfold unregistered
      congr 1
      apply List.map_congr_left
      intro c _
      by_cases hc : c = n.coordinates
      · simp [pushNode, hc, hreg]
      · simp [pushNode, hc]
    · unfold weight
      have hlt2 := hlt e hreg
      have hn1 : n.gCost.toNat < e.gCost.toNat := toNat_lt_toNat_of _ _ hn hlt2
      have hsum : (a.cells.map fun c => match (pushNode s n).allNodes c with
            | some e => e.gCost.toNat
            | none => 0).sum
          < (a.cells.map fun c => match s.allNodes c with
            | some e => e.gCost.toNat
            | none => 0).sum := by
        apply List.sum_lt_sum
        · intro c _
          by_cases hc : c = n.coordinates
          · simp only [pushNode, hc, if_true, hreg]
            exact hn1.le
          · simp [pushNode, hc]
        · refine ⟨n.coordinates, hmem, ?_⟩
          simp only [pushNode, if_true, hreg]
          exact hn1
      have hlen : (pushNode s n).openSet.length = s.openSet.length + 1 := by
        simp [pushNode]
      omega

theorem below_relax (a : AStar) (cur : Node) (hcur : 0 ≤ cur.gCost) (s : SearchState)
    (o : Int × Int) : Below a s (relax a cur s o) := by
  rcases relax_cases a cur s o with ⟨_, hr⟩ | ⟨_, _, hr⟩ | ⟨hw, hlt, hr⟩
  · rw [hr]; exact Below.refl a s
  · rw [hr]; exact Below.refl a s
  · rw [hr]
    apply below_pushNode
    · rw [successor_gCost]; omega
    · exact mem_cells a _ hw
    · intro e he
      rw [successor_gCost]
      exact hlt e he

theorem below_expand (a : AStar) (cur : Node) (hcur : 0 ≤ cur.gCost) (st : SearchState) :
    Below a st (expand a cur st) :=
  expand_induction a cur (Below a st)
    (fun s o hs => Below.trans a st s _ hs (below_relax a cur hcur s o)) st (Below.refl a st)

/-- One iteration that does not stop lowers `(unregistered, weight)` strictly
in the lexicographic order. -/
theorem step_decreases (a : AStar) (st : SearchState) (t : Nat) (cur : Node)
    (rest : List Node) (hcur : 0 ≤ cur.gCost)
    (hpop : popOpen t st.openSet = some (cur, rest)) :
    unregistered a (expand a cur { st with openSet := rest }) < unregistered a st ∨
      (unregistered a (expand a cur { st with openSet := rest }) = unregistered a st ∧
        weight a (expand a cur { st with openSet := rest }) < weight a st) := by
  obtain ⟨hmem, _, hrest⟩ := popOpen_eq_some t st.openSet cur rest hpop
  have hlen : rest.length + 1 = st.openSet.length := by
    rw [hrest, List.length_erase_of_mem hmem]
    have := List.length_pos_of_mem hmem
    omega
  have hu : unregistered a { st with openSet := rest } = unregistered a st := rfl
  have hw : weight a { st with openSet := rest } + 1 = weight a st := by
    simp only [weight]
    omega
  have hb := below_expand a cur hcur { st with openSet := rest }
  unfold Below at hb
  omega

/-- From every state satisfying the invariant the loop finishes, whatever the
tie-breaking: some amount of fuel suffices. -/
theorem search_terminates (a : AStar) : ∀ (u v : Nat) (st : SearchState) (tie : Nat → Nat),
    Inv a st → unregistered a st = u → weight a st = v →
    ∃ fuel r, search a fuel tie st = some r := by
  intro u
  induction u using Nat.strong_induction_on with
  | _ u ihu =>
    intro v
    induction v using Nat.strong_induction_on with
    | _ v ihv =>
      intro st tie hinv hu hv
      cases hp : popOpen (tie 0) st.openSet with
      | none => exact ⟨1, [], by simp [search, hp]⟩
      | some pr =>
        obtain ⟨cur, rest⟩ := pr
        by_cases hc : cur.coordinates = a.end_
        · exact ⟨1, cur.trace.reverse, by simp [search, hp, hc]⟩
        · obtain ⟨hmem, _, _⟩ := popOpen_eq_some _ _ _ _ hp
          have hg := Good.gCost_nonneg a cur (hinv.open_good cur hmem)
          have hinv2 := inv_step a st _ cur rest hinv hp hc
          have hdec := step_decreases a st _ cur rest hg hp
          have hnext : ∃ fuel r, search a fuel (fun i => tie (i + 1))
              (expand a cur { st with openSet := rest }) = some r := by
            rcases hdec with h1 | ⟨h1, h2⟩
            · exact ihu _ (hu ▸ h1) _ _ _ hinv2 rfl rfl
            · exact ihv _ (hv ▸ h2) _ _ hinv2 (h1.trans hu) rfl
          obtain ⟨fuel, r, hr⟩ := hnext
          exact ⟨fuel + 1, r, by simp [search, hp, hc, hr]⟩

theorem findPath_terminates (a : AStar) (tie : Nat → Nat) :
    ∃ fuel r, findPath a tie fuel = some r :=
  search_terminates a _ _ (initState a) tie (inv_initState a) rfl rfl

/-! ### Runs without ties -/

/-- A run on which no pop ever has two candidates is the run of every
tie-breaking. -/
theorem search_of_searchNoTie (a : AStar) : ∀ (fuel : Nat) (st : SearchState) (r : List Point),
    searchNoTie a fuel st = some r → ∀ tie : Nat → Nat, search a fuel tie st = some r := by
  intro fuel
  induction fuel with
  | zero => intro st r h; cases h
  | succ fuel ih =>
    intro st r h tie
    unfold searchNoTie at h
    unfold search
    cases hc : candidates st.openSet with
    | nil =>
      rw [hc] at h
      simp only [popOpen, hc, List.length_nil, Nat.mod_zero, List.getElem?_nil]
      exact h
    | cons cur tl =>
      cases tl with
      | nil =>
        rw [hc] at h
        simp only at h
        simp only [popOpen, hc, List.length_singleton, Nat.mod_one, List.getElem?_cons_zero]
        by_cases he : cur.coordinates = a.end_
        · rw [if_pos he] at h ⊢; exact h
        · rw [if_neg he] at h ⊢
          exact ih _ r h _
      | cons x tl2 => rw [hc] at h; cases h

/-! ### Moves and routes -/

theorem mem_offsets (o : Int × Int) (h : o ∈ offsets) :
    (o.1 = -1 ∨ o.1 = 0 ∨ o.1 = 1) ∧ (o.2 = -1 ∨ o.2 = 0 ∨ o.2 = 1) ∧ ¬ (o.1 = 0 ∧ o.2 = 0) := by
  simp only [offsets, List.mem_cons, List.mem_singleton, List.not_mem_nil, or_false] at h
  rcases h with h | h | h | h | h | h | h | h <;> subst h <;> simp

theorem IsMove.adjacent (a : AStar) (c d : Point) (h : IsMove a c d) : Adjacent c d := by
  obtain ⟨o, ho, hd, _⟩ := h
  obtain ⟨h1, h2, h3⟩ := mem_offsets o ho
  subst hd
  simp only [Adjacent, neighbour, add_sub_cancel_left]
  refine ⟨?_, ?_, h3⟩
  · rw [abs_le]; omega
  · rw [abs_le]; omega

theorem isWalkable_inBounds (a : AStar) (x y : Int) (h : a.isWalkable x y = true) :
    x ≥ 0 ∧ x < a.gridWidth ∧ y ≥ 0 ∧ y < a.gridHeight := by
  by_contra hn
  simp [AStar.isWalkable, if_neg hn] at h

theorem IsRoute.chain_adjacent (a : AStar) : ∀ (ds : List Point) (c d : Point),
    IsRoute a c ds d → List.Chain Adjacent c ds
  | [], _, _, _ => List.Chain.nil
  | e :: ds, c, d, h =>
      List.Chain.cons (IsMove.adjacent a c e h.1) (IsRoute.chain_adjacent a ds e d h.2)

theorem IsRoute.getLast (a : AStar) : ∀ (ds : List Point) (c d : Point),
    IsRoute a c ds d → (c :: ds).getLast? = some d
  | [], c, d, h => by
      have : c = d := h
      simp [this]
  | e :: ds, c, d, h => by
      rw [List.getLast?_cons_cons]
      exact IsRoute.getLast a ds e d h.2

theorem IsRoute.walkable (a : AStar) : ∀ (ds : List Point) (c d : Point),
    IsRoute a c ds d → ∀ p ∈ ds, a.isWalkable p.x p.y = true
  | [], _, _, _ => fun p hp => by cases hp
  | e :: ds, c, d, h => fun p hp => by
      rcases List.mem_cons.mp hp with h1 | h1
      · subst h1
        obtain ⟨o, _, _, hw⟩ := h.1
        exact hw
      · exact IsRoute.walkable a ds e d h.2 p h1

/-! ### Enclosed regions -/

/-- A route cannot enter a region `S` whose outer border is blocked, unless it
starts on that border. -/
theorem IsRoute.not_enter (a : AStar) (S : Point → Prop)
    (hring : ∀ c, ¬ S c → (∃ o ∈ offsets, S (neighbour c o)) → a.isWalkable c.x c.y = false) :
    ∀ (ds : List Point) (c d : Point), IsRoute a c ds d → ¬ S c →
      (a.isWalkable c.x c.y = true ∨ ∀ o ∈ offsets, ¬ S (neighbour c o)) → ¬ S d
  | [], c, d, h, hc, _ => by
      have : c = d := h
      exact this ▸ hc
  | e :: ds, c, d, h, hc, hborder => by
      obtain ⟨o, ho, he, hw⟩ := h.1
      have hSe : ¬ S e := by
        intro hS
        rcases hborder with h1 | h1
        · have := hring c hc ⟨o, ho, he ▸ hS⟩
          rw [h1] at this
          cases this
        · exact h1 o ho (he ▸ hS)
      exact IsRoute.not_enter a S hring ds e d h.2 hSe (Or.inl hw)

/-- The tightest ring: when the eight neighbours of `g` are blocked or out of
bounds, every cell other than `g` that has `g` as a neighbour is not
walkable. -/
theorem neighbours_blocked_ring (a : AStar) (g : Point)
    (h : ∀ o ∈ offsets, a.isWalkable (neighbour g o).x (neighbour g o).y = false) :
    ∀ c, ¬ c = g → (∃ o ∈ offsets, neighbour c o = g) → a.isWalkable c.x c.y = false := by
  rintro c _ ⟨o, ho, hS⟩
  have hneg : (-o.1, -o.2) ∈ offsets := by
    simp only [offsets, List.mem_cons, List.mem_singleton, List.not_mem_nil, or_false] at ho
    rcases ho with h | h | h | h | h | h | h | h <;> subst h <;> decide
  have hc : c = neighbour g (-o.1, -o.2) := by
    subst hS
    cases c
    simp [neighbour]
  rw [hc]
  exact h _ hneg

/-! ### The claims -/

/-- C2: `findPath` returns, and it returns the empty sequence exactly when the
goal is unreachable, that is when no sequence of zero or more 8-directional
moves onto in-bounds walkable cells leads from `start` to the goal. -/
theorem findPath_empty_iff_unreachable (a : AStar) (tie : Nat → Nat) :
    (∃ fuel r, findPath a tie fuel = some r) ∧
    ∀ fuel r, findPath a tie fuel = some r →
      (r = [] ↔ ¬ ∃ ds, IsRoute a a.start ds a.end_) := by
  refine ⟨findPath_terminates a tie, ?_⟩
  intro fuel r h
  constructor
  · rintro hr ⟨ds, hds⟩
    exact findPath_complete a tie fuel r h ds hds hr
  · intro hno
    by_contra hne
    obtain ⟨ds, _, hds⟩ := findPath_route a tie fuel r h hne
    exact hno ⟨ds, hds⟩

/-- C3: whenever `findPath` returns a non-empty sequence, its first element is
`start`, its last element is the goal, and every two consecutive cells of it
are adjacent (`|dx| ≤ 1`, `|dy| ≤ 1`, not both zero). -/
theorem findPath_endpoints_adjacent (a : AStar) (tie : Nat → Nat) (fuel : Nat)
    (r : List Point) (h : findPath a tie fuel = some r) (hne : r ≠ []) :
    r.head? = some a.start ∧ r.getLast? = some a.end_ ∧ List.Chain' Adjacent r := by
  obtain ⟨ds, hr, hds⟩ := findPath_route a tie fuel r h hne
  subst hr
  exact ⟨rfl, IsRoute.getLast a ds _ _ hds, IsRoute.chain_adjacent a ds _ _ hds⟩

/-- C4: when `start` is in bounds and walkable, every cell of a sequence
returned by `findPath` is in bounds and walkable, so the path never passes
through a wall cell (the walkability of the goal is not needed: a goal that is
not walkable is never reached from another cell). -/
theorem findPath_cells_walkable (a : AStar) (tie : Nat → Nat) (fuel : Nat) (r : List Point)
    (hs : a.isWalkable a.start.x a.start.y = true) (h : findPath a tie fuel = some r) :
    ∀ p ∈ r, a.isInBounds p = true ∧ a.isWalkable p.x p.y = true := by
  have key : ∀ p ∈ r, a.isWalkable p.x p.y = true := by
    intro p hp
    have hne : r ≠ [] := List.ne_nil_of_mem hp
    obtain ⟨ds, hr, hds⟩ := findPath_route a tie fuel r h hne
    subst hr
    rcases List.mem_cons.mp hp with h1 | h1
    · subst h1; exact hs
    · exact IsRoute.walkable a ds _ _ hds p h1
  intro p hp
  refine ⟨?_, key p hp⟩
  have := isWalkable_inBounds a p.x p.y (key p hp)
  simpa [AStar.isInBounds] using this

/-- C6: when `start` and the goal are the same cell, `findPath` returns exactly
the one-element sequence holding that cell, after one iteration. -/
theorem findPath_start_is_goal (a : AStar) (tie : Nat → Nat) (fuel : Nat)
    (h : a.start = a.end_) : findPath a tie (fuel + 1) = some [a.start] := by
  have ho : (initState a).openSet = [Node.root a.start 0 (heuristic a.start a.end_)] := rfl
  unfold findPath search
  rw [ho, popOpen_singleton]
  simp [Node.coordinates, h, Node.trace]

/-- C7, amended: if the goal lies in a region `S` that does not contain `start`
and whose outer border consists of cells that are blocked or out of bounds (in
the tightest case `S` is the goal alone and the border its eight neighbours),
and `start` is not itself on that border, then `findPath` returns the empty
sequence. -/
theorem findPath_enclosed_goal (a : AStar) (tie : Nat → Nat) (S : Point → Prop)
    (hgoal : S a.end_) (hstart : ¬ S a.start)
    (hring : ∀ c, ¬ S c → (∃ o ∈ offsets, S (neighbour c o)) → a.isWalkable c.x c.y = false)
    (hoff : ∀ o ∈ offsets, ¬ S (neighbour a.start o)) :
    (∃ fuel, findPath a tie fuel = some []) ∧
    ∀ fuel r, findPath a tie fuel = some r → r = [] := by
  have hall : ∀ fuel r, findPath a tie fuel = some r → r = [] := by
    intro fuel r h
    by_contra hne
    obtain ⟨ds, _, hds⟩ := findPath_route a tie fuel r h hne
    exact IsRoute.not_enter a S hring ds _ _ hds hstart (Or.inr hoff) hgoal
  obtain ⟨fuel, r, h⟩ := findPath_terminates a tie
  exact ⟨⟨fuel, by rw [h, hall fuel r h]⟩, hall⟩

/-- C8: `findPath` terminates whatever the tie-breaking: some number of
iterations of the main loop suffices, and with any larger bound the same
sequence is returned.  The reason is the relaxation rule: an existing registry
entry is only ever replaced by a node of strictly smaller `gCost`. -/
theorem findPath_terminates_replacing_smaller (a : AStar) (tie : Nat → Nat) :
    (∃ fuel r, ∀ fuel2, fuel ≤ fuel2 → findPath a tie fuel2 = some r) ∧
    ∀ (cur : Node) (st : SearchState) (o : Int × Int) (c : Point) (e e2 : Node),
      st.allNodes c = some e → (relax a cur st o).allNodes c = some e2 →
      e2 = e ∨ e2.gCost < e.gCost := by
  constructor
  · obtain ⟨fuel, r, h⟩ := findPath_terminates a tie
    exact ⟨fuel, r, fun fuel2 hle => search_fuel_le a tie _ r fuel fuel2 hle h⟩
  · intro cur st o c e e2 he he2
    rcases relax_cases a cur st o with ⟨_, hr⟩ | ⟨_, _, hr⟩ | ⟨_, hlt, hr⟩
    · rw [hr, he] at he2; cases he2; exact Or.inl rfl
    · rw [hr, he] at he2; cases he2; exact Or.inl rfl
    · rw [hr] at he2
      simp only [pushNode] at he2
      split at he2
      · rename_i hc
        cases he2
        right
        rw [successor_gCost]
        exact hlt e (by rw [← successor_coordinates a cur o, ← hc]; exact he)
      · rw [he] at he2; cases he2; exact Or.inl rfl

/-- C9: on a grid constructed with positive width and height and then modified
by any sequence of `setWall` calls, `isWalkable x y` is true exactly when
`(x, y)` lies in `[0,width) × [0,height)` and no `setWall x y` call was made;
the fresh grid is walkable exactly at the in-bounds cells. -/
theorem isWalkable_iff_inBounds_not_wall (w h : Int) (hw : 0 < w) (hh : 0 < h)
    (s e : Point) (walls : List (Int × Int)) (x y : Int) :
    ∃ a, AStar.construct w h s e = some a ∧
      (a.isWalkable x y = true ↔ (0 ≤ x ∧ x < w ∧ 0 ≤ y ∧ y < h)) ∧
      ((a.setWalls walls).isWalkable x y = true ↔
        ((0 ≤ x ∧ x < w ∧ 0 ≤ y ∧ y < h) ∧ (x, y) ∉ walls)) := by
  have hc : ∃ a, AStar.construct w h s e = some a := by
    unfold AStar.construct
    rw [if_pos ⟨le_of_lt hw, le_of_lt hh⟩]
    exact ⟨_, rfl⟩
  obtain ⟨a, ha⟩ := hc
  refine ⟨a, ha, ?_, ?_⟩
  · rw [isWalkable_construct w h s e a ha]
    simp
  · rw [isWalkable_setWalls, isWalkable_construct w h s e a ha]
    simp

/-- C10: for `(x, y)` outside `[0,width) × [0,height)`, `setWall x y` changes
nothing: the object (walkable flags, dimensions, `start`, `end`) is returned as
it was. -/
theorem setWall_outOfBounds_noop (a : AStar) (x y : Int)
    (h : ¬ (0 ≤ x ∧ x < a.gridWidth ∧ 0 ≤ y ∧ y < a.gridHeight)) :
    a.setWall x y = a ∧ ∀ x2 y2, (a.setWall x y).isWalkable x2 y2 = a.isWalkable x2 y2 := by
  have hs : a.setWall x y = a := by
    unfold AStar.setWall
    rw [if_neg h]
  exact ⟨hs, fun x2 y2 => by rw [hs]⟩

/-- Witness for C3 on the 4×5 grid with walls at (1,1) and (2,1), start (1,0),
goal (3,4). -/
theorem findPath_endpoints_adjacent_witness :
    ∃ a, AStar.build 4 5 ⟨1, 0⟩ ⟨3, 4⟩ [(1, 1), (2, 1)] = some a ∧
      findPath a (fun _ => 0) 6 = some [⟨1, 0⟩, ⟨2, 0⟩, ⟨3, 1⟩, ⟨3, 2⟩, ⟨3, 3⟩, ⟨3, 4⟩] ∧
      (([⟨1, 0⟩, ⟨2, 0⟩, ⟨3, 1⟩, ⟨3, 2⟩, ⟨3, 3⟩, ⟨3, 4⟩] : List Point).head? = some a.start ∧
        ([⟨1, 0⟩, ⟨2, 0⟩, ⟨3, 1⟩, ⟨3, 2⟩, ⟨3, 3⟩, ⟨3, 4⟩] : List Point).getLast? = some a.end_ ∧
        List.Chain' Adjacent [⟨1, 0⟩, ⟨2, 0⟩, ⟨3, 1⟩, ⟨3, 2⟩, ⟨3, 3⟩, ⟨3, 4⟩]) :=
  ⟨_, rfl, by decide,
    findPath_endpoints_adjacent _ (fun _ => 0) 6 _ (by decide) (by decide)⟩

/-- Witness for C4 on the 3×3 grid with the centre blocked, start (0,0), goal
(2,2). -/
theorem findPath_cells_walkable_witness :
    ∃ a, AStar.build 3 3 ⟨0, 0⟩ ⟨2, 2⟩ [(1, 1)] = some a ∧
      a.isWalkable a.start.x a.start.y = true ∧
      ∃ r, findPath a (fun _ => 0) 9 = some r ∧ r ≠ [] ∧
        ∀ p ∈ r, a.isInBounds p = true ∧ a.isWalkable p.x p.y = true :=
  ⟨_, rfl, by decide, _, rfl, by decide,
    findPath_cells_walkable _ (fun _ => 0) 9 _ (by decide) rfl⟩

/-- Witness for C6 on a 3×3 grid with start and goal both at (1,1). -/
theorem findPath_start_is_goal_witness :
    ∃ a, AStar.build 3 3 ⟨1, 1⟩ ⟨1, 1⟩ [] = some a ∧ a.start = a.end_ ∧
      findPath a (fun _ => 0) 1 = some [a.start] :=
  ⟨_, rfl, rfl, findPath_start_is_goal _ (fun _ => 0) 0 rfl⟩

/-- Counterexample to C7 as stated: on the 3×3 grid whose eight border cells
are all blocked, with the walkable goal (1,1) in the centre and the start on
the blocked cell (0,0), every neighbour of the goal is blocked, and `findPath`
returns the two-cell path from start to goal for every tie-breaking. -/
theorem findPath_enclosed_goal_blocked_start :
    ∃ a, AStar.build 3 3 ⟨0, 0⟩ ⟨1, 1⟩
        [(0, 0), (0, 1), (0, 2), (1, 0), (1, 2), (2, 0), (2, 1), (2, 2)] = some a ∧
      a.start ≠ a.end_ ∧
      a.isWalkable a.end_.x a.end_.y = true ∧
      (∀ o ∈ offsets, a.isWalkable (neighbour a.end_ o).x (neighbour a.end_ o).y = false) ∧
      ∀ tie : Nat → Nat, findPath a tie 2 = some [⟨0, 0⟩, ⟨1, 1⟩] :=
  ⟨_, rfl, by decide, by decide, by decide,
    fun tie => search_of_searchNoTie _ 2 _ _ (by decide) tie⟩

/-- Witness for C7, amended: the 5×5 grid whose goal (2,2) has its eight
neighbours blocked, with start (0,0). -/
theorem findPath_enclosed_goal_witness :
    ∃ a, AStar.build 5 5 ⟨0, 0⟩ ⟨2, 2⟩
        [(1, 1), (1, 2), (1, 3), (2, 1), (2, 3), (3, 1), (3, 2), (3, 3)] = some a ∧
      a.isWalkable a.end_.x a.end_.y = true ∧
      (∃ fuel, findPath a (fun _ => 0) fuel = some []) ∧
      ∀ fuel r, findPath a (fun _ => 0) fuel = some r → r = [] :=
  ⟨_, rfl, by decide,
    findPath_enclosed_goal _ (fun _ => 0) (fun p => p = ⟨2, 2⟩) rfl (by decide)
      (neighbours_blocked_ring _ _ (by decide))
      (by decide)⟩

/-- Witness for C9: a 3×3 grid with `setWall 1 1` and, out of bounds,
`setWall 5 5`, queried at (1,1). -/
theorem isWalkable_iff_inBounds_not_wall_witness :
    ∃ a, AStar.construct 3 3 ⟨0, 0⟩ ⟨2, 2⟩ = some a ∧
      (a.isWalkable 1 1 = true ↔ ((0 : Int) ≤ 1 ∧ (1 : Int) < 3 ∧ (0 : Int) ≤ 1 ∧ (1 : Int) < 3)) ∧
      ((a.setWalls [(1, 1), (5, 5)]).isWalkable 1 1 = true ↔
        (((0 : Int) ≤ 1 ∧ (1 : Int) < 3 ∧ (0 : Int) ≤ 1 ∧ (1 : Int) < 3) ∧
          ((1 : Int), (1 : Int)) ∉ [((1 : Int), (1 : Int)), (5, 5)])) :=
  isWalkable_iff_inBounds_not_wall 3 3 (by decide) (by decide) ⟨0, 0⟩ ⟨2, 2⟩ [(1, 1), (5, 5)] 1 1

/-- Witness for C10: `setWall 5 0` and on a 2×2 grid. -/
theorem setWall_outOfBounds_noop_witness :
    ¬ ((0 : Int) ≤ 5 ∧ (5 : Int) < 2 ∧ (0 : Int) ≤ 0 ∧ (0 : Int) < 2) ∧
    (AStar.mk ⟨0, 0⟩ ⟨1, 1⟩ [[true, false], [true, true]] 2 2).setWall 5 0
      = AStar.mk ⟨0, 0⟩ ⟨1, 1⟩ [[true, false], [true, true]] 2 2 :=
  ⟨by decide,
    (setWall_outOfBounds_noop (AStar.mk ⟨0, 0⟩ ⟨1, 1⟩ [[true, false], [true, true]] 2 2) 5 0
      (by decide)).1⟩

/-! ### Cost of the returned path -/

theorem Good.coordinates_walkable (a : AStar) : ∀ n : Node, n.Good a →
    n.coordinates = a.start ∨ a.isWalkable n.coordinates.x n.coordinates.y = true
  | .root _ _ _, h => Or.inl h.1
  | .child _ _ _ _, h => by
      obtain ⟨o, _, _, hw⟩ := h.2.1
      exact Or.inr hw

theorem heuristic_self (p : Point) : heuristic p p = 0 := by
  simp [heuristic]

/-- Every route between two cells has at least as many moves as their
Chebyshev distance. -/
theorem IsRoute.chebyshev_le (a : AStar) : ∀ (ds : List Point) (c d : Point),
    IsRoute a c ds d → chebyshev c d ≤ (ds.length : Int)
  | [], c, d, h => by
      have : c = d := h
      subst this
      simp [chebyshev]
  | e :: ds, c, d, h => by
      have ih := IsRoute.chebyshev_le a ds e d h.2
      obtain ⟨h1, h2, _⟩ := IsMove.adjacent a c e h.1
      rw [abs_le] at h1 h2
      simp only [chebyshev, abs_eq_max_neg, List.length_cons, Nat.cast_add, Nat.cast_one] at ih ⊢
      omega

/-- The cost of the returned path is bounded through an open node on any given
route: when the goal node is popped, every route from `start` to the goal has
passed through the cell of a node that was open at that moment, and the goal
node's `fCost` is no larger than that node's. -/
theorem findPath_cost_bound (a : AStar) (tie : Nat → Nat) (fuel : Nat) (r : List Point)
    (h : findPath a tie fuel = some r) (hne : r ≠ [])
    (ds2 : List Point) (hds2 : IsRoute a a.start ds2 a.end_) :
    ∃ ds, r = a.start :: ds ∧ IsRoute a a.start ds a.end_ ∧
      ∃ (c : Point) (rest : List Point) (g : Int),
        (c = a.start ∨ a.isWalkable c.x c.y = true) ∧ IsRoute a c rest a.end_ ∧
        g + (rest.length : Int) ≤ (ds2.length : Int) ∧
        (ds.length : Int) ≤ g + heuristic c a.end_ := by
  rcases search_result a fuel tie _ r (inv_initState a) h with ⟨h1, _⟩ | ⟨st2, cur, hi, hm, hmin, hc, hr⟩
  · exact absurd h1 hne
  · have hgood := hi.open_good cur hm
    obtain ⟨ds, h1, h2, h3⟩ := Good.trace_route a cur hgood
    refine ⟨ds, by rw [hr, h1], hc ▸ h2, ?_⟩
    obtain ⟨w, hw, rest, hw2, hw3⟩ := frontier a st2 hi ds2 a.start 0 hds2 hi.reg_start
    have hwgood := hi.open_good w hw
    refine ⟨w.coordinates, rest, w.gCost, Good.coordinates_walkable a w hwgood, hw2,
      by omega, ?_⟩
    have hle := hmin w hw
    have e1 := Good.hCost_eq a cur hgood
    have e2 := Good.hCost_eq a w hwgood
    rw [hc, heuristic_self] at e1
    simp only [Node.fCost, e1, e2] at hle
    omega

/-- Counterexample to C1 as stated: on the 4×5 grid with walls at (1,1) and
(2,1), walkable start (1,0) and walkable goal (3,4), `findPath` returns, for
every tie-breaking, a path of five moves, although a route of four moves
exists. -/
theorem findPath_not_optimal :
    ∃ a, AStar.build 4 5 ⟨1, 0⟩ ⟨3, 4⟩ [(1, 1), (2, 1)] = some a ∧
      a.isWalkable a.start.x a.start.y = true ∧ a.isWalkable a.end_.x a.end_.y = true ∧
      (∀ tie : Nat → Nat,
        findPath a tie 6 = some [⟨1, 0⟩, ⟨2, 0⟩, ⟨3, 1⟩, ⟨3, 2⟩, ⟨3, 3⟩, ⟨3, 4⟩]) ∧
      IsRoute a a.start [⟨0, 1⟩, ⟨1, 2⟩, ⟨2, 3⟩, ⟨3, 4⟩] a.end_ :=
  ⟨_, rfl, by decide, by decide,
    fun tie => search_of_searchNoTie _ 6 _ _ (by decide) tie, by decide⟩

/-! ### The straight run on an obstacle-free grid -/

theorem sign_cases (d : Int) :
    (d < 0 ∧ d.sign = -1) ∨ (d = 0 ∧ d.sign = 0) ∨ (0 < d ∧ d.sign = 1) := by
  rcases lt_trichotomy d 0 with h | h | h
  · exact Or.inl ⟨h, Int.sign_eq_neg_one_of_neg h⟩
  · exact Or.inr (Or.inl ⟨h, by rw [h]; rfl⟩)
  · exact Or.inr (Or.inr ⟨h, Int.sign_eq_one_of_pos h⟩)

theorem towards_mem (p g : Point) (h : p ≠ g) : towards p g ∈ offsets := by
  have hne : ¬ (g.x - p.x = 0 ∧ g.y - p.y = 0) := by
    rintro ⟨h1, h2⟩
    apply h
    cases p; cases g
    simp only [Point.mk.injEq] at h1 h2 ⊢
    constructor <;> omega
  rcases sign_cases (g.x - p.x) with ⟨h1, e1⟩ | ⟨h1, e1⟩ | ⟨h1, e1⟩ <;>
    rcases sign_cases (g.y - p.y) with ⟨h2, e2⟩ | ⟨h2, e2⟩ | ⟨h2, e2⟩ <;>
    first
      | (simp only [towards, e1, e2]; decide)
      | exact absurd (And.intro h1 h2) hne

theorem chebyshev_towards (p g : Point) (h : p ≠ g) :
    chebyshev (neighbour p (towards p g)) g = chebyshev p g - 1 := by
  have hne : ¬ (g.x - p.x = 0 ∧ g.y - p.y = 0) := by
    rintro ⟨h1, h2⟩
    apply h
    cases p; cases g
    simp only [Point.mk.injEq] at h1 h2 ⊢
    constructor <;> omega
  have h1 := sign_cases (g.x - p.x)
  have h2 := sign_cases (g.y - p.y)
  simp only [chebyshev, neighbour, towards, abs_eq_max_neg]
  omega

theorem chebyshev_neighbour (p g : Point) (o : Int × Int) (ho : o ∈ offsets) :
    chebyshev p g - 1 ≤ chebyshev (neighbour p o) g := by
  obtain ⟨h1, h2, _⟩ := mem_offsets o ho
  simp only [chebyshev, neighbour, abs_eq_max_neg]
  omega

theorem heuristic_towards_lt (p g : Point) (o : Int × Int) (ho : o ∈ offsets)
    (hne : o ≠ towards p g) :
    heuristic (neighbour p (towards p g)) g < heuristic (neighbour p o) g := by
  obtain ⟨h1, h2, _⟩ := mem_offsets o ho
  have hne2 : ¬ (o.1 = (g.x - p.x).sign ∧ o.2 = (g.y - p.y).sign) := by
    rintro ⟨e1, e2⟩
    exact hne (Prod.ext e1 e2)
  have h3 := sign_cases (g.x - p.x)
  have h4 := sign_cases (g.y - p.y)
  simp only [heuristic, neighbour, towards, abs_eq_max_neg]
  omega

theorem heuristic_towards_step (p g : Point) (h : p ≠ g) :
    heuristic (neighbour p (towards p g)) g + 1 ≤ heuristic p g := by
  have hne : ¬ (g.x - p.x = 0 ∧ g.y - p.y = 0) := by
    rintro ⟨h1, h2⟩
    apply h
    cases p; cases g
    simp only [Point.mk.injEq] at h1 h2 ⊢
    constructor <;> omega
  have h1 := sign_cases (g.x - p.x)
  have h2 := sign_cases (g.y - p.y)
  simp only [heuristic, neighbour, towards, abs_eq_max_neg]
  omega

theorem between_towards (s g p : Point) (h : Between s g p) :
    Between s g (neighbour p (towards p g)) := by
  have h1 := sign_cases (g.x - p.x)
  have h2 := sign_cases (g.y - p.y)
  simp only [Between, neighbour, towards] at h ⊢
  omega

theorem chebyshev_eq_zero (p g : Point) (h : chebyshev p g = 0) : p = g := by
  simp only [chebyshev, abs_eq_max_neg] at h
  cases p; cases g
  simp only [Point.mk.injEq]
  simp only at h
  constructor <;> omega

theorem chebyshev_nonneg (p g : Point) : 0 ≤ chebyshev p g := by
  simp only [chebyshev, abs_eq_max_neg]
  omega

theorem neighbour_injective (p : Point) (o1 o2 : Int × Int)
    (h : neighbour p o1 = neighbour p o2) : o1 = o2 := by
  simp only [neighbour, Point.mk.injEq] at h
  exact Prod.ext (by omega) (by omega)

theorem lineNode_gCost (a : AStar) : ∀ k, (lineNode a k).gCost = (k : Int)
  | 0 => rfl
  | k + 1 => by
      simp only [lineNode, successor_gCost, lineNode_gCost a k, Nat.cast_add, Nat.cast_one]

theorem lineNode_hCost (a : AStar) : ∀ k,
    (lineNode a k).hCost = heuristic (lineNode a k).coordinates a.end_
  | 0 => rfl
  | _ + 1 => rfl

theorem lineNode_between (a : AStar) : ∀ k, Between a.start a.end_ (lineNode a k).coordinates
  | 0 => by
      simp only [lineNode, Node.coordinates, Between]
      omega
  | k + 1 => between_towards _ _ _ (lineNode_between a k)

theorem lineNode_trace_length (a : AStar) : ∀ k, (lineNode a k).trace.length = k + 1
  | 0 => rfl
  | k + 1 => by
      simp only [lineNode, successor, Node.trace, List.length_cons, lineNode_trace_length a k]

theorem lineNode_fCost_succ (a : AStar) (k : Nat) (h : (lineNode a k).coordinates ≠ a.end_) :
    (lineNode a (k + 1)).fCost ≤ (lineNode a k).fCost := by
  have h1 := heuristic_towards_step _ _ h
  simp only [Node.fCost, lineNode_gCost, lineNode_hCost]
  simp only [lineNode, successor_coordinates, Nat.cast_add, Nat.cast_one]
  omega

/-- The shape of the state after the inner loops: the open set grows by a
sublist `news` of the eight successors, registry entries are old or sit on a
neighbour of `cur`, and a walkable neighbour that had no registry entry gets
its successor pushed. -/
theorem foldl_relax_shape (a : AStar) (cur : Node) :
    ∀ (l : List (Int × Int)) (st : SearchState),
    ∃ news, (l.foldl (relax a cur) st).openSet = st.openSet ++ news ∧
      news.Sublist (l.map (successor a cur)) ∧
      (∀ c e, (l.foldl (relax a cur) st).allNodes c = some e →
        st.allNodes c = some e ∨ ∃ o ∈ l, c = neighbour cur.coordinates o) ∧
      (∀ o ∈ l,
        a.isWalkable (neighbour cur.coordinates o).x (neighbour cur.coordinates o).y = true →
        st.allNodes (neighbour cur.coordinates o) = none → successor a cur o ∈ news) := by
  intro l
  induction l with
  | nil =>
    intro st
    exact ⟨[], by simp, List.Sublist.slnil, fun c e h => Or.inl h, fun o ho => by cases ho⟩
  | cons o1 l ih =>
    intro st
    obtain ⟨news, h1, h2, h3, h4⟩ := ih (relax a cur st o1)
    simp only [List.foldl_cons, List.map_cons]
    rcases relax_cases a cur st o1 with ⟨hw, hr⟩ | ⟨hw, hex, hr⟩ | ⟨hw, hlt, hr⟩
    · rw [hr] at h1 h3 h4 ⊢
      refine ⟨news, h1, h2.cons _, ?_, ?_⟩
      · intro c e he
        rcases h3 c e he with h | ⟨o, ho, hc⟩
        · exact Or.inl h
        · exact Or.inr ⟨o, List.mem_cons_of_mem _ ho, hc⟩
      · intro o ho hwo hnone
        rcases List.mem_cons.mp ho with h | h
        · subst h; rw [hw] at hwo; cases hwo
        · exact h4 o h hwo hnone
    · rw [hr] at h1 h3 h4 ⊢
      refine ⟨news, h1, h2.cons _, ?_, ?_⟩
      · intro c e he
        rcases h3 c e he with h | ⟨o, ho, hc⟩
        · exact Or.inl h
        · exact Or.inr ⟨o, List.mem_cons_of_mem _ ho, hc⟩
      · intro o ho hwo hnone
        rcases List.mem_cons.mp ho with h | h
        · subst h
          obtain ⟨e, he, _⟩ := hex
          rw [hnone] at he; cases he
        · exact h4 o h hwo hnone
    · rw [hr] at h1 h3 h4 ⊢
      refine ⟨successor a cur o1 :: news, ?_, h2.cons₂ _, ?_, ?_⟩
      · rw [h1]; simp [pushNode]
      · intro c e he
        rcases h3 c e he with h | ⟨o, ho, hc⟩
        · by_cases hc : c = neighbour cur.coordinates o1
          · exact Or.inr ⟨o1, List.mem_cons_self _ _, hc⟩
          · left
            simpa [pushNode, successor_coordinates, hc] using h
        · exact Or.inr ⟨o, List.mem_cons_of_mem _ ho, hc⟩
      · intro o ho hwo hnone
        by_cases hoo : o = o1
        · subst hoo; exact List.mem_cons_self _ _
        · have hol : o ∈ l := by
            rcases List.mem_cons.mp ho with h | h
            · exact absurd h hoo
            · exact h
          have hnb : neighbour cur.coordinates o ≠ neighbour cur.coordinates o1 :=
            fun h => hoo (neighbour_injective _ _ _ h)
          refine List.mem_cons_of_mem _ (h4 o hol hwo ?_)
          simpa [pushNode, successor_coordinates, hnb] using hnone

theorem successors_nodup (a : AStar) (cur : Node) :
    (offsets.map (successor a cur)).Nodup := by
  apply List.Nodup.map_on
  · intro o1 _ o2 _ h
    have : (successor a cur o1).coordinates = (successor a cur o2).coordinates := by rw [h]
    exact neighbour_injective _ _ _ this
  · decide

/-- On an obstacle-free grid the node popped in iteration `k` is `lineNode a k`,
whatever the tie-breaking. -/
theorem line_pop (a : AStar) (k : Nat) (st : SearchState) (hinv : LineInv a k st) (t : Nat) :
    ∃ rest, popOpen t st.openSet = some (lineNode a k, rest) ∧
      ∃ others, rest.Perm others ∧ ∀ n ∈ others, (lineNode a k).fCost < n.fCost := by
  obtain ⟨others, hperm, hoth⟩ := hinv.perm
  have hmemL : lineNode a k ∈ st.openSet := hperm.mem_iff.mpr (List.mem_cons_self _ _)
  cases hp : popOpen t st.openSet with
  | none =>
    have := popOpen_eq_none _ _ hp
    rw [this] at hmemL
    cases hmemL
  | some pr =>
    obtain ⟨cur, rest⟩ := pr
    obtain ⟨hm, hmin, hrest⟩ := popOpen_eq_some _ _ _ _ hp
    have hcur : cur = lineNode a k := by
      rcases List.mem_cons.mp (hperm.mem_iff.mp hm) with h1 | h1
      · exact h1
      · have h2 := hoth cur h1
        have h3 := hmin _ hmemL
        omega
    subst hcur
    refine ⟨rest, rfl, others, ?_, hoth⟩
    rw [hrest]
    have := hperm.erase (lineNode a k)
    rwa [List.erase_cons_head] at this

/-- One iteration on an obstacle-free grid leads from the invariant for `k` to
the invariant for `k + 1`. -/
theorem line_step (a : AStar)
    (hopen : ∀ p, Between a.start a.end_ p → a.isWalkable p.x p.y = true)
    (k : Nat) (st : SearchState) (rest : List Node) (hinv : LineInv a k st)
    (hrest : ∃ others, rest.Perm others ∧ ∀ n ∈ others, (lineNode a k).fCost < n.fCost)
    (hne : (lineNode a k).coordinates ≠ a.end_)
    (hD : chebyshev (lineNode a k).coordinates a.end_ = chebyshev a.start a.end_ - (k : Int)) :
    LineInv a (k + 1) (expand a (lineNode a k) { st with openSet := rest }) := by
  obtain ⟨others, hperm, hoth⟩ := hrest
  obtain ⟨news, h1, h2, h3, h4⟩ :=
    foldl_relax_shape a (lineNode a k) offsets { st with openSet := rest }
  have hto := towards_mem _ _ hne
  have hstep := chebyshev_towards _ _ hne
  have hnew : lineNode a (k + 1) ∈ news := by
    apply h4 _ hto
    · exact hopen _ (lineNode_between a (k + 1))
    · cases hreg : st.allNodes (neighbour (lineNode a k).coordinates
          (towards (lineNode a k).coordinates a.end_)) with
      | none => rfl
      | some e =>
        have := hinv.far _ e hreg
        omega
  have hnd : news.Nodup := (successors_nodup a (lineNode a k)).sublist h2
  have hfle := lineNode_fCost_succ a k hne
  constructor
  · refine ⟨others ++ news.erase (lineNode a (k + 1)), ?_, ?_⟩
    · show (expand a (lineNode a k) { st with openSet := rest }).openSet.Perm _
      unfold expand
      rw [h1]
      have p1 : (rest ++ news).Perm (others ++ (lineNode a (k + 1) ::
          news.erase (lineNode a (k + 1)))) :=
        List.Perm.append hperm (List.perm_cons_erase hnew)
      exact p1.trans List.perm_middle
    · intro n hn
      rcases List.mem_append.mp hn with hn1 | hn1
      · have := hoth n hn1
        omega
      · have hn2 : n ∈ news := List.mem_of_mem_erase hn1
        have hn3 : n ≠ lineNode a (k + 1) := fun e => by
          rw [e] at hn1
          exact (List.Nodup.not_mem_erase hnd) hn1
        obtain ⟨o, ho, hso⟩ := List.mem_map.mp (h2.subset hn2)
        have hot : o ≠ towards (lineNode a k).coordinates a.end_ := by
          intro e
          apply hn3
          rw [← hso, e]
          rfl
        have hlt := heuristic_towards_lt (lineNode a k).coordinates a.end_ o ho hot
        rw [← hso]
        simp only [Node.fCost, lineNode, successor_gCost, successor_hCost]
        omega
  · intro c e he
    have he2 : (offsets.foldl (relax a (lineNode a k)) { st with openSet := rest }).allNodes c
        = some e := he
    rcases h3 c e he2 with h | ⟨o, ho, hc⟩
    · have := hinv.far c e h
      simp only [Nat.cast_add, Nat.cast_one]
      omega
    · have := chebyshev_neighbour (lineNode a k).coordinates a.end_ o ho
      rw [hc]
      simp only [Nat.cast_add, Nat.cast_one]
      omega

/-- On a grid whose cells between `start` and the goal are all walkable, the
loop returns the path of `lineNode` after exactly `chebyshev + 1` iterations,
whatever the tie-breaking. -/
theorem search_line (a : AStar)
    (hopen : ∀ p, Between a.start a.end_ p → a.isWalkable p.x p.y = true) :
    ∀ (n k : Nat) (st : SearchState) (tie : Nat → Nat),
      chebyshev (lineNode a k).coordinates a.end_ = (n : Int) →
      chebyshev a.start a.end_ = (k : Int) + (n : Int) →
      LineInv a k st →
      search a (n + 1) tie st = some (lineNode a (k + n)).trace.reverse := by
  intro n
  induction n with
  | zero =>
    intro k st tie hn _ hinv
    obtain ⟨rest, hp, _⟩ := line_pop a k st hinv (tie 0)
    have hc : (lineNode a k).coordinates = a.end_ := chebyshev_eq_zero _ _ (by simpa using hn)
    unfold search
    rw [hp]
    simp [hc]
  | succ n ih =>
    intro k st tie hn hD hinv
    obtain ⟨rest, hp, hrest⟩ := line_pop a k st hinv (tie 0)
    have hc : (lineNode a k).coordinates ≠ a.end_ := by
      intro e
      rw [e] at hn
      simp only [chebyshev, sub_self, abs_zero, max_self, Nat.cast_add, Nat.cast_one] at hn
      omega
    have hinv2 := line_step a hopen k st rest hinv hrest hc (by rw [hn, hD]; omega)
    have hn2 : chebyshev (lineNode a (k + 1)).coordinates a.end_ = (n : Int) := by
      have := chebyshev_towards _ _ hc
      simp only [lineNode, successor_coordinates]
      rw [this, hn]
      simp
    have hD2 : chebyshev a.start a.end_ = ((k + 1 : Nat) : Int) + (n : Int) := by
      rw [hD]
      simp only [Nat.cast_add, Nat.cast_one]
      omega
    have := ih (k + 1) _ (fun i => tie (i + 1)) hn2 hD2 hinv2
    unfold search
    rw [hp]
    simp only [if_neg hc]
    rw [this]
    have e : k + 1 + n = k + (n + 1) := by omega
    rw [e]

theorem lineInv_initState (a : AStar) : LineInv a 0 (initState a) := by
  constructor
  · exact ⟨[], List.Perm.refl _, fun n hn => by cases hn⟩
  · intro c e he
    simp only [initState, pushNode, Node.coordinates] at he
    split at he
    · rename_i hc
      rw [hc]
      simp
    · cases he

theorem construct_fields (w h : Int) (s e : Point) (a : AStar)
    (hc : AStar.construct w h s e = some a) :
    a.start = s ∧ a.end_ = e ∧ a.gridWidth = w ∧ a.gridHeight = h := by
  unfold AStar.construct at hc
  split at hc
  · cases hc; exact ⟨rfl, rfl, rfl, rfl⟩
  · cases hc

/-- C5: on a grid with no obstacles (positive width and height, no `setWall`
call) and with `start` and the goal in bounds, `findPath` returns, whatever the
tie-breaking, a non-empty sequence whose number of cells is the Chebyshev
distance between `start` and the goal plus one; it does so after that many
iterations of the main loop. -/
theorem findPath_no_obstacles (w h : Int) (hw : 0 < w) (hh : 0 < h) (s g : Point)
    (hs : 0 ≤ s.x ∧ s.x < w ∧ 0 ≤ s.y ∧ s.y < h)
    (hg : 0 ≤ g.x ∧ g.x < w ∧ 0 ≤ g.y ∧ g.y < h) :
    ∃ a, AStar.construct w h s g = some a ∧
      ∀ tie : Nat → Nat, ∃ r,
        (∀ fuel, (chebyshev s g).toNat + 1 ≤ fuel → findPath a tie fuel = some r) ∧
        r ≠ [] ∧ (r.length : Int) = chebyshev s g + 1 := by
  have hc : ∃ a, AStar.construct w h s g = some a := by
    unfold AStar.construct
    rw [if_pos ⟨le_of_lt hw, le_of_lt hh⟩]
    exact ⟨_, rfl⟩
  obtain ⟨a, ha⟩ := hc
  obtain ⟨e1, e2, _, _⟩ := construct_fields w h s g a ha
  refine ⟨a, ha, ?_⟩
  intro tie
  have hopen : ∀ p, Between a.start a.end_ p → a.isWalkable p.x p.y = true := by
    intro p hp
    rw [isWalkable_construct w h s g a ha, decide_eq_true_eq]
    rw [e1, e2] at hp
    simp only [Between] at hp
    omega
  have hD : ((chebyshev s g).toNat : Int) = chebyshev s g :=
    Int.toNat_of_nonneg (chebyshev_nonneg s g)
  have hrun := search_line a hopen (chebyshev s g).toNat 0 (initState a) tie
    (by rw [hD, ← e1, ← e2]; rfl) (by rw [hD, e1, e2]; simp) (lineInv_initState a)
  rw [Nat.zero_add] at hrun
  refine ⟨_, fun fuel hle => search_fuel_le a tie _ _ _ fuel hle hrun, ?_, ?_⟩
  · intro hnil
    have := congrArg List.length hnil
    simp [lineNode_trace_length] at this
  · rw [List.length_reverse, lineNode_trace_length]
    simp only [Nat.cast_add, Nat.cast_one, hD]

/-- Witness for C5: the obstacle-free 4×3 grid with start (0,0) and goal
(3,1). -/
theorem findPath_no_obstacles_witness :
    ∃ a, AStar.construct 4 3 ⟨0, 0⟩ ⟨3, 1⟩ = some a ∧
      ∀ tie : Nat → Nat, ∃ r,
        (∀ fuel, (chebyshev ⟨0, 0⟩ ⟨3, 1⟩).toNat + 1 ≤ fuel → findPath a tie fuel = some r) ∧
        r ≠ [] ∧ (r.length : Int) = chebyshev ⟨0, 0⟩ ⟨3, 1⟩ + 1 :=
  findPath_no_obstacles 4 3 (by decide) (by decide) ⟨0, 0⟩ ⟨3, 1⟩ (by decide) (by decide)

/-! ### Runs under every tie-breaking -/

theorem popOpen_of_candidates (t : Nat) (l : List Node) (h : candidates l ≠ []) :
    ∃ n, n ∈ candidates l ∧ popOpen t l = some (n, l.erase n) := by
  have hpos : 0 < (candidates l).length := List.length_pos.mpr h
  have hlt : t % (candidates l).length < (candidates l).length := Nat.mod_lt _ hpos
  refine ⟨(candidates l)[t % (candidates l).length], List.getElem_mem _, ?_⟩
  unfold popOpen
  rw [List.getElem?_eq_getElem hlt]

/-- What `allRuns` establishes: for every tie-breaking the loop finishes within
the fuel, with a path accepted by `P`. -/
theorem search_of_allRuns (a : AStar) (P : List Point → Bool) :
    ∀ (fuel : Nat) (st : SearchState), allRuns a P fuel st = true →
      ∀ tie : Nat → Nat, ∃ r, search a fuel tie st = some r ∧ P r = true := by
  intro fuel
  induction fuel with
  | zero => intro st h; cases h
  | succ fuel ih =>
    intro st h tie
    unfold allRuns at h
    unfold search
    cases hc : candidates st.openSet with
    | nil =>
      rw [hc] at h
      refine ⟨[], ?_, h⟩
      simp only [popOpen, hc, List.length_nil, Nat.mod_zero, List.getElem?_nil]
    | cons c cs =>
      rw [hc] at h
      simp only at h
      obtain ⟨n, hn, hp⟩ := popOpen_of_candidates (tie 0) st.openSet (by rw [hc]; simp)
      rw [hc] at hn
      have hn2 := List.all_eq_true.mp h n hn
      rw [hp]
      simp only
      by_cases he : n.coordinates = a.end_
      · rw [if_pos he] at hn2 ⊢
        exact ⟨_, rfl, hn2⟩
      · rw [if_neg he] at hn2 ⊢
        exact ih _ hn2 _

theorem findPath_of_allRuns (a : AStar) (Q : List Point → Prop) [DecidablePred Q]
    (fuel : Nat) (h : allRuns a (fun r => decide (Q r)) fuel (initState a) = true)
    (tie : Nat → Nat) :
    ∃ r, (∀ fuel2, fuel ≤ fuel2 → findPath a tie fuel2 = some r) ∧ Q r := by
  obtain ⟨r, hr, hP⟩ := search_of_allRuns a _ fuel _ h tie
  exact ⟨r, fun fuel2 hle => search_fuel_le a tie _ r fuel fuel2 hle hr, of_decide_eq_true hP⟩

/-- C11: on the 3×3 grid whose only obstacle is the centre cell (1,1), with
start (0,0) and goal (2,2), `findPath` returns, whichever way ties are broken,
a path of four cells (three steps) that does not contain (1,1); four
iterations of the main loop suffice. -/
theorem findPath_centre_blocked :
    ∃ a, AStar.build 3 3 ⟨0, 0⟩ ⟨2, 2⟩ [(1, 1)] = some a ∧
      ∀ tie : Nat → Nat, ∃ r, (∀ fuel, 4 ≤ fuel → findPath a tie fuel = some r) ∧
        (r.length = 4 ∧ (⟨1, 1⟩ : Point) ∉ r) :=
  ⟨_, rfl, fun tie =>
    findPath_of_allRuns _ (fun r => r.length = 4 ∧ (⟨1, 1⟩ : Point) ∉ r) 4 (by decide) tie⟩

/-! ### The grid of `main` -/

/-- A labelling of the cells that grows by at most one along every move bounds
the number of moves of a route from below. -/
theorem IsRoute.potential (a : AStar) (ψ : Point → Int)
    (hstep : ∀ c ∈ a.cells, ∀ o ∈ offsets,
      a.isWalkable (neighbour c o).x (neighbour c o).y = true → ψ (neighbour c o) ≤ ψ c + 1) :
    ∀ (ds : List Point) (c d : Point), c ∈ a.cells → IsRoute a c ds d →
      ψ d ≤ ψ c + (ds.length : Int)
  | [], c, d, _, h => by
      have : c = d := h
      subst this
      simp
  | e :: ds, c, d, hc, h => by
      obtain ⟨o, ho, he, hw⟩ := h.1
      have h1 := hstep c hc o ho (he ▸ hw)
      have h2 := IsRoute.potential a ψ hstep ds e d (mem_cells a e hw) h.2
      rw [← he] at h1
      simp only [List.length_cons, Nat.cast_add, Nat.cast_one]
      omega

theorem build_walkable_not_wall (w h : Int) (s e : Point) (walls : List (Int × Int))
    (a : AStar) (hb : AStar.build w h s e walls = some a) (x y : Int)
    (hw : a.isWalkable x y = true) : (x, y) ∉ walls := by
  unfold AStar.build at hb
  cases hc : AStar.construct w h s e with
  | none => rw [hc] at hb; cases hb
  | some a0 =>
    rw [hc] at hb
    simp only [Option.map_some', Option.some.injEq] at hb
    subst hb
    rw [isWalkable_setWalls] at hw
    simp only [Bool.and_eq_true, Bool.not_eq_true', decide_eq_false_iff_not] at hw
    exact hw.2

set_option maxRecDepth 100000

/-- C12: on the 10×10 grid built in `main` (start (5,0), goal (9,9), the 19
`setWall` calls), `findPath` returns for every tie-breaking, and what it
returns is a non-empty path of at least 11 cells that begins at (5,0), ends at
(9,9) and contains none of the wall cells. -/
theorem findPath_main_grid :
    ∃ a, AStar.build 10 10 ⟨5, 0⟩ ⟨9, 9⟩ mainWalls = some a ∧
      ∀ tie : Nat → Nat, (∃ fuel r, findPath a tie fuel = some r) ∧
        ∀ fuel r, findPath a tie fuel = some r →
          r ≠ [] ∧ 11 ≤ r.length ∧ r.head? = some ⟨5, 0⟩ ∧ r.getLast? = some ⟨9, 9⟩ ∧
            ∀ p ∈ r, (p.x, p.y) ∉ mainWalls := by
  refine ⟨_, rfl, fun tie => ⟨findPath_terminates _ tie, ?_⟩⟩
  intro fuel r h
  have hne : r ≠ [] :=
    findPath_complete _ tie fuel r h
      [⟨4, 0⟩, ⟨3, 0⟩, ⟨2, 0⟩, ⟨1, 0⟩, ⟨0, 1⟩, ⟨0, 2⟩, ⟨0, 3⟩, ⟨1, 4⟩, ⟨2, 4⟩, ⟨3, 5⟩,
        ⟨4, 6⟩, ⟨5, 7⟩, ⟨6, 8⟩, ⟨7, 9⟩, ⟨8, 9⟩, ⟨9, 9⟩] (by decide)
  obtain ⟨ds, hr, hds⟩ := findPath_route _ tie fuel r h hne
  have hends := findPath_endpoints_adjacent _ tie fuel r h hne
  have hwalk := findPath_cells_walkable _ tie fuel r (by decide) h
  have hpot := IsRoute.potential _ (tableAt mainDistance) (by decide) ds _ _
    (mem_cells _ _ (by decide)) hds
  refine ⟨hne, ?_, hends.1, hends.2.1, ?_⟩
  · have e1 : tableAt mainDistance ⟨9, 9⟩ = 16 := by decide
    have e2 : tableAt mainDistance ⟨5, 0⟩ = 0 := by decide
    have hpot2 : tableAt mainDistance ⟨9, 9⟩ ≤ tableAt mainDistance ⟨5, 0⟩ + (ds.length : Int) :=
      hpot
    rw [hr, List.length_cons]
    omega
  · intro p hp
    exact build_walkable_not_wall 10 10 ⟨5, 0⟩ ⟨9, 9⟩ mainWalls _ rfl p.x p.y (hwalk p hp).2

/-! ### Independence of the fuel -/

theorem findPath_unique (a : AStar) (tie : Nat → Nat) (fuel fuel2 : Nat) (r r2 : List Point)
    (h : findPath a tie fuel = some r) (h2 : findPath a tie fuel2 = some r2) : r2 = r := by
  rcases Nat.le_total fuel fuel2 with hle | hle
  · have := search_fuel_le a tie _ r fuel fuel2 hle h
    unfold findPath at h2
    rw [this] at h2
    exact (Option.some.inj h2).symm
  · have := search_fuel_le a tie _ r2 fuel2 fuel hle h2
    unfold findPath at h
    rw [this] at h
    exact Option.some.inj h

/-! ### Corner cutting -/

/-- One iteration leads from the straight-run invariant for `k` to the one for
`k + 1` as soon as the next cell of the straight run is walkable, whatever the
other cells are. -/
theorem line_step_walkable (a : AStar)
    (k : Nat) (st : SearchState) (rest : List Node) (hinv : LineInv a k st)
    (hrest : ∃ others, rest.Perm others ∧ ∀ n ∈ others, (lineNode a k).fCost < n.fCost)
    (hne : (lineNode a k).coordinates ≠ a.end_)
    (hD : chebyshev (lineNode a k).coordinates a.end_ = chebyshev a.start a.end_ - (k : Int))
    (hnext : a.isWalkable (lineNode a (k + 1)).coordinates.x
      (lineNode a (k + 1)).coordinates.y = true) :
    LineInv a (k + 1) (expand a (lineNode a k) { st with openSet := rest }) := by
  obtain ⟨others, hperm, hoth⟩ := hrest
  obtain ⟨news, h1, h2, h3, h4⟩ :=
    foldl_relax_shape a (lineNode a k) offsets { st with openSet := rest }
  have hto := towards_mem _ _ hne
  have hstep := chebyshev_towards _ _ hne
  have hnew : lineNode a (k + 1) ∈ news := by
    apply h4 _ hto
    · exact hnext
    · cases hreg : st.allNodes (neighbour (lineNode a k).coordinates
          (towards (lineNode a k).coordinates a.end_)) with
      | none => rfl
      | some e =>
        have := hinv.far _ e hreg
        omega
  have hnd : news.Nodup := (successors_nodup a (lineNode a k)).sublist h2
  have hfle := lineNode_fCost_succ a k hne
  constructor
  · refine ⟨others ++ news.erase (lineNode a (k + 1)), ?_, ?_⟩
    · show (expand a (lineNode a k) { st with openSet := rest }).openSet.Perm _
      unfold expand
      rw [h1]
      have p1 : (rest ++ news).Perm (others ++ (lineNode a (k + 1) ::
          news.erase (lineNode a (k + 1)))) :=
        List.Perm.append hperm (List.perm_cons_erase hnew)
      exact p1.trans List.perm_middle
    · intro n hn
      rcases List.mem_append.mp hn with hn1 | hn1
      · have := hoth n hn1
        omega
      · have hn2 : n ∈ news := List.mem_of_mem_erase hn1
        have hn3 : n ≠ lineNode a (k + 1) := fun e => by
          rw [e] at hn1
          exact (List.Nodup.not_mem_erase hnd) hn1
        obtain ⟨o, ho, hso⟩ := List.mem_map.mp (h2.subset hn2)
        have hot : o ≠ towards (lineNode a k).coordinates a.end_ := by
          intro e
          apply hn3
          rw [← hso, e]
          rfl
        have hlt := heuristic_towards_lt (lineNode a k).coordinates a.end_ o ho hot
        rw [← hso]
        simp only [Node.fCost, lineNode, successor_gCost, successor_hCost]
        omega
  · intro c e he
    have he2 : (offsets.foldl (relax a (lineNode a k)) { st with openSet := rest }).allNodes c
        = some e := he
    rcases h3 c e he2 with h | ⟨o, ho, hc⟩
    · have := hinv.far c e h
      simp only [Nat.cast_add, Nat.cast_one]
      omega
    · have := chebyshev_neighbour (lineNode a k).coordinates a.end_ o ho
      rw [hc]
      simp only [Nat.cast_add, Nat.cast_one]
      omega

/-- When the cells of the straight run are walkable, the loop returns the path
of `lineNode` after exactly `chebyshev + 1` iterations, whatever the
tie-breaking and whatever the other cells are. -/
theorem search_line_walkable (a : AStar)
    (hline : ∀ j : Nat, (j : Int) < chebyshev a.start a.end_ →
      a.isWalkable (lineNode a (j + 1)).coordinates.x
        (lineNode a (j + 1)).coordinates.y = true) :
    ∀ (n k : Nat) (st : SearchState) (tie : Nat → Nat),
      chebyshev (lineNode a k).coordinates a.end_ = (n : Int) →
      chebyshev a.start a.end_ = (k : Int) + (n : Int) →
      LineInv a k st →
      search a (n + 1) tie st = some (lineNode a (k + n)).trace.reverse := by
  intro n
  induction n with
  | zero =>
    intro k st tie hn _ hinv
    obtain ⟨rest, hp, _⟩ := line_pop a k st hinv (tie 0)
    have hc : (lineNode a k).coordinates = a.end_ := chebyshev_eq_zero _ _ (by simpa using hn)
    unfold search
    rw [hp]
    simp [hc]
  | succ n ih =>
    intro k st tie hn hD hinv
    obtain ⟨rest, hp, hrest⟩ := line_pop a k st hinv (tie 0)
    have hc : (lineNode a k).coordinates ≠ a.end_ := by
      intro e
      rw [e] at hn
      simp only [chebyshev, sub_self, abs_zero, max_self, Nat.cast_add, Nat.cast_one] at hn
      omega
    have hinv2 := line_step_walkable a k st rest hinv hrest hc (by rw [hn, hD]; omega)
      (hline k (by rw [hD]; omega))
    have hn2 : chebyshev (lineNode a (k + 1)).coordinates a.end_ = (n : Int) := by
      have := chebyshev_towards _ _ hc
      simp only [lineNode, successor_coordinates]
      rw [this, hn]
      simp
    have hD2 : chebyshev a.start a.end_ = ((k + 1 : Nat) : Int) + (n : Int) := by
      rw [hD]
      simp only [Nat.cast_add, Nat.cast_one]
      omega
    have := ih (k + 1) _ (fun i => tie (i + 1)) hn2 hD2 hinv2
    unfold search
    rw [hp]
    simp only [if_neg hc]
    rw [this]
    have e : k + 1 + n = k + (n + 1) := by omega
    rw [e]


theorem lineNode_one_of_adjacent (a : AStar)
    (hadj : ∃ o ∈ offsets, a.end_ = neighbour a.start o) :
    chebyshev a.start a.end_ = 1 ∧ (lineNode a 1).coordinates = a.end_ := by
  obtain ⟨o, ho, he⟩ := hadj
  obtain ⟨h1, h2, h3⟩ := mem_offsets o ho
  have hch : chebyshev a.start a.end_ = 1 := by
    rw [he]
    simp only [chebyshev, neighbour, abs_eq_max_neg]
    omega
  have hne : a.start ≠ a.end_ := by
    intro e
    rw [e] at hch
    simp [chebyshev] at hch
  refine ⟨hch, ?_⟩
  apply chebyshev_eq_zero
  have := chebyshev_towards a.start a.end_ hne
  have hc : (lineNode a 1).coordinates = neighbour a.start (towards a.start a.end_) := rfl
  rw [hc, this, hch]
  rfl

/-- C14: corner-cutting is permitted, only the landing cell is checked: for
every grid, every start and every goal that is an in-bounds walkable
8-neighbour of start, `findPath` returns exactly `[start, goal]` after two
iterations, for every tie-breaking and whatever the walkability of every
other cell. -/
theorem findPath_adjacent_goal (a : AStar) (tie : Nat → Nat)
    (hadj : ∃ o ∈ offsets, a.end_ = neighbour a.start o)
    (hw : a.isWalkable a.end_.x a.end_.y = true) :
    ∀ fuel, 2 ≤ fuel → findPath a tie fuel = some [a.start, a.end_] := by
  obtain ⟨hch, hone⟩ := lineNode_one_of_adjacent a hadj
  have hline : ∀ j : Nat, (j : Int) < chebyshev a.start a.end_ →
      a.isWalkable (lineNode a (j + 1)).coordinates.x
        (lineNode a (j + 1)).coordinates.y = true := by
    intro j hj
    have hj0 : j = 0 := by omega
    subst hj0
    rw [hone]
    exact hw
  have hrun := search_line_walkable a hline 1 0 (initState a) tie
    (by simpa [lineNode, Node.coordinates] using hch) (by simpa using hch) (lineInv_initState a)
  have htr : (lineNode a (0 + 1)).trace.reverse = [a.start, a.end_] := by
    have h1 : (lineNode a 1).trace = [(lineNode a 1).coordinates, a.start] := rfl
    rw [Nat.zero_add, h1, hone]
    rfl
  rw [htr] at hrun
  intro fuel hle
  exact search_fuel_le a tie _ _ 2 fuel hle hrun

/-- Witness for C14: the 2×2 grid with (1,0) and (0,1) blocked, start (0,0) and
goal (1,1). -/
theorem findPath_adjacent_goal_witness :
    ∃ a, AStar.build 2 2 ⟨0, 0⟩ ⟨1, 1⟩ [(1, 0), (0, 1)] = some a ∧
      a.isWalkable 1 0 = false ∧ a.isWalkable 0 1 = false ∧
      ∀ tie : Nat → Nat, ∀ fuel, 2 ≤ fuel → findPath a tie fuel = some [⟨0, 0⟩, ⟨1, 1⟩] :=
  ⟨_, rfl, by decide, by decide, fun tie =>
    findPath_adjacent_goal _ tie ⟨(1, 1), by decide, by decide⟩ (by decide)⟩

/-! ### Chains of predecessors -/

theorem Node.gCost_root (c : Point) (g h : Int) : (Node.root c g h).gCost = g := rfl

theorem Node.gCost_child (c : Point) (p : Node) (g h : Int) :
    (Node.child c p g h).gCost = g := rfl

theorem Node.coordinates_child (c : Point) (p : Node) (g h : Int) :
    (Node.child c p g h).coordinates = c := rfl

theorem Node.trace_eq_chain : ∀ n : Node, n.trace = n.chain.map Node.coordinates
  | .root _ _ _ => rfl
  | .child _ p _ _ => by
      simp only [Node.trace, Node.chain, List.map_cons, Node.coordinates, Node.trace_eq_chain p]

theorem Node.trace_length : ∀ n : Node, n.trace.length = n.moves + 1
  | .root _ _ _ => rfl
  | .child _ p _ _ => by
      simp only [Node.trace, Node.moves, List.length_cons, Node.trace_length p]

theorem Node.self_mem_chain : ∀ n : Node, n ∈ n.chain
  | .root _ _ _ => List.mem_cons_self _ _
  | .child _ _ _ _ => List.mem_cons_self _ _

theorem Good.gCost_eq_moves (a : AStar) : ∀ n : Node, n.Good a → n.gCost = (n.moves : Int)
  | .root _ _ _, h => by simp [Node.gCost, Node.moves, h.2.1]
  | .child _ p _ _, h => by
      have := Good.gCost_eq_moves a p h.1
      rw [Node.gCost_child, h.2.2.1, this]
      simp only [Node.moves, Nat.cast_add, Nat.cast_one]

theorem Good.chain_gCost_le (a : AStar) : ∀ n : Node, n.Good a →
    ∀ m ∈ n.chain, 0 ≤ m.gCost ∧ m.gCost ≤ n.gCost
  | .root c g h, hg, m, hm => by
      simp only [Node.chain, List.mem_singleton] at hm
      subst hm
      simp [Node.gCost, hg.2.1]
  | .child c p g h, hg, m, hm => by
      simp only [Node.chain, List.mem_cons] at hm
      rcases hm with hm | hm
      · subst hm
        exact ⟨Good.gCost_nonneg a _ hg, le_refl _⟩
      · have := Good.chain_gCost_le a p hg.1 m hm
        have h3 := hg.2.2.1
        rw [Node.gCost_child]
        omega

theorem getLast?_cons_of_ne_nil {α : Type} (x : α) (l : List α) (h : l ≠ []) :
    (x :: l).getLast? = l.getLast? := by
  cases l with
  | nil => exact absurd rfl h
  | cons y l => exact List.getLast?_cons_cons

/-- Along the chain of a well-formed node `gCost` strictly decreases, and the
chain ends in a node of cost `0` on the start cell. -/
theorem Good.chain_decreasing (a : AStar) : ∀ n : Node, n.Good a →
    (n.chain.map Node.gCost).Pairwise (fun x y => y < x) ∧
      (n.chain.map Node.gCost).getLast? = some 0 ∧
      (n.chain.map Node.coordinates).getLast? = some a.start
  | .root c g h, hg => by
      simp [Node.chain, Node.gCost, Node.coordinates, hg.1, hg.2.1]
  | .child c p g h, hg => by
      obtain ⟨h1, h2, h3⟩ := Good.chain_decreasing a p hg.1
      have hne : p.chain ≠ [] := List.ne_nil_of_mem (Node.self_mem_chain p)
      refine ⟨?_, ?_, ?_⟩
      · simp only [Node.chain, List.map_cons, List.pairwise_cons]
        refine ⟨?_, h1⟩
        intro x hx
        obtain ⟨m, hm, rfl⟩ := List.mem_map.mp hx
        have := (Good.chain_gCost_le a p hg.1 m hm).2
        have h4 := hg.2.2.1
        rw [Node.gCost_child]
        omega
      · simp only [Node.chain, List.map_cons]
        rw [getLast?_cons_of_ne_nil _ _ (by simpa using hne)]
        exact h2
      · simp only [Node.chain, List.map_cons]
        rw [getLast?_cons_of_ne_nil _ _ (by simpa using hne)]
        exact h3

/-! ### The further invariants -/

theorem inv2_initState (a : AStar) : Inv2 a (initState a) := by
  have hreg : ∀ c e, (initState a).allNodes c = some e →
      c = a.start ∧ e = Node.root a.start 0 (heuristic a.start a.end_) := by
    intro c e h
    simp only [initState, pushNode, Node.coordinates] at h
    split at h
    · rename_i hc
      cases h
      exact ⟨hc, rfl⟩
    · cases h
  have hstart : (initState a).allNodes a.start
      = some (Node.root a.start 0 (heuristic a.start a.end_)) := by
    simp [initState, pushNode, Node.coordinates]
  have hopen : ∀ s ∈ (initState a).openSet,
      s = Node.root a.start 0 (heuristic a.start a.end_) := by
    intro s hs
    simpa [initState, pushNode] using hs
  refine ⟨?_, ?_, ?_⟩
  · intro c e h
    rw [(hreg c e h).2]
    exact ⟨rfl, rfl, rfl⟩
  · intro s hs
    rw [hopen s hs]
    exact ⟨_, hstart, Or.inl rfl⟩
  · intro s hs
    rw [hopen s hs]
    refine ⟨by simp [Node.trace], ?_⟩
    intro m hm
    simp only [Node.chain, List.mem_singleton] at hm
    subst hm
    exact ⟨_, hstart, le_refl _⟩

theorem simple_pushNode (st : SearchState) (n m0 : Node)
    (hlt : ∀ e, st.allNodes n.coordinates = some e → n.gCost < e.gCost)
    (h : Simple st m0) : Simple (pushNode st n) m0 := by
  refine ⟨h.1, ?_⟩
  intro m hm
  obtain ⟨e, he, hle⟩ := h.2 m hm
  by_cases hc : m.coordinates = n.coordinates
  · refine ⟨n, by simp [pushNode, hc], ?_⟩
    have := hlt e (hc ▸ he)
    omega
  · exact ⟨e, by simp [pushNode, hc, he], hle⟩

theorem mid2_relax (a : AStar) (cur : Node) (hcur : cur.Good a) (s : SearchState)
    (o : Int × Int) (ho : o ∈ offsets) (h : Mid2 a cur s) : Mid2 a cur (relax a cur s o) := by
  rcases relax_cases a cur s o with ⟨_, hr⟩ | ⟨_, _, hr⟩ | ⟨hw, hlt, hr⟩
  · rw [hr]; exact h
  · rw [hr]; exact h
  · rw [hr]
    have hsc : (successor a cur o).coordinates = neighbour cur.coordinates o := rfl
    have hsg := successor_gCost a cur o
    have hlt2 : ∀ e, s.allNodes (successor a cur o).coordinates = some e →
        (successor a cur o).gCost < e.gCost := by
      intro e he
      rw [hsg]
      exact hlt e he
    have hgood : (successor a cur o).Good a := Good.successor a cur o ho hcur hw
    refine ⟨?_, ?_, ?_, simple_pushNode s _ cur hlt2 h.cur_simple⟩
    · intro c e he
      simp only [pushNode] at he
      split at he
      · cases he; exact hgood
      · exact h.reg_good c e he
    · intro s1 hs1
      simp only [pushNode, List.mem_append, List.mem_singleton] at hs1
      by_cases hc : s1.coordinates = (successor a cur o).coordinates
      · refine ⟨successor a cur o, by simp [pushNode, hc], ?_⟩
        rcases hs1 with hs1 | hs1
        · obtain ⟨e, he, hor⟩ := h.open_reg s1 hs1
          have := hlt2 e (hc ▸ he)
          right
          rcases hor with h1 | h1
          · rw [← h1]; exact this
          · omega
        · exact Or.inl hs1.symm
      · rcases hs1 with hs1 | hs1
        · obtain ⟨e, he, hor⟩ := h.open_reg s1 hs1
          exact ⟨e, by simp [pushNode, hc, he], hor⟩
        · exact absurd (by rw [hs1]) hc
    · intro s1 hs1
      simp only [pushNode, List.mem_append, List.mem_singleton] at hs1
      rcases hs1 with hs1 | hs1
      · exact simple_pushNode s _ s1 hlt2 (h.open_simple s1 hs1)
      · subst hs1
        have hcs := simple_pushNode s (successor a cur o) cur hlt2 h.cur_simple
        constructor
        · show (neighbour cur.coordinates o :: cur.trace).Nodup
          refine List.nodup_cons.mpr ⟨?_, h.cur_simple.1⟩
          intro hmem
          rw [Node.trace_eq_chain] at hmem
          obtain ⟨m, hm, hmc⟩ := List.mem_map.mp hmem
          obtain ⟨e, he, hle⟩ := h.cur_simple.2 m hm
          have h1 := (Good.chain_gCost_le a cur hcur m hm).2
          have h2 := hlt e (hmc ▸ he)
          omega
        · intro m hm
          have hch : (successor a cur o).chain = successor a cur o :: cur.chain := rfl
          rw [hch] at hm
          rcases List.mem_cons.mp hm with h1 | h1
          · subst h1
            exact ⟨successor a cur o, by simp [pushNode], le_refl _⟩
          · exact hcs.2 m h1

theorem mid2_expand (a : AStar) (cur : Node) (hcur : cur.Good a) (st : SearchState)
    (h : Mid2 a cur st) : Mid2 a cur (expand a cur st) :=
  foldl_relax_mem_induction a cur (Mid2 a cur) offsets
    (fun s o ho hs => mid2_relax a cur hcur s o ho hs) st h

theorem inv2_step (a : AStar) (st : SearchState) (t : Nat) (cur : Node) (rest : List Node)
    (hinv : Inv a st) (hinv2 : Inv2 a st) (hpop : popOpen t st.openSet = some (cur, rest)) :
    Inv2 a (expand a cur { st with openSet := rest }) := by
  obtain ⟨hmem, _, hrest⟩ := popOpen_eq_some t st.openSet cur rest hpop
  have hsub : ∀ s ∈ rest, s ∈ st.openSet := by
    intro s hs
    rw [hrest] at hs
    exact List.mem_of_mem_erase hs
  have hmid0 : Mid2 a cur { st with openSet := rest } :=
    ⟨hinv2.reg_good, fun s hs => hinv2.open_reg s (hsub s hs),
      fun s hs => hinv2.open_simple s (hsub s hs), hinv2.open_simple cur hmem⟩
  have hmid := mid2_expand a cur (hinv.open_good cur hmem) _ hmid0
  exact ⟨hmid.reg_good, hmid.open_reg, hmid.open_simple⟩

/-- Every state the loop reaches satisfies the invariants. -/
theorem stateAt_inv (a : AStar) (tie : Nat → Nat) :
    ∀ (n : Nat) (st : SearchState), stateAt a tie n = some st → Inv a st ∧ Inv2 a st := by
  intro n
  induction n with
  | zero =>
    intro st h
    simp only [stateAt, Option.some.injEq] at h
    subst h
    exact ⟨inv_initState a, inv2_initState a⟩
  | succ n ih =>
    intro st h
    unfold stateAt at h
    cases h0 : stateAt a tie n with
    | none => rw [h0] at h; cases h
    | some st0 =>
      rw [h0] at h
      simp only at h
      cases hp : popOpen (tie n) st0.openSet with
      | none => rw [hp] at h; cases h
      | some pr =>
        obtain ⟨cur, rest⟩ := pr
        rw [hp] at h
        simp only at h
        by_cases hc : cur.coordinates = a.end_
        · rw [if_pos hc] at h; cases h
        · rw [if_neg hc] at h
          cases h
          obtain ⟨h1, h2⟩ := ih st0 h0
          exact ⟨inv_step a st0 _ cur rest h1 hp hc, inv2_step a st0 _ cur rest h1 h2 hp⟩

theorem search_succ (a : AStar) (fuel : Nat) (tie : Nat → Nat) (st : SearchState) :
    search a (fuel + 1) tie st =
      match popOpen (tie 0) st.openSet with
      | none => some []
      | some (cur, rest) =>
        if cur.coordinates = a.end_ then some cur.trace.reverse
        else search a fuel (fun i => tie (i + 1)) (expand a cur { st with openSet := rest }) :=
  rfl

/-- The loop started in the initial state passes through the states
`stateAt`: after `n` iterations it continues from `stateAt a tie n`. -/
theorem search_stateAt (a : AStar) (tie : Nat → Nat) :
    ∀ (n : Nat) (st : SearchState), stateAt a tie n = some st →
      ∀ fuel, search a (n + fuel) tie (initState a) = search a fuel (fun i => tie (i + n)) st := by
  intro n
  induction n with
  | zero =>
    intro st h fuel
    simp only [stateAt, Option.some.injEq] at h
    subst h
    simp
  | succ n ih =>
    intro st h fuel
    unfold stateAt at h
    cases h0 : stateAt a tie n with
    | none => rw [h0] at h; cases h
    | some st0 =>
      rw [h0] at h
      simp only at h
      cases hp : popOpen (tie n) st0.openSet with
      | none => rw [hp] at h; cases h
      | some pr =>
        obtain ⟨cur, rest⟩ := pr
        rw [hp] at h
        simp only at h
        by_cases hc : cur.coordinates = a.end_
        · rw [if_pos hc] at h; cases h
        · rw [if_neg hc] at h
          cases h
          have e1 : n + 1 + fuel = n + (fuel + 1) := by omega
          rw [e1, ih st0 h0 (fuel + 1), search_succ]
          simp only [Nat.zero_add, hp, if_neg hc]
          have e2 : (fun i => tie (i + 1 + n)) = fun i => tie (i + (n + 1)) := by
            funext i
            congr 1
            omega
          rw [e2]

/-- The two ways the loop can finish, with all invariants of the final
state. -/
theorem search_result2 (a : AStar) : ∀ (fuel : Nat) (tie : Nat → Nat) (st : SearchState)
    (r : List Point), Inv a st → Inv2 a st → search a fuel tie st = some r →
    r = [] ∨
    (∃ st2 cur, Inv a st2 ∧ Inv2 a st2 ∧ cur ∈ st2.openSet
      ∧ cur.coordinates = a.end_ ∧ r = cur.trace.reverse) := by
  intro fuel
  induction fuel with
  | zero => intro tie st r _ _ h; cases h
  | succ fuel ih =>
    intro tie st r hinv hinv2 h
    unfold search at h
    cases hp : popOpen (tie 0) st.openSet with
    | none =>
      rw [hp] at h
      cases h
      exact Or.inl rfl
    | some pr =>
      obtain ⟨cur, rest⟩ := pr
      rw [hp] at h
      simp only at h
      by_cases hc : cur.coordinates = a.end_
      · rw [if_pos hc] at h
        cases h
        obtain ⟨h1, _, _⟩ := popOpen_eq_some _ _ _ _ hp
        exact Or.inr ⟨st, cur, hinv, hinv2, h1, hc, rfl⟩
      · rw [if_neg hc] at h
        exact ih _ _ r (inv_step a st _ cur rest hinv hp hc)
          (inv2_step a st _ cur rest hinv hinv2 hp) h

/-! ### Costs, stale nodes and simple paths -/

theorem findPath_goal_node (a : AStar) (tie : Nat → Nat) (fuel : Nat) (r : List Point)
    (h : findPath a tie fuel = some r) (hne : r ≠ []) :
    ∃ st cur, Inv a st ∧ Inv2 a st ∧ cur ∈ st.openSet ∧ cur.coordinates = a.end_
      ∧ r = cur.trace.reverse := by
  rcases search_result2 a fuel tie _ r (inv_initState a) (inv2_initState a) h with h1 | h1
  · exact absurd h1 hne
  · exact h1

/-- C15: the diagonal cost is the integer `1`, equal to the straight cost.
Every node created for a neighbour has its predecessor as parent and the
predecessor's `gCost` plus `1`, whatever the offset; in every state the loop
reaches, the `gCost` of every open and of every registered node is the number
of moves of its predecessor chain; and the goal node from which a returned
path is read off has `gCost` equal to the number of cells of the path minus
one. -/
theorem gCost_counts_moves (a : AStar) :
    (straightCost = 1 ∧ diagonalCost = 1) ∧
    (∀ (cur : Node) (o : Int × Int),
      (successor a cur o).parent? = some cur ∧ (successor a cur o).gCost = cur.gCost + 1) ∧
    (∀ (tie : Nat → Nat) (n : Nat) (st : SearchState), stateAt a tie n = some st →
      (∀ m ∈ st.openSet, m.gCost = (m.moves : Int)) ∧
      (∀ c e, st.allNodes c = some e → e.gCost = (e.moves : Int))) ∧
    (∀ (tie : Nat → Nat) (fuel : Nat) (r : List Point), findPath a tie fuel = some r → r ≠ [] →
      ∃ cur : Node, cur.coordinates = a.end_ ∧ r = cur.trace.reverse ∧
        cur.gCost = (r.length : Int) - 1) := by
  refine ⟨⟨rfl, rfl⟩, fun cur o => ⟨rfl, successor_gCost a cur o⟩, ?_, ?_⟩
  · intro tie n st hst
    obtain ⟨h1, h2⟩ := stateAt_inv a tie n st hst
    exact ⟨fun m hm => Good.gCost_eq_moves a m (h1.open_good m hm),
      fun c e he => Good.gCost_eq_moves a e (h2.reg_good c e he)⟩
  · intro tie fuel r h hne
    obtain ⟨st, cur, h1, _, hm, hc, hr⟩ := findPath_goal_node a tie fuel r h hne
    refine ⟨cur, hc, hr, ?_⟩
    rw [hr, List.length_reverse, Node.trace_length,
      Good.gCost_eq_moves a cur (h1.open_good cur hm)]
    simp

theorem relax_of_closed (a : AStar) (cur : Node) (s : SearchState) (o : Int × Int)
    (ho : o ∈ offsets) (g : Int) (hg : g < cur.gCost)
    (hcl : Closed a s cur.coordinates g) : relax a cur s o = s := by
  rcases relax_cases a cur s o with ⟨_, hr⟩ | ⟨_, _, hr⟩ | ⟨hw, hlt, _⟩
  · exact hr
  · exact hr
  · obtain ⟨e, he, hle⟩ := hcl o ho hw
    have := hlt e he
    omega

theorem foldl_relax_of_closed (a : AStar) (cur : Node) (s : SearchState) (g : Int)
    (hg : g < cur.gCost) (hcl : Closed a s cur.coordinates g) :
    ∀ l : List (Int × Int), (∀ o ∈ l, o ∈ offsets) → l.foldl (relax a cur) s = s := by
  intro l
  induction l with
  | nil => intro _; rfl
  | cons o l ih =>
    intro hl
    rw [List.foldl_cons, relax_of_closed a cur s o (hl o (List.mem_cons_self _ _)) g hg hcl]
    exact ih (fun o2 ho2 => hl o2 (List.mem_cons_of_mem _ ho2))

/-- C16: in every state the loop reaches, a popped node that is no longer the
registry's entry for its cell is not at the goal, and running the two `for`
loops on it pushes no node and changes no registry entry: the state after the
iteration is the state after the pop. -/
theorem stale_pop_changes_nothing (a : AStar) (tie : Nat → Nat) (n : Nat) (st : SearchState)
    (t : Nat) (cur : Node) (rest : List Node) (hst : stateAt a tie n = some st)
    (hpop : popOpen t st.openSet = some (cur, rest))
    (hstale : st.allNodes cur.coordinates ≠ some cur) :
    cur.coordinates ≠ a.end_ ∧
      expand a cur { st with openSet := rest } = { st with openSet := rest } := by
  obtain ⟨hinv, hinv2⟩ := stateAt_inv a tie n st hst
  obtain ⟨hmem, hmin, _⟩ := popOpen_eq_some t st.openSet cur rest hpop
  obtain ⟨e, he, hor⟩ := hinv2.open_reg cur hmem
  have hlt : e.gCost < cur.gCost := by
    rcases hor with h1 | h1
    · exact absurd (h1 ▸ he) hstale
    · exact h1
  have hcl : cur.coordinates ≠ a.end_ ∧ Closed a st cur.coordinates e.gCost := by
    rcases hinv.reg_closed _ e he with h1 | h1
    · exfalso
      have h2 := hmin e h1
      have h3 := Good.hCost_eq a e (hinv.open_good e h1)
      have h4 := Good.hCost_eq a cur (hinv.open_good cur hmem)
      rw [hinv.reg_coords _ e he] at h3
      simp only [Node.fCost, h3, h4] at h2
      omega
    · exact h1
  refine ⟨hcl.1, ?_⟩
  exact foldl_relax_of_closed a cur { st with openSet := rest } e.gCost hlt hcl.2 offsets
    (fun o ho => ho)

/-- Witness for C16: on the 3×5 grid with walls at (0,0), (0,3), (1,1), (1,3),
start (2,0) and goal (0,4), the node popped in iteration 6 (first minimal
element each time) sits on a cell whose registry entry has been replaced. -/
theorem stale_pop_changes_nothing_witness :
    ∃ a, AStar.build 3 5 ⟨2, 0⟩ ⟨0, 4⟩ [(0, 0), (0, 3), (1, 1), (1, 3)] = some a ∧
      ∃ st cur rest, stateAt a (fun _ => 0) 6 = some st ∧
        popOpen 0 st.openSet = some (cur, rest) ∧
        st.allNodes cur.coordinates ≠ some cur ∧
        (cur.coordinates ≠ a.end_ ∧
          expand a cur { st with openSet := rest } = { st with openSet := rest }) :=
  ⟨_, rfl, _, _, _, rfl, rfl, by decide,
    stale_pop_changes_nothing _ (fun _ => 0) 6 _ 0 _ _ rfl rfl (by decide)⟩

/-- C18: the sequence returned by `findPath` contains no cell twice.  It is
read off the predecessor chain of the popped goal node, along which `gCost`
strictly decreases down to `0` and no two nodes carry the same coordinates;
the same holds for the chain of every open node in every state the loop
reaches. -/
theorem findPath_simple_path (a : AStar) (tie : Nat → Nat) (fuel : Nat) (r : List Point)
    (h : findPath a tie fuel = some r) :
    r.Nodup ∧
    (r ≠ [] → ∃ cur : Node, r = cur.trace.reverse ∧
      (cur.chain.map Node.coordinates).Nodup ∧
      (cur.chain.map Node.gCost).Pairwise (fun x y => y < x) ∧
      (cur.chain.map Node.gCost).getLast? = some 0) ∧
    (∀ (n : Nat) (st : SearchState), stateAt a tie n = some st → ∀ s ∈ st.openSet,
      (s.chain.map Node.coordinates).Nodup ∧
      (s.chain.map Node.gCost).Pairwise (fun x y => y < x) ∧
      (s.chain.map Node.gCost).getLast? = some 0) := by
  have key : r ≠ [] → ∃ cur : Node, r = cur.trace.reverse ∧
      (cur.chain.map Node.coordinates).Nodup ∧
      (cur.chain.map Node.gCost).Pairwise (fun x y => y < x) ∧
      (cur.chain.map Node.gCost).getLast? = some 0 := by
    intro hne
    obtain ⟨st, cur, h1, h2, hm, _, hr⟩ := findPath_goal_node a tie fuel r h hne
    obtain ⟨d1, d2, _⟩ := Good.chain_decreasing a cur (h1.open_good cur hm)
    refine ⟨cur, hr, ?_, d1, d2⟩
    rw [← Node.trace_eq_chain]
    exact (h2.open_simple cur hm).1
  refine ⟨?_, key, ?_⟩
  · by_cases hne : r = []
    · rw [hne]; exact List.nodup_nil
    · obtain ⟨cur, hr, hnd, _⟩ := key hne
      rw [hr, List.nodup_reverse, Node.trace_eq_chain]
      exact hnd
  · intro n st hst s hs
    obtain ⟨h1, h2⟩ := stateAt_inv a tie n st hst
    obtain ⟨d1, d2, _⟩ := Good.chain_decreasing a s (h1.open_good s hs)
    refine ⟨?_, d1, d2⟩
    rw [← Node.trace_eq_chain]
    exact (h2.open_simple s hs).1

/-- Witness for C18 on the 4×5 grid with walls at (1,1) and (2,1), start (1,0),
goal (3,4). -/
theorem findPath_simple_path_witness :
    ∃ a, AStar.build 4 5 ⟨1, 0⟩ ⟨3, 4⟩ [(1, 1), (2, 1)] = some a ∧
      findPath a (fun _ => 0) 6 = some [⟨1, 0⟩, ⟨2, 0⟩, ⟨3, 1⟩, ⟨3, 2⟩, ⟨3, 3⟩, ⟨3, 4⟩] ∧
      ([⟨1, 0⟩, ⟨2, 0⟩, ⟨3, 1⟩, ⟨3, 2⟩, ⟨3, 3⟩, ⟨3, 4⟩] : List Point).Nodup := by
  refine ⟨_, rfl, by decide, ?_⟩
  exact (findPath_simple_path
    ((AStar.mk ⟨1, 0⟩ ⟨3, 4⟩ (List.replicate 4 (List.replicate 5 true)) 4 5).setWalls
      [(1, 1), (2, 1)])
    (fun _ => 0) 6 _ (by decide)).1

/-! ### The walkable flag of the start cell -/

theorem relax_at_start (a : AStar) (cur : Node) (s : SearchState) (o : Int × Int)
    (start : Point) (hcur : 0 ≤ cur.gCost)
    (hreg : ∃ e, s.allNodes start = some e ∧ e.gCost ≤ 0)
    (hnb : neighbour cur.coordinates o = start) : relax a cur s o = s := by
  rcases relax_cases a cur s o with ⟨_, hr⟩ | ⟨_, _, hr⟩ | ⟨_, hlt, _⟩
  · exact hr
  · exact hr
  · obtain ⟨e, he, hle⟩ := hreg
    have := hlt e (hnb ▸ he)
    omega

theorem relax_congr (a b : AStar) (he : b.end_ = a.end_)
    (hw : ∀ p : Point, p ≠ a.start → b.isWalkable p.x p.y = a.isWalkable p.x p.y)
    (cur : Node) (s : SearchState) (o : Int × Int) (hcur : 0 ≤ cur.gCost)
    (hreg : ∃ e, s.allNodes a.start = some e ∧ e.gCost ≤ 0) :
    relax b cur s o = relax a cur s o := by
  by_cases hnb : neighbour cur.coordinates o = a.start
  · rw [relax_at_start a cur s o a.start hcur hreg hnb,
      relax_at_start b cur s o a.start hcur hreg hnb]
  · have hs : successor b cur o = successor a cur o := by
      simp only [successor, he]
    unfold relax
    simp only [filter_eq_not_walkable, hw _ hnb, hs]

theorem foldl_relax_congr (a b : AStar) (he : b.end_ = a.end_)
    (hw : ∀ p : Point, p ≠ a.start → b.isWalkable p.x p.y = a.isWalkable p.x p.y)
    (cur : Node) (hcur : 0 ≤ cur.gCost) :
    ∀ (l : List (Int × Int)) (s : SearchState),
      (∃ e, s.allNodes a.start = some e ∧ e.gCost ≤ 0) →
      l.foldl (relax b cur) s = l.foldl (relax a cur) s := by
  intro l
  induction l with
  | nil => intro s _; rfl
  | cons o l ih =>
    intro s hreg
    rw [List.foldl_cons, List.foldl_cons, relax_congr a b he hw cur s o hcur hreg]
    exact ih _ (relax_registry_mono a cur s o _ _ hreg)

theorem search_congr (a b : AStar) (he : b.end_ = a.end_)
    (hw : ∀ p : Point, p ≠ a.start → b.isWalkable p.x p.y = a.isWalkable p.x p.y) :
    ∀ (fuel : Nat) (tie : Nat → Nat) (st : SearchState), Inv a st →
      search b fuel tie st = search a fuel tie st := by
  intro fuel
  induction fuel with
  | zero => intro tie st _; rfl
  | succ fuel ih =>
    intro tie st hinv
    rw [search_succ, search_succ]
    cases hp : popOpen (tie 0) st.openSet with
    | none => rfl
    | some pr =>
      obtain ⟨cur, rest⟩ := pr
      simp only [he]
      by_cases hc : cur.coordinates = a.end_
      · rw [if_pos hc, if_pos hc]
      · rw [if_neg hc, if_neg hc]
        obtain ⟨hmem, _, _⟩ := popOpen_eq_some _ _ _ _ hp
        have hg := Good.gCost_nonneg a cur (hinv.open_good cur hmem)
        have hex : expand b cur { st with openSet := rest }
            = expand a cur { st with openSet := rest } :=
          foldl_relax_congr a b he hw cur hg offsets _ hinv.reg_start
        rw [hex]
        exact ih _ _ (inv_step a st _ cur rest hinv hp hc)

/-- C17: `findPath` does not special-case an unwalkable start.  Two grids with
the same start and goal whose walkable flags agree on every cell other than
the start cell give the same result, for every tie-breaking and every bound on
the iterations: the walkable flag of the start cell never influences the
sequence returned. -/
theorem findPath_ignores_start_flag (a b : AStar) (hs : b.start = a.start)
    (he : b.end_ = a.end_)
    (hw : ∀ p : Point, p ≠ a.start → b.isWalkable p.x p.y = a.isWalkable p.x p.y)
    (tie : Nat → Nat) (fuel : Nat) : findPath b tie fuel = findPath a tie fuel := by
  have hi : initState b = initState a := by
    simp only [initState, hs, he]
  unfold findPath
  rw [hi]
  exact search_congr a b he hw fuel tie _ (inv_initState a)

theorem setWall_start (a : AStar) (x y : Int) : (a.setWall x y).start = a.start := by
  unfold AStar.setWall; split <;> rfl

theorem setWall_end (a : AStar) (x y : Int) : (a.setWall x y).end_ = a.end_ := by
  unfold AStar.setWall; split <;> rfl

theorem setWall_start_agree (a : AStar) (p : Point) (hp : p ≠ a.start) :
    (a.setWall a.start.x a.start.y).isWalkable p.x p.y = a.isWalkable p.x p.y := by
  rw [isWalkable_setWall]
  have : ¬ (p.x = a.start.x ∧ p.y = a.start.y) := by
    rintro ⟨h1, h2⟩
    apply hp
    cases p
    cases hst : a.start
    rw [hst] at h1 h2
    simp only at h1 h2
    rw [h1, h2]
  simp [this]

/-- Witness for C17: the obstacle-free 3×3 grid with start (0,0) and goal
(2,2), and the same grid after `setWall 0 0`: the start cell is walkable in
the first and blocked in the second, and both return the same path, which
begins at the blocked start. -/
theorem findPath_ignores_start_flag_witness :
    (AStar.mk ⟨0, 0⟩ ⟨2, 2⟩ (List.replicate 3 (List.replicate 3 true)) 3 3).isWalkable 0 0
        = true ∧
      ((AStar.mk ⟨0, 0⟩ ⟨2, 2⟩ (List.replicate 3 (List.replicate 3 true)) 3 3).setWall 0
        0).isWalkable 0 0 = false ∧
      findPath ((AStar.mk ⟨0, 0⟩ ⟨2, 2⟩ (List.replicate 3 (List.replicate 3 true)) 3 3).setWall
        0 0) (fun _ => 0) 3 = some [⟨0, 0⟩, ⟨1, 1⟩, ⟨2, 2⟩] ∧
      ∀ (tie : Nat → Nat) (fuel : Nat),
        findPath ((AStar.mk ⟨0, 0⟩ ⟨2, 2⟩ (List.replicate 3 (List.replicate 3 true)) 3
          3).setWall 0 0) tie fuel
        = findPath (AStar.mk ⟨0, 0⟩ ⟨2, 2⟩ (List.replicate 3 (List.replicate 3 true)) 3 3)
          tie fuel :=
  ⟨by decide, by decide, by decide, fun tie fuel =>
    findPath_ignores_start_flag
      (AStar.mk ⟨0, 0⟩ ⟨2, 2⟩ (List.replicate 3 (List.replicate 3 true)) 3 3)
      ((AStar.mk ⟨0, 0⟩ ⟨2, 2⟩ (List.replicate 3 (List.replicate 3 true)) 3 3).setWall 0 0)
      (setWall_start _ 0 0) (setWall_end _ 0 0)
      (fun p hp => setWall_start_agree
        (AStar.mk ⟨0, 0⟩ ⟨2, 2⟩ (List.replicate 3 (List.replicate 3 true)) 3 3) p hp)
      tie fuel⟩

/-! ### Within twice the shortest route -/

theorem heuristic_le_two_chebyshev (c d : Point) : heuristic c d ≤ 2 * chebyshev c d := by
  simp only [heuristic, chebyshev, abs_eq_max_neg]
  omega

/-- C19: when a route from `start` to the goal exists, the path returned by
`findPath` has at most twice as many moves as any such route, in particular
as a shortest one.  The reasons: the Manhattan heuristic of a cell is at most
twice the number of moves of any route from it to the goal, and the goal node
is popped with an `fCost` no larger than that of an open node lying on the
route. -/
theorem findPath_within_twice_shortest (a : AStar) (tie : Nat → Nat) (fuel : Nat)
    (r : List Point) (h : findPath a tie fuel = some r)
    (ds2 : List Point) (hds2 : IsRoute a a.start ds2 a.end_) :
    r ≠ [] ∧ r.length - 1 ≤ 2 * ds2.length ∧
      ∀ (c : Point) (rest : List Point), IsRoute a c rest a.end_ →
        heuristic c a.end_ ≤ 2 * (rest.length : Int) := by
  have hheur : ∀ (c : Point) (rest : List Point), IsRoute a c rest a.end_ →
      heuristic c a.end_ ≤ 2 * (rest.length : Int) := by
    intro c rest hr
    have h1 := heuristic_le_two_chebyshev c a.end_
    have h2 := IsRoute.chebyshev_le a rest c a.end_ hr
    omega
  have hne : r ≠ [] := findPath_complete a tie fuel r h ds2 hds2
  refine ⟨hne, ?_, hheur⟩
  rcases search_result a fuel tie _ r (inv_initState a) h with ⟨h1, _⟩ | ⟨st2, cur, hi, hm, hmin, hc, hr⟩
  · exact absurd h1 hne
  · have hgood := hi.open_good cur hm
    obtain ⟨w, hw, rest, hw2, hw3⟩ := frontier a st2 hi ds2 a.start 0 hds2 hi.reg_start
    have hwgood := hi.open_good w hw
    have hle := hmin w hw
    have e1 := Good.hCost_eq a cur hgood
    have e2 := Good.hCost_eq a w hwgood
    rw [hc, heuristic_self] at e1
    simp only [Node.fCost, e1, e2] at hle
    have h3 := hheur w.coordinates rest hw2
    have h4 := Good.gCost_nonneg a w hwgood
    have h5 := Good.gCost_eq_moves a cur hgood
    have h6 : r.length = cur.moves + 1 := by
      rw [hr, List.length_reverse, Node.trace_length]
    omega

/-- Witness for C19 on the 4×5 grid with walls at (1,1) and (2,1), start (1,0),
goal (3,4): the returned path has five moves, the shortest route four. -/
theorem findPath_within_twice_shortest_witness :
    ∃ a, AStar.build 4 5 ⟨1, 0⟩ ⟨3, 4⟩ [(1, 1), (2, 1)] = some a ∧
      findPath a (fun _ => 0) 6 = some [⟨1, 0⟩, ⟨2, 0⟩, ⟨3, 1⟩, ⟨3, 2⟩, ⟨3, 3⟩, ⟨3, 4⟩] ∧
      IsRoute a a.start [⟨0, 1⟩, ⟨1, 2⟩, ⟨2, 3⟩, ⟨3, 4⟩] a.end_ ∧
      (([⟨1, 0⟩, ⟨2, 0⟩, ⟨3, 1⟩, ⟨3, 2⟩, ⟨3, 3⟩, ⟨3, 4⟩] : List Point) ≠ [] ∧
        ([⟨1, 0⟩, ⟨2, 0⟩, ⟨3, 1⟩, ⟨3, 2⟩, ⟨3, 3⟩, ⟨3, 4⟩] : List Point).length - 1
          ≤ 2 * ([⟨0, 1⟩, ⟨1, 2⟩, ⟨2, 3⟩, ⟨3, 4⟩] : List Point).length ∧
        ∀ (c : Point) (rest : List Point), IsRoute a c rest a.end_ →
          heuristic c a.end_ ≤ 2 * (rest.length : Int)) :=
  ⟨_, rfl, by decide, by decide,
    findPath_within_twice_shortest _ (fun _ => 0) 6 _ (by decide) _ (by decide)⟩

/-! ### Indexing stays in range -/

theorem indexAt_of_lt {α : Type} (v : List α) (i : Int) (d : α) (h0 : 0 ≤ i)
    (h : i.toNat < v.length) : indexAt v i = some (v.getD i.toNat d) ∧ v.getD i.toNat d ∈ v := by
  have hn : ¬ i < 0 := by omega
  have hg : v.getD i.toNat d = v[i.toNat] := List.getD_eq_getElem _ _ h
  constructor
  · simp only [indexAt, if_neg hn, List.getElem?_eq_getElem h, hg]
  · rw [hg]
    exact List.getElem_mem _

/-- Within the bounds, on a grid of the right shape, both accesses of
`grid[x][y]` are in range and read what the total read `cellAt` reads. -/
theorem cellAtChecked_of_inBounds (a : AStar) (hwf : a.WF) (x y : Int)
    (hb : x ≥ 0 ∧ x < a.gridWidth ∧ y ≥ 0 ∧ y < a.gridHeight) :
    indexAt a.grid x = some (a.grid.getD x.toNat []) ∧
      indexAt (a.grid.getD x.toNat []) y = some (a.cellAt x y) ∧
      a.cellAtChecked x y = some (a.cellAt x y) := by
  have hx : x.toNat < a.grid.length := by
    rw [hwf.2.2.1]
    exact toNat_lt_toNat_of _ _ hb.1 hb.2.1
  obtain ⟨h1, h2⟩ := indexAt_of_lt a.grid x [] hb.1 hx
  have hy : y.toNat < (a.grid.getD x.toNat []).length := by
    rw [hwf.2.2.2 _ h2]
    exact toNat_lt_toNat_of _ _ hb.2.2.1 hb.2.2.2
  obtain ⟨h3, _⟩ := indexAt_of_lt (a.grid.getD x.toNat []) y false hb.2.2.1 hy
  refine ⟨h1, h3, ?_⟩
  simp only [AStar.cellAtChecked, h1, h3, AStar.cellAt]

theorem isWalkableChecked_eq (a : AStar) (hwf : a.WF) (x y : Int) :
    a.isWalkableChecked x y = some (a.isWalkable x y) := by
  unfold AStar.isWalkableChecked AStar.isWalkable
  by_cases hb : x ≥ 0 ∧ x < a.gridWidth ∧ y ≥ 0 ∧ y < a.gridHeight
  · rw [if_pos hb, if_pos hb]
    exact (cellAtChecked_of_inBounds a hwf x y hb).2.2
  · rw [if_neg hb, if_neg hb]

theorem setWallChecked_eq (a : AStar) (hwf : a.WF) (x y : Int) :
    a.setWallChecked x y = some (a.setWall x y) := by
  unfold AStar.setWallChecked AStar.setWall
  by_cases hb : x ≥ 0 ∧ x < a.gridWidth ∧ y ≥ 0 ∧ y < a.gridHeight
  · rw [if_pos hb, if_pos hb]
    obtain ⟨h1, h2, _⟩ := cellAtChecked_of_inBounds a hwf x y hb
    simp only [h1, h2]
  · rw [if_neg hb, if_neg hb]

theorem relaxChecked_eq (a : AStar) (hwf : a.WF) (cur : Node) (st : SearchState)
    (o : Int × Int) : relaxChecked a cur st o = some (relax a cur st o) := by
  unfold relaxChecked relax
  by_cases hb : a.isInBounds (neighbour cur.coordinates o) = true
  · have hb2 : (neighbour cur.coordinates o).x ≥ 0 ∧
        (neighbour cur.coordinates o).x < a.gridWidth ∧
        (neighbour cur.coordinates o).y ≥ 0 ∧
        (neighbour cur.coordinates o).y < a.gridHeight := by
      simpa [AStar.isInBounds] using hb
    have hc := (cellAtChecked_of_inBounds a hwf _ _ hb2).2.2
    simp only [hb, hc, Bool.not_true, Bool.false_eq_true, if_false, Bool.false_or]
    cases hw : a.cellAt (neighbour cur.coordinates o).x (neighbour cur.coordinates o).y
    · simp
    · simp only [Bool.not_true, Bool.false_eq_true, if_false]
      cases hr : st.allNodes (successor a cur o).coordinates with
      | none => rfl
      | some e =>
        simp only
        split <;> rfl
  · have hb3 : a.isInBounds (neighbour cur.coordinates o) = false := by
      simpa using hb
    simp [hb3]

theorem expandChecked_eq (a : AStar) (hwf : a.WF) (cur : Node) :
    ∀ (l : List (Int × Int)) (st : SearchState),
      expandChecked a cur l st = some (l.foldl (relax a cur) st) := by
  intro l
  induction l with
  | nil => intro st; rfl
  | cons o l ih =>
    intro st
    simp only [expandChecked, relaxChecked_eq a hwf, List.foldl_cons]
    exact ih _

theorem searchChecked_eq (a : AStar) (hwf : a.WF) :
    ∀ (fuel : Nat) (tie : Nat → Nat) (st : SearchState),
      searchChecked a fuel tie st = (search a fuel tie st).map some := by
  intro fuel
  induction fuel with
  | zero => intro tie st; rfl
  | succ fuel ih =>
    intro tie st
    rw [search_succ]
    unfold searchChecked
    cases hp : popOpen (tie 0) st.openSet with
    | none => rfl
    | some pr =>
      obtain ⟨cur, rest⟩ := pr
      simp only
      by_cases hc : cur.coordinates = a.end_
      · rw [if_pos hc, if_pos hc]
        rfl
      · rw [if_neg hc, if_neg hc, expandChecked_eq a hwf]
        exact ih _ _

theorem build_WF (w h : Int) (s e : Point) (walls : List (Int × Int)) (a : AStar)
    (hb : AStar.build w h s e walls = some a) : a.WF := by
  unfold AStar.build at hb
  cases hc : AStar.construct w h s e with
  | none => rw [hc] at hb; cases hb
  | some a0 =>
    rw [hc] at hb
    simp only [Option.map_some', Option.some.injEq] at hb
    subst hb
    exact setWalls_WF walls a0 (construct_WF w h s e a0 hc)

/-- C20: grid indexing is always in range.  An object built by the constructor
(which needs non-negative width and height) and any sequence of `setWall`
calls keeps the shape `gridWidth` columns of `gridHeight` flags, through one
more `setWall` as well; on it `setWall`, `isWalkable` and `findPath` with
checked indexing never hit an out-of-range index and do what the unchecked
methods do, for every start and goal, also out-of-bounds ones, and every
argument of `setWall` and `isWalkable`. -/
theorem indexing_in_range (w h : Int) (s e : Point) (walls : List (Int × Int)) (a : AStar)
    (hb : AStar.build w h s e walls = some a) :
    (0 ≤ w ∧ 0 ≤ h) ∧ a.WF ∧
    (∀ x y, a.setWallChecked x y = some (a.setWall x y) ∧ (a.setWall x y).WF) ∧
    (∀ x y, a.isWalkableChecked x y = some (a.isWalkable x y)) ∧
    (∀ (tie : Nat → Nat) (fuel : Nat),
      findPathChecked a tie fuel = (findPath a tie fuel).map some) := by
  have hwf := build_WF w h s e walls a hb
  have hdim : 0 ≤ w ∧ 0 ≤ h := by
    by_contra hn
    simp [AStar.build, AStar.construct, if_neg hn] at hb
  exact ⟨hdim, hwf, fun x y => ⟨setWallChecked_eq a hwf x y, setWall_WF a x y hwf⟩,
    fun x y => isWalkableChecked_eq a hwf x y,
    fun tie fuel => searchChecked_eq a hwf fuel tie _⟩

/-- Witness for C20: the 3×3 grid with the centre blocked, start (-1,-1) out
of bounds and goal (2,2). -/
theorem indexing_in_range_witness :
    ∃ a, AStar.build 3 3 ⟨-1, -1⟩ ⟨2, 2⟩ [(1, 1), (7, 7)] = some a ∧
      findPathChecked a (fun _ => 0) 9 = some (some [⟨-1, -1⟩, ⟨0, 0⟩, ⟨0, 1⟩, ⟨1, 2⟩, ⟨2, 2⟩]) ∧
      (((0 : Int) ≤ 3 ∧ (0 : Int) ≤ 3) ∧ a.WF ∧
        (∀ x y, a.setWallChecked x y = some (a.setWall x y) ∧ (a.setWall x y).WF) ∧
        (∀ x y, a.isWalkableChecked x y = some (a.isWalkable x y)) ∧
        (∀ (tie : Nat → Nat) (fuel : Nat),
          findPathChecked a tie fuel = (findPath a tie fuel).map some)) :=
  ⟨_, rfl, by decide, indexing_in_range 3 3 ⟨-1, -1⟩ ⟨2, 2⟩ [(1, 1), (7, 7)] _ rfl⟩

/-! ### Conditions for a minimum-cost result -/

/-- The frontier of a route along which the heuristic does not overestimate:
some open node has an `fCost` no larger than the cost of the whole route. -/
theorem frontier_along (a : AStar) (st : SearchState) (hinv : Inv a st) :
    ∀ (ds : List Point) (c : Point) (k : Int), IsRoute a c ds a.end_ →
      AdmissibleAlong a.end_ c ds →
      (∃ e, st.allNodes c = some e ∧ e.gCost ≤ k) →
      ∃ w ∈ st.openSet, w.gCost + heuristic w.coordinates a.end_ ≤ k + (ds.length : Int) := by
  intro ds
  induction ds with
  | nil =>
    intro c k hr hadm ⟨e, he, hle⟩
    have hce : c = a.end_ := hr
    have hadm2 : heuristic c a.end_ ≤ 0 := hadm
    rcases hinv.reg_closed c e he with h1 | ⟨h1, _⟩
    · refine ⟨e, h1, ?_⟩
      rw [hinv.reg_coords c e he]
      simp only [List.length_nil, Nat.cast_zero]
      omega
    · exact absurd hce h1
  | cons d ds ih =>
    intro c k hr hadm ⟨e, he, hle⟩
    have hadm2 : heuristic c a.end_ ≤ (ds.length : Int) + 1 := hadm.1
    rcases hinv.reg_closed c e he with h1 | ⟨_, h2⟩
    · refine ⟨e, h1, ?_⟩
      rw [hinv.reg_coords c e he]
      simp only [List.length_cons, Nat.cast_add, Nat.cast_one]
      omega
    · obtain ⟨o, ho, hd, hw⟩ := hr.1
      obtain ⟨e2, he2, hle2⟩ := h2 o ho (hd ▸ hw)
      obtain ⟨w, hw1, hw2⟩ := ih d (k + 1) hr.2 hadm.2 ⟨e2, hd ▸ he2, by omega⟩
      refine ⟨w, hw1, ?_⟩
      simp only [List.length_cons, Nat.cast_add, Nat.cast_one]
      omega

/-- The popped goal node of a call that returns a non-empty path: its `gCost`
is the number of moves of the path and its `fCost` is minimal in the open set
of a state that satisfies the invariant. -/
theorem findPath_goal_pop (a : AStar) (tie : Nat → Nat) (fuel : Nat) (r : List Point)
    (h : findPath a tie fuel = some r) (hne : r ≠ []) :
    ∃ (st : SearchState) (cur : Node), Inv a st ∧
      (∀ m ∈ st.openSet, cur.gCost ≤ m.gCost + heuristic m.coordinates a.end_)
      ∧ (r.length : Int) = cur.gCost + 1 := by
  rcases search_result a fuel tie _ r (inv_initState a) h with ⟨h1, _⟩ | ⟨st2, cur, hi, hm, hmin, hc, hr⟩
  · exact absurd h1 hne
  · have hgood := hi.open_good cur hm
    refine ⟨st2, cur, hi, ?_, ?_⟩
    · intro m hmem
      have hle := hmin m hmem
      have e1 := Good.hCost_eq a cur hgood
      have e2 := Good.hCost_eq a m (hi.open_good m hmem)
      rw [hc, heuristic_self] at e1
      simp only [Node.fCost, e1, e2] at hle
      omega
    · rw [hr, List.length_reverse, Node.trace_length, Good.gCost_eq_moves a cur hgood]
      simp

/-- The returned path has at most twice as many moves as any route from
`start` to the goal. -/
theorem findPath_length_le_twice (a : AStar) (tie : Nat → Nat) (fuel : Nat) (r : List Point)
    (h : findPath a tie fuel = some r) (hne : r ≠ [])
    (ds2 : List Point) (hds2 : IsRoute a a.start ds2 a.end_) :
    r.length ≤ 2 * ds2.length + 1 := by
  obtain ⟨st, cur, hi, hmin, hlen⟩ := findPath_goal_pop a tie fuel r h hne
  obtain ⟨w, hw, rest, hw2, hw3⟩ := frontier a st hi ds2 a.start 0 hds2 hi.reg_start
  have h1 := hmin w hw
  have h2 := heuristic_le_two_chebyshev w.coordinates a.end_
  have h3 := IsRoute.chebyshev_le a rest w.coordinates a.end_ hw2
  have h4 := Good.gCost_nonneg a w (hi.open_good w hw)
  omega

/-- The returned path has no more moves than a route from `start` to the goal
along which the heuristic does not overestimate. -/
theorem findPath_length_le_along (a : AStar) (tie : Nat → Nat) (fuel : Nat) (r : List Point)
    (h : findPath a tie fuel = some r) (hne : r ≠ [])
    (ds2 : List Point) (hds2 : IsRoute a a.start ds2 a.end_)
    (hadm : AdmissibleAlong a.end_ a.start ds2) :
    r.length ≤ ds2.length + 1 := by
  obtain ⟨st, cur, hi, hmin, hlen⟩ := findPath_goal_pop a tie fuel r h hne
  obtain ⟨w, hw, hw2⟩ := frontier_along a st hi ds2 a.start 0 hds2 hadm hi.reg_start
  have h1 := hmin w hw
  omega

theorem lineNode_coordinates (a : AStar) : ∀ k,
    (lineNode a k).coordinates = straightRun a.start a.end_ k
  | 0 => rfl
  | k + 1 => by
      have h1 : (lineNode a (k + 1)).coordinates
          = neighbour (lineNode a k).coordinates (towards (lineNode a k).coordinates a.end_) :=
        rfl
      rw [h1, lineNode_coordinates a k]
      rfl

/-- When every cell of the straight run from `start` towards the goal is
walkable, every call that returns gives a path of `chebyshev + 1` cells, for
every tie-breaking. -/
theorem findPath_length_straight (a : AStar) (tie : Nat → Nat) (fuel : Nat) (r : List Point)
    (h : findPath a tie fuel = some r)
    (hrun : ∀ j : Nat, (j : Int) < chebyshev a.start a.end_ →
      a.isWalkable (straightRun a.start a.end_ (j + 1)).x
        (straightRun a.start a.end_ (j + 1)).y = true) :
    (r.length : Int) = chebyshev a.start a.end_ + 1 := by
  have hline : ∀ j : Nat, (j : Int) < chebyshev a.start a.end_ →
      a.isWalkable (lineNode a (j + 1)).coordinates.x
        (lineNode a (j + 1)).coordinates.y = true := by
    intro j hj
    rw [lineNode_coordinates]
    exact hrun j hj
  have hD : ((chebyshev a.start a.end_).toNat : Int) = chebyshev a.start a.end_ :=
    Int.toNat_of_nonneg (chebyshev_nonneg _ _)
  have hrun2 := search_line_walkable a hline (chebyshev a.start a.end_).toNat 0 (initState a)
    tie (by rw [hD]; rfl) (by rw [hD]; simp) (lineInv_initState a)
  rw [Nat.zero_add] at hrun2
  have hr := findPath_unique a tie _ fuel _ r hrun2 h
  rw [hr, List.length_reverse, lineNode_trace_length]
  simp only [Nat.cast_add, Nat.cast_one, hD]

/-- C1, amended: if `findPath` returns a non-empty path, that path is `start`
followed by a route to the goal over in-bounds walkable cells, and

* it has at most twice as many moves as any route from `start` to the goal;
* it has no more moves than any route from `start` to the goal along which the
  Manhattan distance to the goal never exceeds the number of moves still to
  make;
* it is a minimum-cost route, no route from `start` to the goal having fewer
  moves, whenever every cell of the straight run from `start` towards the goal
  is walkable, as on every grid without obstacles that has `start` and the
  goal in bounds. -/
theorem findPath_route_cost (a : AStar) (tie : Nat → Nat) (fuel : Nat) (r : List Point)
    (h : findPath a tie fuel = some r) (hne : r ≠ []) :
    ∃ ds, r = a.start :: ds ∧ IsRoute a a.start ds a.end_ ∧
      (∀ ds2, IsRoute a a.start ds2 a.end_ → ds.length ≤ 2 * ds2.length) ∧
      (∀ ds2, IsRoute a a.start ds2 a.end_ → AdmissibleAlong a.end_ a.start ds2 →
        ds.length ≤ ds2.length) ∧
      ((∀ j : Nat, (j : Int) < chebyshev a.start a.end_ →
          a.isWalkable (straightRun a.start a.end_ (j + 1)).x
            (straightRun a.start a.end_ (j + 1)).y = true) →
        ∀ ds2, IsRoute a a.start ds2 a.end_ → ds.length ≤ ds2.length) := by
  obtain ⟨ds, hr, hds⟩ := findPath_route a tie fuel r h hne
  have hlen : r.length = ds.length + 1 := by rw [hr, List.length_cons]
  refine ⟨ds, hr, hds, ?_, ?_, ?_⟩
  · intro ds2 hds2
    have := findPath_length_le_twice a tie fuel r h hne ds2 hds2
    omega
  · intro ds2 hds2 hadm
    have := findPath_length_le_along a tie fuel r h hne ds2 hds2 hadm
    omega
  · intro hrun ds2 hds2
    have h1 := findPath_length_straight a tie fuel r h hrun
    have h2 := IsRoute.chebyshev_le a ds2 a.start a.end_ hds2
    rw [hlen] at h1
    simp only [Nat.cast_add, Nat.cast_one] at h1
    omega

theorem build_eq_ofWalls (width height : Nat) (s e : Point) (walls : List (Int × Int)) :
    AStar.build (width : Int) (height : Int) s e walls
      = some (AStar.ofWalls width height s e walls) := by
  simp [AStar.build, AStar.construct, AStar.ofWalls]

/-- Witness for C1, amended, on the 5×4 grid with walls at (1,0), (0,2), (2,3)
and (4,0).  With start (0,0) and goal (4,2) the straight run (1,1), (2,2),
(3,2), (4,2) is walkable, the goal has the walkable diagonal neighbour (3,1),
and the returned path of four moves is a minimum-cost route.  With start (0,1)
and goal (4,1) the heuristic does not overestimate along the route through
(1,1), (2,1), (3,1), and the returned path has no more moves than it. -/
theorem findPath_route_cost_witness :
    (AStar.build 5 4 ⟨0, 0⟩ ⟨4, 2⟩ [(1, 0), (0, 2), (2, 3), (4, 0)]
        = some (AStar.ofWalls 5 4 ⟨0, 0⟩ ⟨4, 2⟩ [(1, 0), (0, 2), (2, 3), (4, 0)]) ∧
      findPath (AStar.ofWalls 5 4 ⟨0, 0⟩ ⟨4, 2⟩ [(1, 0), (0, 2), (2, 3), (4, 0)]) (fun _ => 0) 5
        = some [⟨0, 0⟩, ⟨1, 1⟩, ⟨2, 2⟩, ⟨3, 2⟩, ⟨4, 2⟩] ∧
      (AStar.ofWalls 5 4 ⟨0, 0⟩ ⟨4, 2⟩ [(1, 0), (0, 2), (2, 3), (4, 0)]).isWalkable 3 1 = true ∧
      ∀ ds2, IsRoute (AStar.ofWalls 5 4 ⟨0, 0⟩ ⟨4, 2⟩ [(1, 0), (0, 2), (2, 3), (4, 0)])
        ⟨0, 0⟩ ds2 ⟨4, 2⟩ → 4 ≤ ds2.length) ∧
    (findPath (AStar.ofWalls 5 4 ⟨0, 1⟩ ⟨4, 1⟩ [(1, 0), (0, 2), (2, 3), (4, 0)]) (fun _ => 0) 5
        = some [⟨0, 1⟩, ⟨1, 1⟩, ⟨2, 1⟩, ⟨3, 1⟩, ⟨4, 1⟩] ∧
      IsRoute (AStar.ofWalls 5 4 ⟨0, 1⟩ ⟨4, 1⟩ [(1, 0), (0, 2), (2, 3), (4, 0)])
        ⟨0, 1⟩ [⟨1, 1⟩, ⟨2, 1⟩, ⟨3, 1⟩, ⟨4, 1⟩] ⟨4, 1⟩ ∧
      AdmissibleAlong ⟨4, 1⟩ ⟨0, 1⟩ [⟨1, 1⟩, ⟨2, 1⟩, ⟨3, 1⟩, ⟨4, 1⟩] ∧
      ([⟨1, 1⟩, ⟨2, 1⟩, ⟨3, 1⟩, ⟨4, 1⟩] : List Point).length ≤ 4) := by
  constructor
  · refine ⟨build_eq_ofWalls 5 4 _ _ _, by decide, by decide, ?_⟩
    intro ds2 hds2
    obtain ⟨ds, hr, _, _, _, hopt⟩ := findPath_route_cost
      (AStar.ofWalls 5 4 ⟨0, 0⟩ ⟨4, 2⟩ [(1, 0), (0, 2), (2, 3), (4, 0)]) (fun _ => 0) 5
      [⟨0, 0⟩, ⟨1, 1⟩, ⟨2, 2⟩, ⟨3, 2⟩, ⟨4, 2⟩] (by decide) (by decide)
    have hds : ds = [⟨1, 1⟩, ⟨2, 2⟩, ⟨3, 2⟩, ⟨4, 2⟩] := (List.cons.inj hr).2.symm
    subst hds
    refine hopt ?_ ds2 hds2
    intro j hj
    have hc : chebyshev (AStar.ofWalls 5 4 ⟨0, 0⟩ ⟨4, 2⟩ [(1, 0), (0, 2), (2, 3), (4, 0)]).start
        (AStar.ofWalls 5 4 ⟨0, 0⟩ ⟨4, 2⟩ [(1, 0), (0, 2), (2, 3), (4, 0)]).end_ = 4 := by decide
    rw [hc] at hj
    have hj4 : j < 4 := by omega
    interval_cases j <;> decide
  · refine ⟨by decide, by decide, by decide, ?_⟩
    obtain ⟨ds, hr, _, _, halong, _⟩ := findPath_route_cost
      (AStar.ofWalls 5 4 ⟨0, 1⟩ ⟨4, 1⟩ [(1, 0), (0, 2), (2, 3), (4, 0)]) (fun _ => 0) 5
      [⟨0, 1⟩, ⟨1, 1⟩, ⟨2, 1⟩, ⟨3, 1⟩, ⟨4, 1⟩] (by decide) (by decide)
    have hds : ds = [⟨1, 1⟩, ⟨2, 1⟩, ⟨3, 1⟩, ⟨4, 1⟩] := (List.cons.inj hr).2.symm
    subst hds
    exact halong [⟨1, 1⟩, ⟨2, 1⟩, ⟨3, 1⟩, ⟨4, 1⟩] (by decide) (by decide)

/-! ### The call with the library queue -/

theorem relaxCall_self (pq : PriorityQueue) (cur : Node) (cs : CallState pq) (o : Int × Int) :
    (relaxCall pq cur cs o).self = cs.self := by
  unfold relaxCall
  simp only []
  split
  · rfl
  · split
    · split <;> rfl
    · rfl

theorem foldl_relaxCall_self (pq : PriorityQueue) (cur : Node) :
    ∀ (os : List (Int × Int)) (cs : CallState pq),
      (os.foldl (relaxCall pq cur) cs).self = cs.self := by
  intro os
  induction os with
  | nil => intro cs; rfl
  | cons o os ih =>
    intro cs
    rw [List.foldl_cons, ih, relaxCall_self]

theorem expandCall_self (pq : PriorityQueue) (cur : Node) (cs : CallState pq) :
    (expandCall pq cur cs).self = cs.self :=
  foldl_relaxCall_self pq cur offsets cs

theorem searchCall_succ (pq : PriorityQueue) (fuel : Nat) (cs : CallState pq) :
    searchCall pq (fuel + 1) cs =
      match pq.top cs.openSet with
      | none => some ([], cs.self)
      | some cur =>
        if cur.coordinates = cs.self.end_ then some (cur.trace.reverse, cs.self)
        else
          searchCall pq fuel
            (expandCall pq cur
              { self := cs.self, openSet := pq.pop cs.openSet, allNodes := cs.allNodes }) :=
  rfl

/-- The loop hands back the object it was started on: no statement of the loop
assigns to a member. -/
theorem searchCall_self (pq : PriorityQueue) :
    ∀ (fuel : Nat) (cs : CallState pq) (r : List Point) (a2 : AStar),
      searchCall pq fuel cs = some (r, a2) → a2 = cs.self := by
  intro fuel
  induction fuel with
  | zero => intro cs r a2 h; cases h
  | succ fuel ih =>
    intro cs r a2 h
    rw [searchCall_succ] at h
    split at h
    · simp only [Option.some.injEq, Prod.mk.injEq] at h
      exact h.2.symm
    · split at h
      · simp only [Option.some.injEq, Prod.mk.injEq] at h
        exact h.2.symm
      · have := ih _ r a2 h
        rw [expandCall_self] at this
        exact this

/-- More fuel does not change what a call returns. -/
theorem searchCall_fuel_le (pq : PriorityQueue) :
    ∀ (fuel fuel2 : Nat) (cs : CallState pq) (x : List Point × AStar), fuel ≤ fuel2 →
      searchCall pq fuel cs = some x → searchCall pq fuel2 cs = some x := by
  intro fuel
  induction fuel with
  | zero => intro fuel2 cs x _ h; cases h
  | succ fuel ih =>
    intro fuel2 cs x hle h
    obtain ⟨k, rfl⟩ : ∃ k, fuel2 = k + 1 := ⟨fuel2 - 1, by omega⟩
    rw [searchCall_succ] at h ⊢
    split
    · rename_i htop
      rw [htop] at h
      exact h
    · rename_i cur htop
      rw [htop] at h
      simp only [] at h ⊢
      split
      · rename_i hc
        rw [if_pos hc] at h
        exact h
      · rename_i hc
        rw [if_neg hc] at h
        exact ih k _ x (by omega) h

theorem initCall_self (pq : PriorityQueue) (a : AStar) : (initCall pq a).self = a := rfl

theorem findPathCall_self (pq : PriorityQueue) (a a2 : AStar) (fuel : Nat) (r : List Point)
    (h : findPathCall pq a fuel = some (r, a2)) : a2 = a :=
  searchCall_self pq fuel (initCall pq a) r a2 h

theorem findPathCall_unique (pq : PriorityQueue) (a : AStar) (fuel fuel2 : Nat)
    (x x2 : List Point × AStar)
    (h : findPathCall pq a fuel = some x) (h2 : findPathCall pq a fuel2 = some x2) : x2 = x := by
  rcases Nat.le_total fuel fuel2 with hle | hle
  · have := searchCall_fuel_le pq fuel fuel2 _ x hle h
    unfold findPathCall at h2
    rw [this] at h2
    exact (Option.some.inj h2).symm
  · have := searchCall_fuel_le pq fuel2 fuel _ x2 hle h2
    unfold findPathCall at h
    rw [this] at h
    exact Option.some.inj h
theorem pushNode_matches (pq : PriorityQueue) (hl : pq.Lawful) (cs : CallState pq)
    (st : SearchState) (s : Node) (h : Matches pq cs st) :
    Matches pq (pushNodeCall pq cs s) (pushNode st s) := by
  obtain ⟨h1, h2⟩ := h
  refine ⟨?_, ?_⟩
  · show (pq.toList (pq.push cs.openSet s)).Perm (st.openSet ++ [s])
    exact ((hl.toList_push cs.openSet s).trans (List.Perm.cons s h1)).trans
      (List.perm_append_singleton s st.openSet).symm
  · show (fun p => if p = s.coordinates then some s else cs.allNodes p)
      = fun p => if p = s.coordinates then some s else st.allNodes p
    rw [h2]

theorem relax_matches (pq : PriorityQueue) (hl : pq.Lawful) (cur : Node) (cs : CallState pq)
    (st : SearchState) (o : Int × Int) (h : Matches pq cs st) :
    Matches pq (relaxCall pq cur cs o) (relax cs.self cur st o) := by
  unfold relaxCall relax
  simp only []
  split
  · exact h
  · rw [h.2]
    split
    · split
      · exact h
      · exact pushNode_matches pq hl cs st _ h
    · exact pushNode_matches pq hl cs st _ h

theorem foldl_relax_matches (pq : PriorityQueue) (hl : pq.Lawful) (cur : Node) (a : AStar) :
    ∀ (os : List (Int × Int)) (cs : CallState pq) (st : SearchState), cs.self = a →
      Matches pq cs st →
      Matches pq (os.foldl (relaxCall pq cur) cs) (os.foldl (relax a cur) st) := by
  intro os
  induction os with
  | nil => intro cs st _ h; exact h
  | cons o os ih =>
    intro cs st ha h
    rw [List.foldl_cons, List.foldl_cons]
    refine ih _ _ ((relaxCall_self pq cur cs o).trans ha) ?_
    have := relax_matches pq hl cur cs st o h
    rw [ha] at this
    exact this

theorem expand_matches (pq : PriorityQueue) (hl : pq.Lawful) (cur : Node) (cs : CallState pq)
    (st : SearchState) (h : Matches pq cs st) :
    Matches pq (expandCall pq cur cs) (expand cs.self cur st) :=
  foldl_relax_matches pq hl cur cs.self offsets cs st rfl h

theorem popOpen_indexOf (l : List Node) (n : Node) (h : n ∈ candidates l) :
    popOpen ((candidates l).indexOf n) l = some (n, l.erase n) := by
  have hlt : (candidates l).indexOf n < (candidates l).length := List.indexOf_lt_length.mpr h
  unfold popOpen
  rw [Nat.mod_eq_of_lt hlt, List.getElem?_indexOf h]

/-- A call with a lawful queue is the run of the list model under the
tie-breaking that the queue makes. -/
theorem searchCall_eq_search (pq : PriorityQueue) (hl : pq.Lawful) :
    ∀ (fuel : Nat) (cs : CallState pq) (st : SearchState), Matches pq cs st →
      searchCall pq fuel cs
        = (search cs.self fuel (fun k => tieOf pq k cs st) st).map fun r => (r, cs.self) := by
  intro fuel
  induction fuel with
  | zero => intro cs st _; rfl
  | succ fuel ih =>
    intro cs st h
    rw [searchCall_succ, search_succ]
    cases htop : pq.top cs.openSet with
    | none =>
      have hnil : st.openSet = [] := by
        have h1 : (pq.toList cs.openSet).Perm st.openSet := h.1
        rw [hl.top_none _ htop] at h1
        exact h1.nil_eq.symm
      simp only [hnil, popOpen_nil, Option.map_some']
    | some cur =>
      have hmem : cur ∈ candidates st.openSet := by
        rw [mem_candidates]
        refine ⟨h.1.mem_iff.mp (hl.top_mem _ _ htop), fun m hm => ?_⟩
        exact hl.top_le _ _ htop m (h.1.mem_iff.mpr hm)
      have ht0 : tieOf pq 0 cs st = (candidates st.openSet).indexOf cur := by
        simp only [tieOf, htop]
      simp only [ht0, popOpen_indexOf _ _ hmem]
      by_cases hc : cur.coordinates = cs.self.end_
      · simp only [if_pos hc, Option.map_some']
      · simp only [if_neg hc]
        have hm2 : Matches pq
            { self := cs.self, openSet := pq.pop cs.openSet, allNodes := cs.allNodes }
            { st with openSet := st.openSet.erase cur } :=
          ⟨(hl.toList_pop _ _ htop).trans (h.1.erase cur), h.2⟩
        have hm3 := expand_matches pq hl cur _ _ hm2
        have := ih _ _ hm3
        rw [expandCall_self] at this
        rw [this]
        have htie : (fun i => tieOf pq (i + 1) cs st)
            = fun k => tieOf pq k
                (expandCall pq cur
                  { self := cs.self, openSet := pq.pop cs.openSet, allNodes := cs.allNodes })
                (expand cs.self cur { st with openSet := st.openSet.erase cur }) := by
          funext k
          simp only [tieOf, htop]
        rw [htie]

theorem initCall_matches (pq : PriorityQueue) (hl : pq.Lawful) (a : AStar) :
    Matches pq (initCall pq a) (initState a) :=
  pushNode_matches pq hl _ _ _ ⟨by rw [hl.toList_create], rfl⟩

/-- The tie-breaking under which the list model makes the run of a call with
a lawful queue. -/
theorem findPathCall_eq_findPath (pq : PriorityQueue) (hl : pq.Lawful) (a : AStar) (fuel : Nat) :
    findPathCall pq a fuel
      = (findPath a (fun k => tieOf pq k (initCall pq a) (initState a)) fuel).map
          fun r => (r, a) :=
  searchCall_eq_search pq hl fuel (initCall pq a) (initState a) (initCall_matches pq hl a)

/-- With a lawful queue every call returns. -/
theorem findPathCall_terminates (pq : PriorityQueue) (hl : pq.Lawful) (a : AStar) :
    ∃ fuel r, findPathCall pq a fuel = some (r, a) := by
  obtain ⟨fuel, r, h⟩ :=
    findPath_terminates a (fun k => tieOf pq k (initCall pq a) (initState a))
  exact ⟨fuel, r, by rw [findPathCall_eq_findPath pq hl, h]; rfl⟩
theorem oldestFirst_lawful : oldestFirst.Lawful where
  toList_create := rfl
  toList_push q n := List.perm_append_singleton n q
  top_none q h := by
    by_contra hne
    exact candidates_ne_nil q hne (List.head?_eq_none_iff.mp h)
  top_mem q n h := ((mem_candidates q n).mp (List.mem_of_mem_head? h)).1
  top_le q n h := ((mem_candidates q n).mp (List.mem_of_mem_head? h)).2
  toList_pop q n h := by
    have h2 : (candidates q).head? = some n := h
    show (match (candidates q).head? with
      | some n => q.erase n
      | none => q).Perm (q.erase n)
    rw [h2]

theorem newestFirst_lawful : newestFirst.Lawful where
  toList_create := rfl
  toList_push q n := List.perm_append_singleton n q
  top_none q h := by
    by_contra hne
    exact candidates_ne_nil q hne (List.getLast?_eq_none_iff.mp h)
  top_mem q n h := ((mem_candidates q n).mp (List.mem_of_mem_getLast? h)).1
  top_le q n h := ((mem_candidates q n).mp (List.mem_of_mem_getLast? h)).2
  toList_pop q n h := by
    have h2 : (candidates q).getLast? = some n := h
    show (match (candidates q).getLast? with
      | some n => q.erase n
      | none => q).Perm (q.erase n)
    rw [h2]

/-- Two lawful queues may break ties differently, and the paths that two such
calls return on one grid then agree in being empty or not and differ in length
by a factor of at most two; they have the same length when the straight run
from `start` towards the goal is walkable. -/
theorem findPathCall_two_queues (pq1 pq2 : PriorityQueue) (hl1 : pq1.Lawful) (hl2 : pq2.Lawful)
    (a b1 b2 : AStar) (fuel1 fuel2 : Nat) (r1 r2 : List Point)
    (h1 : findPathCall pq1 a fuel1 = some (r1, b1))
    (h2 : findPathCall pq2 a fuel2 = some (r2, b2)) :
    (r1 = [] ↔ r2 = []) ∧ r2.length - 1 ≤ 2 * (r1.length - 1) ∧
      ((∀ j : Nat, (j : Int) < chebyshev a.start a.end_ →
          a.isWalkable (straightRun a.start a.end_ (j + 1)).x
            (straightRun a.start a.end_ (j + 1)).y = true) →
        r2.length = r1.length) := by
  rw [findPathCall_eq_findPath pq1 hl1] at h1
  rw [findPathCall_eq_findPath pq2 hl2] at h2
  obtain ⟨s1, hs1, he1⟩ := Option.map_eq_some'.mp h1
  obtain ⟨s2, hs2, he2⟩ := Option.map_eq_some'.mp h2
  obtain rfl : s1 = r1 := (Prod.mk.inj he1).1
  obtain rfl : s2 = r2 := (Prod.mk.inj he2).1
  have key : ∀ (t1 t2 : Nat → Nat) (f1 f2 : Nat) (p1 p2 : List Point),
      findPath a t1 f1 = some p1 → findPath a t2 f2 = some p2 → p1 ≠ [] →
        p2 ≠ [] ∧ p2.length - 1 ≤ 2 * (p1.length - 1) := by
    intro t1 t2 f1 f2 p1 p2 e1 e2 hne
    obtain ⟨ds, hr, hds⟩ := findPath_route a t1 f1 p1 e1 hne
    have hne2 := findPath_complete a t2 f2 p2 e2 ds hds
    have := findPath_length_le_twice a t2 f2 p2 e2 hne2 ds hds
    rw [hr, List.length_cons]
    exact ⟨hne2, by omega⟩
  refine ⟨⟨fun e => ?_, fun e => ?_⟩, ?_, ?_⟩
  · by_contra hne
    exact (key _ _ _ _ _ _ hs2 hs1 hne).1 e
  · by_contra hne
    exact (key _ _ _ _ _ _ hs1 hs2 hne).1 e
  · by_cases hne : s1 = []
    · have : s2 = [] := by
        by_contra hne2
        exact (key _ _ _ _ _ _ hs2 hs1 hne2).1 hne
      rw [this]
      exact Nat.zero_le _
    · exact (key _ _ _ _ _ _ hs1 hs2 hne).2
  · intro hrun
    have e1 := findPath_length_straight a _ _ _ hs1 hrun
    have e2 := findPath_length_straight a _ _ _ hs2 hrun
    omega

/-- On the 3×4 grid with a wall at (1,1), start (0,0) and goal (2,3) the queue
that prefers the oldest of several minimal nodes leads to a path of four cells
and the queue that prefers the newest one to a path of five cells. -/
theorem findPathCall_depends_on_queue :
    findPathCall oldestFirst (AStar.ofWalls 3 4 ⟨0, 0⟩ ⟨2, 3⟩ [(1, 1)]) 5
        = some ([⟨0, 0⟩, ⟨0, 1⟩, ⟨1, 2⟩, ⟨2, 3⟩], AStar.ofWalls 3 4 ⟨0, 0⟩ ⟨2, 3⟩ [(1, 1)]) ∧
      findPathCall newestFirst (AStar.ofWalls 3 4 ⟨0, 0⟩ ⟨2, 3⟩ [(1, 1)]) 5
        = some ([⟨0, 0⟩, ⟨1, 0⟩, ⟨2, 1⟩, ⟨2, 2⟩, ⟨2, 3⟩],
            AStar.ofWalls 3 4 ⟨0, 0⟩ ⟨2, 3⟩ [(1, 1)]) := by
  constructor <;> decide

/-- C13: `findPath` is idempotent on an unmodified grid.  For every
implementation `pq` of the library queue, a call that returns `r` leaves the
object as it was (`a2 = a`: walkable flags, dimensions, `start` and `end`), a
second call on the object it left returns the identical cell sequence `r`,
hence a sequence of identical length and cost, and leaves the object as it was
again.  Each call starts from a new queue and a new registry, and the object
after the call is what the loop hands on, not the argument of the call. -/
theorem findPathCall_idempotent (pq : PriorityQueue) (a a2 : AStar) (fuel : Nat)
    (r : List Point) (h : findPathCall pq a fuel = some (r, a2)) :
    a2 = a ∧ (∀ x y, a2.isWalkable x y = a.isWalkable x y) ∧
      findPathCall pq a2 fuel = some (r, a2) ∧
      ∀ fuel2 r2 a3, findPathCall pq a2 fuel2 = some (r2, a3) →
        r2 = r ∧ r2.length = r.length ∧ a3 = a2 := by
  have ha : a2 = a := findPathCall_self pq a a2 fuel r h
  subst ha
  refine ⟨rfl, fun _ _ => rfl, h, ?_⟩
  intro fuel2 r2 a3 h2
  have := findPathCall_unique pq a2 fuel fuel2 _ _ h h2
  obtain ⟨e1, e2⟩ := Prod.mk.inj this
  exact ⟨e1, by rw [e1], e2⟩

/-- Witness for C13: the 3×4 grid with a wall at (1,1), start (0,0) and goal
(2,3), with the queue that prefers the oldest minimal node.  The call returns
a path of four cells after four iterations, and so does the second call. -/
theorem findPathCall_idempotent_witness :
    findPathCall oldestFirst (AStar.ofWalls 3 4 ⟨0, 0⟩ ⟨2, 3⟩ [(1, 1)]) 4
        = some ([⟨0, 0⟩, ⟨0, 1⟩, ⟨1, 2⟩, ⟨2, 3⟩], AStar.ofWalls 3 4 ⟨0, 0⟩ ⟨2, 3⟩ [(1, 1)]) ∧
      ∀ fuel2 r2 a3,
        findPathCall oldestFirst (AStar.ofWalls 3 4 ⟨0, 0⟩ ⟨2, 3⟩ [(1, 1)]) fuel2 = some (r2, a3) →
          r2 = [⟨0, 0⟩, ⟨0, 1⟩, ⟨1, 2⟩, ⟨2, 3⟩] ∧ r2.length = 4 ∧
            a3 = AStar.ofWalls 3 4 ⟨0, 0⟩ ⟨2, 3⟩ [(1, 1)] :=
  ⟨by decide,
    (findPathCall_idempotent oldestFirst (AStar.ofWalls 3 4 ⟨0, 0⟩ ⟨2, 3⟩ [(1, 1)])
      (AStar.ofWalls 3 4 ⟨0, 0⟩ ⟨2, 3⟩ [(1, 1)]) 4 [⟨0, 0⟩, ⟨0, 1⟩, ⟨1, 2⟩, ⟨2, 3⟩]
      (by decide)).2.2.2⟩

/-- On the grid of `main` every tie-breaking returns, within twenty-nine
iterations, a path of seventeen cells, and no route from `start` to the goal
has fewer than sixteen moves: there the returned path is a minimum-cost
route. -/
theorem findPath_main_grid_optimal :
    ∃ a, AStar.build 10 10 ⟨5, 0⟩ ⟨9, 9⟩ mainWalls = some a ∧
      ∀ tie : Nat → Nat, ∃ r, (∀ fuel, 29 ≤ fuel → findPath a tie fuel = some r) ∧
        r.length = 17 ∧ ∀ ds2, IsRoute a a.start ds2 a.end_ → 16 ≤ ds2.length := by
  refine ⟨AStar.ofWalls 10 10 ⟨5, 0⟩ ⟨9, 9⟩ mainWalls, build_eq_ofWalls 10 10 _ _ _, fun tie => ?_⟩
  obtain ⟨r, hr, hlen⟩ := findPath_of_allRuns (AStar.ofWalls 10 10 ⟨5, 0⟩ ⟨9, 9⟩ mainWalls)
    (fun r => r.length = 17) 29 (by decide) tie
  refine ⟨r, hr, hlen, fun ds2 hds2 => ?_⟩
  have hpot := IsRoute.potential (AStar.ofWalls 10 10 ⟨5, 0⟩ ⟨9, 9⟩ mainWalls)
    (tableAt mainDistance) (by decide) ds2 _ _ (mem_cells _ _ (by decide)) hds2
  have e1 : tableAt mainDistance ⟨9, 9⟩ = 16 := by decide
  have e2 : tableAt mainDistance ⟨5, 0⟩ = 0 := by decide
  have hpot2 : tableAt mainDistance ⟨9, 9⟩ ≤ tableAt mainDistance ⟨5, 0⟩ + (ds2.length : Int) :=
    hpot
  omega

end AStarExample
